import Mathlib

/-!
Verification of the mean-preserving-interpolation core of
`cmip7_scenariomip_ghg_generation` (grouping utilities, the Lai-Kaplan
interpolator and the annual-to-monthly facade).

The embedding works over exact rationals (`ℚ`): numpy arrays of
float-with-unit quantities become `List ℚ` (all quantities are kept in the
unit of the corresponding x-axis, so the pint `.to(...)` conversions are
identities), and fallible numpy/python operations become `Except Err`
values whose error constructors mirror the distinct python exception sites.
-/

set_option autoImplicit false

namespace Cmip7

attribute [local semireducible] Rat.add Rat.mul Rat.inv Rat.sub Rat.ofScientific

/-- Error values. Each constructor corresponds to one distinct raise site of
the python source (the payload keeps the concrete offending values where the
source puts them into the message). -/
inductive Err where
  /-- `NonIntersectingBoundsError` from `grouping.get_group_boundary_indexes`,
  carrying the group-bounds values that are absent from `x_bounds`. -/
  | nonIntersecting (offending : List Rat)
  /-- numpy `IndexError` from indexing an array out of range
  (e.g. `res[0]` on an empty selection, or `x_steps[0]` on empty steps). -/
  | indexOutOfRange
  /-- numpy broadcast `ValueError` when elementwise operands have
  incompatible lengths. -/
  | broadcastMismatch
  /-- `AssertionError` for unsorted `x_bounds_out` in
  `LaiKaplanInterpolator.__call__`. -/
  | outBoundsUnsorted
  /-- `pint.testing.assert_allclose` failure: non-uniform spacing in
  `x_bounds_in`. -/
  | nonUniformSpacing
  /-- `numpy.linalg.LinAlgError` for a singular system in `np.linalg.solve`. -/
  | singularMatrix
  /-- `ValueError` from `LaiKaplanF.calculate_integral_definite*`:
  `x_lower >= x_upper`. -/
  | integralBoundsOrder (xLower xUpper : Rat)
  /-- `ValueError` from `LaiKaplanF` domain checking: the evaluation point is
  outside `[x_i, x_i + delta]`. -/
  | integralDomain (x xi delta : Rat)
  /-- python `NameError`: the evaluation loop reads `lai_kaplan_f` before any
  iteration has constructed it. -/
  | nameErrorPatch
  /-- `AssertionError`: some `y_in` value is below the configured minimum
  (the infeasible-minimum error). -/
  | infeasibleMin
  /-- `IndexError` from `LaiKaplanArray.to_data_index`: index below the
  minimum Lai-Kaplan index. -/
  | lkIdxBelowMin (idx min : Rat)
  /-- `IndexError` from `LaiKaplanArray.to_data_index`: the converted data
  index is not an integer. -/
  | lkIdxNotInteger (idx : Rat)
  /-- `IndexError` from `LaiKaplanArray.to_data_index`: the converted data
  index is beyond the data array. -/
  | lkIdxTooBig (idx : Rat)
  /-- `NotImplementedError` (unsupported extrapolation configuration). -/
  | notImplemented
  /-- Mean-preservation verification failure in
  `core.mean_preserving_interpolation` (when verification is enabled). -/
  | meanNotPreserved
deriving DecidableEq, Repr

instance {ε α : Type} [DecidableEq ε] [DecidableEq α] : DecidableEq (Except ε α) := fun
  | .ok a, .ok b =>
    match decEq a b with
    | isTrue h => isTrue (by rw [h])
    | isFalse h => isFalse (by intro hc; cases hc; exact h rfl)
  | .error a, .error b =>
    match decEq a b with
    | isTrue h => isTrue (by rw [h])
    | isFalse h => isFalse (by intro hc; cases hc; exact h rfl)
  | .ok _, .error _ => isFalse (by intro hc; cases hc)
  | .error _, .ok _ => isFalse (by intro hc; cases hc)

/-! ### Small list helpers shared by the embedding (numpy primitives) -/

/-- numpy `np.diff`: differences of consecutive elements. -/
def npDiff (l : List ℚ) : List ℚ := List.zipWith (fun a b => b - a) l l.tail

/-- numpy `np.diff` on an index array (`ℕ`-valued; the arrays it is applied
to are strictly increasing, so plain subtraction is faithful). -/
def npDiffNat (l : List ℕ) : List ℕ := List.zipWith (fun a b => b - a) l l.tail

/-- numpy `np.cumsum`: running totals. -/
def cumsum : List ℚ → List ℚ
  | [] => []
  | v :: vs => v :: (cumsum vs).map (fun c => v + c)

/-- Look every index of `sel` up in `cums` (numpy fancy indexing); any
out-of-range index is a numpy `IndexError`. -/
def selectAll (cums : List ℚ) : List ℕ → Except Err (List ℚ)
  | [] => .ok []
  | i :: rest =>
    match cums.get? i with
    | some v =>
      match selectAll cums rest with
      | .ok vs => .ok (v :: vs)
      | .error e => .error e
    | none => .error .indexOutOfRange

/-- Sum of the fine values with indices in `[a, b)` (used to state what a
"per-group sum" is). -/
def segSum (vals : List ℚ) (a b : ℕ) : ℚ := ((vals.drop a).take (b - a)).sum

/-! ### Grouping utilities (`mean_preserving_interpolation/grouping.py`) -/

/-- Indices of the elements of `x_bounds` that occur in `group_bounds`,
starting the count at `i`: models `np.where(np.isin(xb_m, gb_m))`. -/
def isinIdxs (gb : List ℚ) : List ℚ → ℕ → List ℕ
  | [], _ => []
  | x :: rest, i =>
    if x ∈ gb then i :: isinIdxs gb rest (i + 1) else isinIdxs gb rest (i + 1)

/-- `grouping.get_group_boundary_indexes`: fails with
`NonIntersectingBoundsError` when some `group_bounds` value is absent from
`x_bounds` (`~np.isin(gb_m, xb_m)`), else returns
`np.where(np.isin(xb_m, gb_m))`. -/
def get_group_boundary_indexes (x_bounds group_bounds : List ℚ) :
    Except Err (List ℕ) :=
  let missing := group_bounds.filter (fun g => decide (g ∉ x_bounds))
  if missing.isEmpty then .ok (isinIdxs group_bounds x_bounds 0)
  else .error (.nonIntersecting missing)

/-- `grouping.get_number_elements_per_group`: `np.diff` of the boundary
indices. -/
def get_number_elements_per_group (x_bounds group_bounds : List ℚ) :
    Except Err (List ℕ) := do
  let idxs ← get_group_boundary_indexes x_bounds group_bounds
  return npDiffNat idxs

/-- Assign `v` to positions `[a, b)` of `l` (models `res[start:stop] = i`). -/
def setRange (l : List ℤ) (a b : ℕ) (v : ℤ) : List ℤ :=
  (l.enum).map (fun p => if a ≤ p.1 ∧ p.1 < b then v else p.2)

/-- `grouping.get_group_indexes`: for each fine interval, the index of the
group it belongs to (`-1` where no group covers it). -/
def get_group_indexes (x_bounds group_bounds : List ℚ) :
    Except Err (List ℤ) := do
  let idxs ← get_group_boundary_indexes x_bounds group_bounds
  let init : List ℤ := List.replicate (x_bounds.length - 1) (-1)
  let pairs := List.zip idxs idxs.tail
  return (pairs.enum).foldl (fun acc p => setRange acc p.2.1 p.2.2 (p.1 : ℤ)) init

/-- The index selection used by `get_group_sums` / `get_group_integrals`:
boundary indices minus one, dropping negatives. -/
def sumGroupIdxs (idxs : List ℕ) : List ℕ :=
  ((idxs.map (fun (i : ℕ) => (i : ℤ) - 1)).filter (fun z => decide (0 ≤ z))).map
    Int.toNat

/-- `np.hstack([res[0], np.diff(res)])`: `res[0]` on an empty selection is a
numpy `IndexError`. -/
def hstackFirstDiff : List ℚ → Except Err (List ℚ)
  | [] => .error .indexOutOfRange
  | p0 :: rest => .ok (p0 :: List.zipWith (fun a b => b - a) (p0 :: rest) rest)

/-- Shared tail of `get_group_sums` / `get_group_integrals`: select the
cumulative values at the (shifted) boundary indices, then
`np.hstack([res[0], np.diff(res)])`. -/
def cumulativePick (cums : List ℚ) (idxs : List ℕ) : Except Err (List ℚ) := do
  let picked ← selectAll cums (sumGroupIdxs idxs)
  hstackFirstDiff picked

/-- `grouping.get_group_sums`. -/
def get_group_sums (x_bounds vals group_bounds : List ℚ) :
    Except Err (List ℚ) := do
  let idxs ← get_group_boundary_indexes x_bounds group_bounds
  cumulativePick (cumsum vals) idxs

/-- `grouping.get_group_integrals`: weight each fine value by its interval
width before cumulative summing. The elementwise product
`x_steps * integrand_y` requires equal lengths (numpy broadcasting error
otherwise). -/
def get_group_integrals (integrand_x_bounds integrand_y group_bounds : List ℚ) :
    Except Err (List ℚ) := do
  let idxs ← get_group_boundary_indexes integrand_x_bounds group_bounds
  let x_steps := npDiff integrand_x_bounds
  if x_steps.length ≠ integrand_y.length then .error .broadcastMismatch
  else
    let integrals := List.zipWith (fun w y => w * y) x_steps integrand_y
    cumulativePick (cumsum integrals) idxs

/-- `grouping.get_group_averages`: `group_integrals / group_steps`
(elementwise; numpy broadcasting error on a length mismatch). -/
def get_group_averages (integrand_x_bounds integrand_y group_bounds : List ℚ) :
    Except Err (List ℚ) := do
  let ints ← get_group_integrals integrand_x_bounds integrand_y group_bounds
  let group_steps := npDiff group_bounds
  if ints.length ≠ group_steps.length then .error .broadcastMismatch
  else return List.zipWith (fun a w => a / w) ints group_steps

/-! ### Basic facts about the grouping helpers -/

lemma mem_isinIdxs_ge {gb : List ℚ} :
    ∀ (l : List ℚ) (i x : ℕ), x ∈ isinIdxs gb l i → i ≤ x := by
  intro l
  induction l with
  | nil => intro i x hx; simp [isinIdxs] at hx
  | cons a rest ih =>
    intro i x hx
    by_cases hmem : a ∈ gb
    · simp only [isinIdxs, if_pos hmem, List.mem_cons] at hx
      rcases hx with rfl | hx
      · exact le_refl _
      · exact le_trans (Nat.le_succ i) (ih (i + 1) x hx)
    · simp only [isinIdxs, if_neg hmem] at hx
      exact le_trans (Nat.le_succ i) (ih (i + 1) x hx)

lemma chain_isinIdxs {gb : List ℚ} :
    ∀ (l : List ℚ) (i : ℕ), List.Chain' (· < ·) (isinIdxs gb l i) := by
  intro l
  induction l with
  | nil => intro i; simp [isinIdxs]
  | cons a rest ih =>
    intro i
    by_cases hmem : a ∈ gb
    · simp only [isinIdxs, if_pos hmem]
      refine List.chain'_cons'.mpr ⟨?_, ih (i + 1)⟩
      intro y hy
      exact lt_of_lt_of_le (Nat.lt_succ_self i)
        (mem_isinIdxs_ge rest (i + 1) y (List.mem_of_mem_head? hy))
    · simp only [isinIdxs, if_neg hmem]
      exact ih (i + 1)

lemma npDiffNat_pos : ∀ {l : List ℕ}, List.Chain' (· < ·) l →
    ∀ d ∈ npDiffNat l, 1 ≤ d := by
  intro l
  induction l with
  | nil => intro _ d hd; simp [npDiffNat] at hd
  | cons a rest ih =>
    intro hchain d hd
    match rest, hchain, hd with
    | [], _, hd => simp [npDiffNat] at hd
    | b :: rest, hchain, hd =>
      rw [List.chain'_cons] at hchain
      simp only [npDiffNat, List.tail_cons, List.zipWith_cons_cons,
        List.mem_cons] at hd
      rcases hd with rfl | hd
      · omega
      · exact ih hchain.2 d hd

/-! ### Claim C7: non-intersecting group bounds raise everywhere -/

/-- C7. If any `group_bounds` value is absent from `x_bounds`, then
`get_group_boundary_indexes` — and every grouping utility built on it —
returns the `NonIntersectingBoundsError` carrying exactly the offending
boundary values; none of them returns a result. -/
theorem c7_group_boundary_mismatch
    (x_bounds group_bounds vals integrand_y : List ℚ)
    (h : ∃ g ∈ group_bounds, g ∉ x_bounds) :
    get_group_boundary_indexes x_bounds group_bounds =
      .error (.nonIntersecting
        (group_bounds.filter (fun g => decide (g ∉ x_bounds)))) ∧
    get_number_elements_per_group x_bounds group_bounds =
      .error (.nonIntersecting
        (group_bounds.filter (fun g => decide (g ∉ x_bounds)))) ∧
    get_group_indexes x_bounds group_bounds =
      .error (.nonIntersecting
        (group_bounds.filter (fun g => decide (g ∉ x_bounds)))) ∧
    get_group_sums x_bounds vals group_bounds =
      .error (.nonIntersecting
        (group_bounds.filter (fun g => decide (g ∉ x_bounds)))) ∧
    get_group_integrals x_bounds integrand_y group_bounds =
      .error (.nonIntersecting
        (group_bounds.filter (fun g => decide (g ∉ x_bounds)))) ∧
    get_group_averages x_bounds integrand_y group_bounds =
      .error (.nonIntersecting
        (group_bounds.filter (fun g => decide (g ∉ x_bounds)))) := by
  obtain ⟨g, hg, hgn⟩ := h
  have hmem : g ∈ group_bounds.filter (fun g => decide (g ∉ x_bounds)) :=
    List.mem_filter.mpr ⟨hg, by simpa using hgn⟩
  have hne : (group_bounds.filter (fun g => decide (g ∉ x_bounds))).isEmpty = false := by
    cases hf : group_bounds.filter (fun g => decide (g ∉ x_bounds)) with
    | nil => rw [hf] at hmem; simp at hmem
    | cons a t => simp [hf]
  have hbase : get_group_boundary_indexes x_bounds group_bounds =
      .error (.nonIntersecting
        (group_bounds.filter (fun g => decide (g ∉ x_bounds)))) := by
    simp only [get_group_boundary_indexes]
    rw [if_neg]
    rw [hne]
    simp
  refine ⟨hbase, ?_, ?_, ?_, ?_, ?_⟩ <;>
    simp only [get_number_elements_per_group, get_group_indexes, get_group_sums,
      get_group_integrals, get_group_averages, hbase] <;> rfl

/-- C7 witness: a concrete non-intersecting boundary. -/
theorem c7_group_boundary_mismatch_witness :
    (∃ g ∈ [(0 : ℚ), 1/2], g ∉ [(0 : ℚ), 1]) ∧
    get_group_sums [(0 : ℚ), 1] [(5 : ℚ)] [(0 : ℚ), 1/2] =
      .error (.nonIntersecting [(1 : ℚ)/2]) := by
  refine ⟨⟨1/2, by decide, by decide⟩, ?_⟩
  have h := c7_group_boundary_mismatch [(0 : ℚ), 1] [(0 : ℚ), 1/2]
    [(5 : ℚ)] [(5 : ℚ)] ⟨1/2, by decide, by decide⟩
  have := h.2.2.2.1
  simpa using this

/-! ### Claim C9: zero-width groups do not raise -/

/-- C9 counterexample: with the repeated group boundary `1`
(a zero-width group), `get_group_boundary_indexes` and
`get_number_elements_per_group` (and `get_group_sums`) return results
instead of raising: the duplicate boundary is silently collapsed by the
membership test, so only two groups remain. -/
theorem c9_zero_width_counterexample :
    get_group_boundary_indexes [(0 : ℚ), 1, 2, 3] [(0 : ℚ), 1, 1, 3] =
      .ok [0, 1, 3] ∧
    get_number_elements_per_group [(0 : ℚ), 1, 2, 3] [(0 : ℚ), 1, 1, 3] =
      .ok [1, 2] ∧
    get_group_sums [(0 : ℚ), 1, 2, 3] [(10 : ℚ), 20, 30] [(0 : ℚ), 1, 1, 3] =
      .ok [10, 50] := by
  refine ⟨by decide, by decide, by decide⟩

/-- C9 amended: whenever every `group_bounds` value occurs in `x_bounds`,
the grouping utilities do not raise for zero-width groups. Repeated group
boundaries are silently collapsed by the membership test, and every group in
the returned element counts has at least one fine interval. -/
theorem c9_zero_width_amended (x_bounds group_bounds : List ℚ)
    (h : ∀ g ∈ group_bounds, g ∈ x_bounds) :
    ∃ l, get_number_elements_per_group x_bounds group_bounds = .ok l ∧
      ∀ d ∈ l, 1 ≤ d := by
  have hempty : (group_bounds.filter (fun g => decide (g ∉ x_bounds))).isEmpty = true := by
    rw [List.isEmpty_iff]
    rw [List.filter_eq_nil_iff]
    intro g hg
    simpa using h g hg
  refine ⟨npDiffNat (isinIdxs group_bounds x_bounds 0), ?_, ?_⟩
  · simp only [get_number_elements_per_group, get_group_boundary_indexes]
    rw [if_pos hempty]
    rfl
  · exact npDiffNat_pos (chain_isinIdxs x_bounds 0)

/-- C9 amended witness. -/
theorem c9_zero_width_amended_witness :
    (∀ g ∈ [(0 : ℚ), 1, 1, 3], g ∈ [(0 : ℚ), 1, 2, 3]) ∧
    ∃ l, get_number_elements_per_group [(0 : ℚ), 1, 2, 3] [(0 : ℚ), 1, 1, 3] =
      .ok l ∧ ∀ d ∈ l, 1 ≤ d :=
  ⟨by decide, c9_zero_width_amended [(0 : ℚ), 1, 2, 3] [(0 : ℚ), 1, 1, 3]
    (by decide)⟩

/-! ### Claim C10: the cumulative-sum grouping pipeline -/

lemma cumsum_length (l : List ℚ) : (cumsum l).length = l.length := by
  induction l with
  | nil => rfl
  | cons v vs ih => simp [cumsum, ih]

lemma cumsum_get? (l : List ℚ) : ∀ j, j < l.length →
    (cumsum l).get? j = some ((l.take (j + 1)).sum) := by
  induction l with
  | nil => intro j hj; simp at hj
  | cons v vs ih =>
    intro j hj
    cases j with
    | zero => simp [cumsum]
    | succ j =>
      simp only [cumsum, List.get?_cons_succ, List.get?_map]
      rw [ih j (by simpa using hj)]
      simp

lemma segSum_zero (l : List ℚ) (b : ℕ) : segSum l 0 b = (l.take b).sum := by
  simp [segSum]

lemma take_sum_split (l : List ℚ) (a b : ℕ) (hab : a ≤ b) :
    (l.take b).sum = (l.take a).sum + segSum l a b := by
  have hb : b = a + (b - a) := by omega
  conv_lhs => rw [hb]
  rw [List.take_add, List.sum_append]
  rfl

lemma selectAll_ok (cums : List ℚ) :
    ∀ (sel : List ℕ), (∀ i ∈ sel, i < cums.length) →
    selectAll cums sel = .ok (sel.map (fun i => cums.getD i 0)) := by
  intro sel
  induction sel with
  | nil => intro _; rfl
  | cons i rest ih =>
    intro h
    have hi : i < cums.length := h i (by simp)
    cases hq : cums.get? i with
    | none =>
      exfalso
      rw [List.get?_eq_none] at hq
      omega
    | some v =>
      have hrest := ih (fun x hx => h x (by simp [hx]))
      simp only [selectAll, hq, hrest, List.map_cons]
      have hv : cums.getD i 0 = v := by
        rw [List.getD_eq_getElem?_getD, ← List.get?_eq_getElem?, hq]
        rfl
      rw [hv]

lemma getD_map_lt {α : Type} (f : α → ℚ) (sel : List α) (j : ℕ) (d : α)
    (hj : j < sel.length) : (sel.map f).getD j 0 = f (sel.getD j d) := by
  rw [List.getD_eq_getElem?_getD, List.getD_eq_getElem?_getD, List.getElem?_map]
  cases hq : sel[j]? with
  | none =>
    rw [List.getElem?_eq_none_iff] at hq
    omega
  | some a => simp [hq]

lemma zipWith_tail_getD (p : List ℚ) : ∀ j, j + 1 < p.length →
    (List.zipWith (fun a b => b - a) p p.tail).getD j 0 =
      p.getD (j + 1) 0 - p.getD j 0 := by
  induction p with
  | nil => intro j hj; simp at hj
  | cons a t ih =>
    intro j hj
    match t, hj with
    | b :: t2, hj =>
      cases j with
      | zero => simp
      | succ j =>
        simp only [List.tail_cons, List.zipWith_cons_cons, List.getD_cons_succ]
        have := ih j (by simpa using hj)
        simpa using this

lemma hstackFirstDiff_spec (p0 : ℚ) (rest : List ℚ) :
    ∃ r, hstackFirstDiff (p0 :: rest) = .ok r ∧ r.length = rest.length + 1 ∧
      r.getD 0 0 = p0 ∧
      ∀ j, j + 1 < rest.length + 1 →
        r.getD (j + 1) 0 = (p0 :: rest).getD (j + 1) 0 - (p0 :: rest).getD j 0 := by
  refine ⟨p0 :: List.zipWith (fun a b => b - a) (p0 :: rest) rest, rfl, ?_, rfl, ?_⟩
  · simp [List.length_zipWith]
  · intro j hj
    have := zipWith_tail_getD (p0 :: rest) j (by simpa using hj)
    simpa using this

lemma chain_head_lt {α : Type} [Preorder α] [Trans (α := α) (· < ·) (· < ·) (· < ·)]
    {a : α} {t : List α} (h : List.Chain' (· < ·) (a :: t)) : ∀ x ∈ t, a < x := by
  have hp : (a :: t).Pairwise (· < ·) := List.chain'_iff_pairwise.mp h
  exact (List.pairwise_cons.mp hp).1

lemma getD_lt_getD_of_chain {α : Type} [Preorder α]
    [Trans (α := α) (· < ·) (· < ·) (· < ·)] (l : List α)
    (h : List.Chain' (· < ·) l) (d : α) :
    ∀ a b, a < b → b < l.length → l.getD a d < l.getD b d := by
  induction l with
  | nil => intro a b _ hb; simp at hb
  | cons x t ih =>
    intro a b hab hb
    cases b with
    | zero => omega
    | succ b =>
      cases a with
      | zero =>
        simp only [List.getD_cons_zero, List.getD_cons_succ]
        have hx := chain_head_lt h
        have hblen : b < t.length := by simpa using hb
        have hmem : t.getD b d ∈ t := by
          rw [List.getD_eq_getElem?_getD, List.getElem?_eq_getElem hblen]
          exact List.getElem_mem hblen
        exact hx _ hmem
      | succ a =>
        simp only [List.getD_cons_succ]
        exact ih (List.chain'_cons'.mp h).2 a b (by omega) (by simpa using hb)

lemma sumGroupIdxs_cons (x : ℕ) (t : List ℕ) :
    sumGroupIdxs (x :: t) =
      (if 1 ≤ x then [x - 1] else []) ++ sumGroupIdxs t := by
  simp only [sumGroupIdxs, List.map_cons, List.filter_cons]
  by_cases hx : 1 ≤ x
  · rw [if_pos (by simp; omega), if_pos hx]
    simp only [List.map_cons, List.singleton_append]
    congr 1
    omega
  · have hx0 : x = 0 := by omega
    subst hx0
    rw [if_neg (by simp), if_neg hx]
    rfl

lemma sumGroupIdxs_all_pos (t : List ℕ) (h1 : ∀ x ∈ t, 1 ≤ x) :
    sumGroupIdxs t = t.map (fun i => i - 1) := by
  induction t with
  | nil => rfl
  | cons x rest ih =>
    rw [sumGroupIdxs_cons, if_pos (h1 x (by simp)),
      ih (fun y hy => h1 y (by simp [hy]))]
    rfl

lemma sumGroupIdxs_cons_zero (t : List ℕ) (h1 : ∀ x ∈ t, 1 ≤ x) :
    sumGroupIdxs (0 :: t) = t.map (fun i => i - 1) := by
  rw [sumGroupIdxs_cons, if_neg (by omega), sumGroupIdxs_all_pos t h1]
  rfl

lemma sumGroupIdxs_cons_pos (k0 : ℕ) (t : List ℕ) (hk : 1 ≤ k0)
    (h1 : ∀ x ∈ t, 1 ≤ x) :
    sumGroupIdxs (k0 :: t) = (k0 - 1) :: t.map (fun i => i - 1) := by
  rw [sumGroupIdxs_cons, if_pos hk, sumGroupIdxs_all_pos t h1]
  rfl

/-- What `cumulativePick ∘ cumsum` computes on a strictly increasing index
list: per-segment sums between consecutive indices — except that the first
returned element always accumulates from position `0`, i.e. from the very
start of the value array, regardless of where the first index sits. -/
lemma cumulativePick_of_chain (vals : List ℚ) (idxs : List ℕ)
    (hchain : List.Chain' (· < ·) idxs) (hb : ∀ k ∈ idxs, k ≤ vals.length)
    (h2 : 2 ≤ idxs.length) :
    ∃ r, cumulativePick (cumsum vals) idxs = .ok r ∧
      (idxs.getD 0 0 = 0 →
        r.length + 1 = idxs.length ∧
        ∀ j, j + 1 < idxs.length →
          r.getD j 0 = segSum vals (idxs.getD j 0) (idxs.getD (j + 1) 0)) ∧
      (1 ≤ idxs.getD 0 0 →
        r.length = idxs.length ∧
        r.getD 0 0 = segSum vals 0 (idxs.getD 0 0) ∧
        ∀ j, j + 1 < idxs.length →
          r.getD (j + 1) 0 = segSum vals (idxs.getD j 0) (idxs.getD (j + 1) 0)) := by
  match idxs, hchain, hb, h2 with
  | k0 :: t, hchain, hb, h2 =>
    have htpos : ∀ x ∈ t, 1 ≤ x := by
      intro x hx
      have := chain_head_lt hchain x hx
      omega
    have htb : ∀ x ∈ t, x ≤ vals.length := fun x hx => hb x (by simp [hx])
    have hcums : ∀ x ∈ t, x - 1 < (cumsum vals).length := by
      intro x hx
      rw [cumsum_length]
      have h1 := htpos x hx
      have hlt := htb x hx
      -- entries of t are at most vals.length, and at least 1
      have := chain_head_lt hchain x hx
      omega
    have hpickF : ∀ x ∈ t, (cumsum vals).getD (x - 1) 0 = (vals.take x).sum := by
      intro x hx
      have h1 := htpos x hx
      have hlt : x - 1 < vals.length := by
        have := hcums x hx
        rwa [cumsum_length] at this
      have := cumsum_get? vals (x - 1) hlt
      rw [List.getD_eq_get?, this]
      have : x - 1 + 1 = x := by omega
      simp [this]
    have hmapF :
        (t.map (fun i => i - 1)).map (fun i => (cumsum vals).getD i 0) =
          t.map (fun x => (vals.take x).sum) := by
      rw [List.map_map]
      exact List.map_congr_left (fun x hx => hpickF x hx)
    -- t is nonempty
    match t, htpos, htb, hcums, hpickF, hmapF, h2 with
    | t0 :: t1, htpos, htb, hcums, hpickF, hmapF, _ =>
      have htchain : List.Chain' (· < ·) (t0 :: t1) := (List.chain'_cons'.mp hchain).2
      rcases Nat.eq_zero_or_pos k0 with hk0 | hk0
      · -- first boundary index is zero: its shifted selection index is dropped
        subst hk0
        have hsel := sumGroupIdxs_cons_zero (t0 :: t1) htpos
        have hselall := selectAll_ok (cumsum vals) ((t0 :: t1).map (fun i => i - 1))
          (by
            intro i hi
            rw [List.mem_map] at hi
            obtain ⟨x, hx, rfl⟩ := hi
            exact hcums x hx)
        rw [hmapF] at hselall
        have hsel2 : selectAll (cumsum vals) (sumGroupIdxs (0 :: t0 :: t1)) =
            .ok ((vals.take t0).sum :: t1.map (fun x => (vals.take x).sum)) := by
          rw [hsel, hselall]
          rfl
        obtain ⟨r, hr, hrlen, hr0, hrs⟩ :=
          hstackFirstDiff_spec ((vals.take t0).sum) (t1.map (fun x => (vals.take x).sum))
        refine ⟨r, ?_, ?_, ?_⟩
        · simp only [cumulativePick]
          rw [hsel2]
          exact hr
        · intro _
          constructor
          · simp only [hrlen]
            simp
          · intro j hj
            have hjlen : j < (t0 :: t1).length := by simpa using hj
            cases j with
            | zero =>
              simp only [List.getD_cons_zero, List.getD_cons_succ] at *
              rw [hr0, segSum_zero]
            | succ j =>
              have hj1 : j + 1 < (t1.map (fun x => (vals.take x).sum)).length + 1 := by
                simp only [List.length_map]
                simpa using hj
              rw [hrs j hj1]
              have hgetj : ((vals.take t0).sum :: t1.map (fun x => (vals.take x).sum)).getD j 0 =
                  (vals.take ((t0 :: t1).getD j 0)).sum := by
                cases j with
                | zero => simp
                | succ jj =>
                  simp only [List.getD_cons_succ]
                  exact getD_map_lt (fun x => (vals.take x).sum) t1 jj 0 (by
                    simp only [List.length_cons] at hjlen
                    omega)
              have hgetj1 : ((vals.take t0).sum :: t1.map (fun x => (vals.take x).sum)).getD (j + 1) 0 =
                  (vals.take ((t0 :: t1).getD (j + 1) 0)).sum := by
                simp only [List.getD_cons_succ]
                exact getD_map_lt (fun x => (vals.take x).sum) t1 j 0 (by
                  simp only [List.length_cons] at hjlen
                  omega)
              rw [hgetj, hgetj1]
              have hmono : (t0 :: t1).getD j 0 ≤ (t0 :: t1).getD (j + 1) 0 := by
                have := getD_lt_getD_of_chain (t0 :: t1) htchain 0 j (j + 1)
                  (by omega) (by simpa using hjlen)
                omega
              rw [take_sum_split vals _ _ hmono]
              simp only [List.getD_cons_succ]
              ring
        · intro hcontra
          simp at hcontra
      · -- first boundary index is positive: its selection entry survives and
        -- the first result accumulates from the start of the array
        have hsel := sumGroupIdxs_cons_pos k0 (t0 :: t1) hk0 htpos
        have hk0b : k0 ≤ vals.length := hb k0 (by simp)
        have hk0cum : k0 - 1 < (cumsum vals).length := by
          rw [cumsum_length]; omega
        have hselall := selectAll_ok (cumsum vals) ((k0 - 1) :: (t0 :: t1).map (fun i => i - 1))
          (by
            intro i hi
            rcases List.mem_cons.mp hi with rfl | hi
            · exact hk0cum
            · rw [List.mem_map] at hi
              obtain ⟨x, hx, rfl⟩ := hi
              exact hcums x hx)
        have hk0pick : (cumsum vals).getD (k0 - 1) 0 = (vals.take k0).sum := by
          have hlt : k0 - 1 < vals.length := by omega
          have := cumsum_get? vals (k0 - 1) hlt
          rw [List.getD_eq_get?, this]
          have : k0 - 1 + 1 = k0 := by omega
          simp [this]
        have hsel2 : selectAll (cumsum vals) (sumGroupIdxs (k0 :: t0 :: t1)) =
            .ok ((vals.take k0).sum :: (t0 :: t1).map (fun x => (vals.take x).sum)) := by
          rw [hsel, hselall]
          simp only [List.map_cons, List.map_map] at hmapF ⊢
          rw [hk0pick, hmapF]
        obtain ⟨r, hr, hrlen, hr0, hrs⟩ :=
          hstackFirstDiff_spec ((vals.take k0).sum)
            ((t0 :: t1).map (fun x => (vals.take x).sum))
        refine ⟨r, ?_, ?_, ?_⟩
        · simp only [cumulativePick]
          rw [hsel2]
          exact hr
        · intro hcontra
          simp only [List.getD_cons_zero] at hcontra
          omega
        · intro _
          refine ⟨by simpa using hrlen, by rw [hr0]; simp [segSum_zero], ?_⟩
          intro j hj
          have hjlen : j + 1 < (k0 :: t0 :: t1).length := hj
          have hj1 : j + 1 < ((t0 :: t1).map (fun x => (vals.take x).sum)).length + 1 := by
            simp only [List.length_map]
            simpa using hj
          rw [hrs j hj1]
          have hgetP : ∀ i, i < (t0 :: t1).length + 1 →
              ((vals.take k0).sum :: (t0 :: t1).map (fun x => (vals.take x).sum)).getD i 0 =
                (vals.take ((k0 :: t0 :: t1).getD i 0)).sum := by
            intro i hi
            cases i with
            | zero => simp
            | succ ii =>
              simp only [List.getD_cons_succ]
              exact getD_map_lt (fun x => (vals.take x).sum) (t0 :: t1) ii 0 (by
                simpa using hi)
          rw [hgetP (j + 1) (by simpa using hjlen),
            hgetP j (by simp only [List.length_cons] at hjlen ⊢; omega)]
          have hmono : (k0 :: t0 :: t1).getD j 0 ≤ (k0 :: t0 :: t1).getD (j + 1) 0 := by
            have := getD_lt_getD_of_chain (k0 :: t0 :: t1) hchain 0 j (j + 1)
              (by omega) (by simpa using hjlen)
            omega
          rw [take_sum_split vals _ _ hmono]
          ring

lemma get?_getD {α : Type} (l : List α) (j : ℕ) (d : α) (hj : j < l.length) :
    l.get? j = some (l.getD j d) := by
  rw [List.get?_eq_getElem?, List.getElem?_eq_getElem hj, List.getD_eq_getElem?_getD,
    List.getElem?_eq_getElem hj]
  rfl

lemma isin_length {gb : List ℚ} : ∀ (xb : List ℚ) (i : ℕ),
    (isinIdxs gb xb i).length = (xb.filter (fun x => decide (x ∈ gb))).length := by
  intro xb
  induction xb with
  | nil => intro i; rfl
  | cons x rest ih =>
    intro i
    by_cases hmem : x ∈ gb
    · rw [List.filter_cons, if_pos (show decide (x ∈ gb) = true from by simpa using hmem)]
      simp only [isinIdxs, if_pos hmem, List.length_cons]
      rw [ih]
    · rw [List.filter_cons, if_neg (show ¬ decide (x ∈ gb) = true from by simpa using hmem)]
      simp only [isinIdxs, if_neg hmem]
      exact ih (i + 1)

lemma isin_get_val {gb : List ℚ} : ∀ (xb : List ℚ) (i j k : ℕ),
    (isinIdxs gb xb i).get? j = some k →
    i ≤ k ∧ k - i < xb.length ∧
      (xb.filter (fun x => decide (x ∈ gb))).get? j = some (xb.getD (k - i) 0) := by
  intro xb
  induction xb with
  | nil => intro i j k h; simp [isinIdxs] at h
  | cons x rest ih =>
    intro i j k h
    by_cases hmem : x ∈ gb
    · simp only [isinIdxs, if_pos hmem] at h
      cases j with
      | zero =>
        simp only [List.get?_cons_zero, Option.some.injEq] at h
        subst h
        refine ⟨le_refl _, by simp, ?_⟩
        rw [List.filter_cons, if_pos (by simpa using hmem)]
        simp [Nat.sub_self]
      | succ j =>
        simp only [List.get?_cons_succ] at h
        obtain ⟨h1, h2, h3⟩ := ih (i + 1) j k h
        refine ⟨by omega, by simp only [List.length_cons]; omega, ?_⟩
        rw [List.filter_cons, if_pos (by simpa using hmem)]
        simp only [List.get?_cons_succ]
        rw [h3]
        have hki : k - i = (k - (i + 1)) + 1 := by omega
        rw [hki, List.getD_cons_succ]
    · simp only [isinIdxs, if_neg hmem] at h
      obtain ⟨h1, h2, h3⟩ := ih (i + 1) j k h
      refine ⟨by omega, by simp only [List.length_cons]; omega, ?_⟩
      rw [List.filter_cons, if_neg (by simpa using hmem)]
      rw [h3]
      have hki : k - i = (k - (i + 1)) + 1 := by omega
      rw [hki, List.getD_cons_succ]

lemma filter_sorted_eq (xb gb : List ℚ) (hxb : List.Chain' (· < ·) xb)
    (hgb : List.Chain' (· < ·) gb) (hsub : ∀ g ∈ gb, g ∈ xb) :
    xb.filter (fun x => decide (x ∈ gb)) = gb := by
  have pxb : xb.Pairwise (· < ·) := List.chain'_iff_pairwise.mp hxb
  have pgb : gb.Pairwise (· < ·) := List.chain'_iff_pairwise.mp hgb
  have pf : (xb.filter (fun x => decide (x ∈ gb))).Pairwise (· < ·) :=
    pxb.filter _
  have nf : (xb.filter (fun x => decide (x ∈ gb))).Nodup :=
    pf.imp (fun h => ne_of_lt h)
  have ng : gb.Nodup := pgb.imp (fun h => ne_of_lt h)
  have hperm : (xb.filter (fun x => decide (x ∈ gb))).Perm gb := by
    rw [List.perm_ext_iff_of_nodup nf ng]
    intro a
    simp only [List.mem_filter, decide_eq_true_eq]
    exact ⟨fun h => h.2, fun ha => ⟨hsub a ha, ha⟩⟩
  exact List.eq_of_perm_of_sorted hperm
    (pf.imp (fun h => le_of_lt h)) (pgb.imp (fun h => le_of_lt h))

/-- C10. The cumulative-sum grouping pipeline: when the first group boundary
coincides with the first x-bound, `get_group_sums` and `get_group_integrals`
return `len(group_bounds) - 1` values, the `j`-th being the (width-weighted,
for integrals) sum over the fine intervals of group `j`; when the first group
boundary sits at a later x-bound, the first returned element instead
accumulates all fine values from the very start of `x_bounds` up to the
first group boundary (so the returned list has `len(group_bounds)` entries).
The final conjunct identifies the boundary index positions with the group
boundary values. -/
theorem c10_first_group_precondition
    (xb vals gb : List ℚ)
    (hxb : List.Chain' (· < ·) xb) (hgb : List.Chain' (· < ·) gb)
    (hsub : ∀ g ∈ gb, g ∈ xb)
    (hlen : vals.length + 1 = xb.length)
    (hgb2 : 2 ≤ gb.length) :
    (gb.getD 0 0 = xb.getD 0 0 →
      (∃ r, get_group_sums xb vals gb = .ok r ∧ r.length + 1 = gb.length ∧
        ∀ j, j + 1 < gb.length →
          r.getD j 0 = segSum vals ((isinIdxs gb xb 0).getD j 0)
            ((isinIdxs gb xb 0).getD (j + 1) 0)) ∧
      (∃ r, get_group_integrals xb vals gb = .ok r ∧ r.length + 1 = gb.length ∧
        ∀ j, j + 1 < gb.length →
          r.getD j 0 =
            segSum (List.zipWith (fun w y => w * y) (npDiff xb) vals)
              ((isinIdxs gb xb 0).getD j 0) ((isinIdxs gb xb 0).getD (j + 1) 0))) ∧
    (gb.getD 0 0 ≠ xb.getD 0 0 →
      (∃ r, get_group_sums xb vals gb = .ok r ∧ r.length = gb.length ∧
        r.getD 0 0 = segSum vals 0 ((isinIdxs gb xb 0).getD 0 0) ∧
        ∀ j, j + 1 < gb.length →
          r.getD (j + 1) 0 = segSum vals ((isinIdxs gb xb 0).getD j 0)
            ((isinIdxs gb xb 0).getD (j + 1) 0)) ∧
      (∃ r, get_group_integrals xb vals gb = .ok r ∧ r.length = gb.length ∧
        r.getD 0 0 =
          segSum (List.zipWith (fun w y => w * y) (npDiff xb) vals) 0
            ((isinIdxs gb xb 0).getD 0 0) ∧
        ∀ j, j + 1 < gb.length →
          r.getD (j + 1) 0 =
            segSum (List.zipWith (fun w y => w * y) (npDiff xb) vals)
              ((isinIdxs gb xb 0).getD j 0) ((isinIdxs gb xb 0).getD (j + 1) 0))) ∧
    (∀ j, j < gb.length →
      xb.getD ((isinIdxs gb xb 0).getD j 0) 0 = gb.getD j 0) := by
  have hfil : xb.filter (fun x => decide (x ∈ gb)) = gb :=
    filter_sorted_eq xb gb hxb hgb hsub
  have hempty : (gb.filter (fun g => decide (g ∉ xb))).isEmpty = true := by
    rw [List.isEmpty_iff, List.filter_eq_nil_iff]
    intro g hg
    simpa using hsub g hg
  have hboundary : get_group_boundary_indexes xb gb = .ok (isinIdxs gb xb 0) := by
    simp only [get_group_boundary_indexes]
    rw [if_pos hempty]
  have hidxlen : (isinIdxs gb xb 0).length = gb.length := by
    rw [isin_length, hfil]
  have hchainIdx : List.Chain' (· < ·) (isinIdxs gb xb 0) := chain_isinIdxs xb 0
  have hidxval : ∀ j k, (isinIdxs gb xb 0).get? j = some k →
      k < xb.length ∧ gb.get? j = some (xb.getD k 0) := by
    intro j k h
    obtain ⟨_, h2, h3⟩ := isin_get_val xb 0 j k h
    rw [hfil] at h3
    exact ⟨h2, h3⟩
  have hgetval : ∀ j, j < gb.length →
      xb.getD ((isinIdxs gb xb 0).getD j 0) 0 = gb.getD j 0 := by
    intro j hj
    have hj' : j < (isinIdxs gb xb 0).length := by omega
    have hq := get?_getD (isinIdxs gb xb 0) j 0 hj'
    obtain ⟨_, hgb'⟩ := hidxval j _ hq
    have hq2 := get?_getD gb j 0 hj
    rw [hq2] at hgb'
    exact (Option.some.injEq _ _).mp hgb'.symm
  have hkbound : ∀ k ∈ isinIdxs gb xb 0, k ≤ vals.length := by
    intro k hk
    obtain ⟨n, hget⟩ := List.mem_iff_get.mp hk
    have hq : (isinIdxs gb xb 0).get? n.1 = some k := by
      rw [List.get?_eq_get n.2, hget]
    obtain ⟨hk1, _⟩ := hidxval n.1 k hq
    omega
  have h2idx : 2 ≤ (isinIdxs gb xb 0).length := by omega
  obtain ⟨r, hrpick, hA, hB⟩ :=
    cumulativePick_of_chain vals (isinIdxs gb xb 0) hchainIdx hkbound h2idx
  have hsums : get_group_sums xb vals gb = cumulativePick (cumsum vals) (isinIdxs gb xb 0) := by
    simp only [get_group_sums, hboundary]
    rfl
  -- the weighted (integral) variant
  have hsteplen : (npDiff xb).length = vals.length := by
    simp only [npDiff, List.length_zipWith, List.length_tail]
    omega
  have hwlen : (List.zipWith (fun w y => w * y) (npDiff xb) vals).length = vals.length := by
    rw [List.length_zipWith, hsteplen]
    omega
  have hkboundw : ∀ k ∈ isinIdxs gb xb 0,
      k ≤ (List.zipWith (fun w y => w * y) (npDiff xb) vals).length := by
    intro k hk
    rw [hwlen]
    exact hkbound k hk
  obtain ⟨rw_, hrpickw, hAw, hBw⟩ :=
    cumulativePick_of_chain (List.zipWith (fun w y => w * y) (npDiff xb) vals)
      (isinIdxs gb xb 0) hchainIdx hkboundw h2idx
  have hcond : ¬ ((npDiff xb).length ≠ vals.length) := by
    rw [hsteplen]
    simp
  have hints : get_group_integrals xb vals gb =
      cumulativePick (cumsum (List.zipWith (fun w y => w * y) (npDiff xb) vals))
        (isinIdxs gb xb 0) := by
    have h1 : get_group_integrals xb vals gb =
        (if (npDiff xb).length ≠ vals.length then
          Except.error Err.broadcastMismatch
        else
          cumulativePick
            (cumsum (List.zipWith (fun w y => w * y) (npDiff xb) vals))
            (isinIdxs gb xb 0)) := by
      simp only [get_group_integrals, hboundary]
      rfl
    rw [h1, if_neg hcond]
  refine ⟨?_, ?_, hgetval⟩
  · intro h0
    have hk0 : (isinIdxs gb xb 0).getD 0 0 = 0 := by
      by_contra hk
      have h0' := hgetval 0 (by omega)
      have hklt : (isinIdxs gb xb 0).getD 0 0 < xb.length := by
        have hq := get?_getD (isinIdxs gb xb 0) 0 0 (by omega)
        exact (hidxval 0 _ hq).1
      have hlt := getD_lt_getD_of_chain xb hxb 0 0 ((isinIdxs gb xb 0).getD 0 0)
        (by omega) hklt
      rw [h0', h0] at hlt
      exact lt_irrefl _ hlt
    obtain ⟨hlenA, hvalsA⟩ := hA hk0
    obtain ⟨hlenAw, hvalsAw⟩ := hAw hk0
    constructor
    · exact ⟨r, by rw [hsums, hrpick], by omega, fun j hj => hvalsA j (by omega)⟩
    · exact ⟨rw_, by rw [hints, hrpickw], by omega, fun j hj => hvalsAw j (by omega)⟩
  · intro h0
    have hk0 : 1 ≤ (isinIdxs gb xb 0).getD 0 0 := by
      by_contra hk
      have hk1 : (isinIdxs gb xb 0).getD 0 0 = 0 := by omega
      have h0' := hgetval 0 (by omega)
      rw [hk1] at h0'
      exact h0 h0'.symm
    obtain ⟨hlenB, hv0, hvalsB⟩ := hB hk0
    obtain ⟨hlenBw, hv0w, hvalsBw⟩ := hBw hk0
    constructor
    · exact ⟨r, by rw [hsums, hrpick], by omega, hv0,
        fun j hj => hvalsB j (by omega)⟩
    · exact ⟨rw_, by rw [hints, hrpickw], by omega, hv0w,
        fun j hj => hvalsBw j (by omega)⟩

/-- C10 witness: `group_bounds = [0,1,3]` on `x_bounds = [0,1,2,3]` with
`vals = [10,20,30]`, first group boundary coinciding with the first x-bound. -/
theorem c10_first_group_precondition_witness :
    (List.Chain' (· < ·) [(0 : ℚ), 1, 2, 3] ∧ List.Chain' (· < ·) [(0 : ℚ), 1, 3] ∧
      (∀ g ∈ [(0 : ℚ), 1, 3], g ∈ [(0 : ℚ), 1, 2, 3])) ∧
    (∃ r, get_group_sums [(0 : ℚ), 1, 2, 3] [(10 : ℚ), 20, 30] [(0 : ℚ), 1, 3] =
        .ok r ∧
      r.length + 1 = 3 ∧ ∀ j, j + 1 < 3 →
        r.getD j 0 = segSum [(10 : ℚ), 20, 30]
          ((isinIdxs [(0 : ℚ), 1, 3] [(0 : ℚ), 1, 2, 3] 0).getD j 0)
          ((isinIdxs [(0 : ℚ), 1, 3] [(0 : ℚ), 1, 2, 3] 0).getD (j + 1) 0)) :=
  ⟨⟨by norm_num [List.chain'_cons], by norm_num [List.chain'_cons], by decide⟩,
    ((c10_first_group_precondition [(0 : ℚ), 1, 2, 3] [(10 : ℚ), 20, 30]
        [(0 : ℚ), 1, 3] (by norm_num [List.chain'_cons])
        (by norm_num [List.chain'_cons]) (by decide) (by decide)
        (by decide)).1 (by decide)).1⟩

/-! ### `LaiKaplanArray` (half-integer index space) and claim C8 -/

/-- `lai_kaplan.LaiKaplanArray`: a thin wrapper around a data array
supporting the paper's (possibly half-integer) index space. The attrs
validator restricts `lai_kaplan_stride` to `0.5` or `1`. -/
structure LaiKaplanArray where
  lai_kaplan_idx_min : ℚ
  lai_kaplan_stride : ℚ
  data : List ℚ
deriving DecidableEq, Repr

/-- `LaiKaplanArray.to_data_index`: translate a Lai-Kaplan index into a
plain data index; raises `IndexError` for an index below the minimum, for a
non-integer converted offset (python checks `idx_data_float % 1.0`; in exact
arithmetic this is "the quotient has denominator 1"), and for an offset
beyond the data (the bound is `size` for slice indices, `size - 1`
otherwise). -/
def LaiKaplanArray.to_data_index (a : LaiKaplanArray) (idx : ℚ)
    (is_slice_idx : Bool := false) : Except Err ℕ :=
  if idx < a.lai_kaplan_idx_min then
    .error (.lkIdxBelowMin idx a.lai_kaplan_idx_min)
  else
    let idx_data_float := (idx - a.lai_kaplan_idx_min) / a.lai_kaplan_stride
    if idx_data_float.den ≠ 1 then .error (.lkIdxNotInteger idx)
    else
      let idx_data := idx_data_float.num.toNat
      let max_idx : ℤ :=
        if is_slice_idx then (a.data.length : ℤ) else (a.data.length : ℤ) - 1
      if (idx_data : ℤ) > max_idx then .error (.lkIdxTooBig idx)
      else .ok idx_data

/-- `LaiKaplanArray.__getitem__` for a scalar (non-slice) index. -/
def LaiKaplanArray.getItemScalar (a : LaiKaplanArray) (idx : ℚ) :
    Except Err ℚ := do
  let i ← a.to_data_index idx false
  match a.data.get? i with
  | some v => .ok v
  | none => .error .indexOutOfRange

/-- `LaiKaplanArray.__setitem__` for a scalar (non-slice) index. -/
def LaiKaplanArray.setItemScalar (a : LaiKaplanArray) (idx : ℚ) (v : ℚ) :
    Except Err LaiKaplanArray := do
  let i ← a.to_data_index idx false
  if i < a.data.length then .ok { a with data := a.data.set i v }
  else .error .indexOutOfRange

/-- C8. Half-integer index contract: with a validator-approved stride, a
scalar access at Lai-Kaplan index `idx` succeeds exactly when
`idx = min + k * stride` for a natural `k` within the data (and then reads
or writes exactly position `k`); for every other index — below the minimum,
not an exact multiple of the stride, or beyond the data's last position —
both `__getitem__` and `__setitem__` raise. No index is silently rounded. -/
theorem c8_index_contract (m s : ℚ) (data : List ℚ) (idx v : ℚ)
    (hs : s = 1/2 ∨ s = 1) :
    (∀ k : ℕ, idx = m + (k : ℚ) * s → (k : ℤ) ≤ (data.length : ℤ) - 1 →
      (LaiKaplanArray.mk m s data).getItemScalar idx = .ok (data.getD k 0) ∧
      (LaiKaplanArray.mk m s data).setItemScalar idx v =
        .ok (LaiKaplanArray.mk m s (data.set k v))) ∧
    ((¬ ∃ k : ℕ, idx = m + (k : ℚ) * s ∧ (k : ℤ) ≤ (data.length : ℤ) - 1) →
      (∃ e, (LaiKaplanArray.mk m s data).getItemScalar idx = .error e) ∧
      (∃ e, (LaiKaplanArray.mk m s data).setItemScalar idx v = .error e)) := by
  have hspos : 0 < s := by rcases hs with rfl | rfl <;> norm_num
  have hsne : s ≠ 0 := ne_of_gt hspos
  constructor
  · intro k hk hbound
    have hnlt : ¬ idx < m := by
      rw [hk]
      have : 0 ≤ (k : ℚ) * s := mul_nonneg (by positivity) (le_of_lt hspos)
      push_neg
      linarith
    have hquot : (idx - m) / s = (k : ℚ) := by
      rw [hk]
      field_simp
    have hidx : (LaiKaplanArray.mk m s data).to_data_index idx false = .ok k := by
      simp only [LaiKaplanArray.to_data_index, hquot]
      rw [if_neg hnlt, if_neg (by simp [Rat.den_natCast]), if_neg (by
        simp only [Rat.num_natCast, Int.toNat_natCast]
        omega)]
      simp [Rat.num_natCast]
    have hklen : k < data.length := by omega
    constructor
    · simp only [LaiKaplanArray.getItemScalar, hidx]
      show (match data.get? k with
        | some v => Except.ok v
        | none => Except.error Err.indexOutOfRange) = _
      rw [get?_getD data k 0 hklen]
    · simp only [LaiKaplanArray.setItemScalar, hidx]
      show (if k < data.length then
          Except.ok (LaiKaplanArray.mk m s (data.set k v))
        else Except.error Err.indexOutOfRange) = _
      rw [if_pos hklen]
    -- the error side
  · intro hno
    by_cases hlt : idx < m
    · have hidx : (LaiKaplanArray.mk m s data).to_data_index idx false =
          .error (.lkIdxBelowMin idx m) := by
        simp only [LaiKaplanArray.to_data_index]
        rw [if_pos hlt]
      exact ⟨⟨_, by simp only [LaiKaplanArray.getItemScalar, hidx]; rfl⟩,
        ⟨_, by simp only [LaiKaplanArray.setItemScalar, hidx]; rfl⟩⟩
    · set d := (idx - m) / s with hd
      by_cases hden : d.den ≠ 1
      · have hidx : (LaiKaplanArray.mk m s data).to_data_index idx false =
            .error (.lkIdxNotInteger idx) := by
          simp only [LaiKaplanArray.to_data_index]
          rw [if_neg hlt, if_pos hden]
        exact ⟨⟨_, by simp only [LaiKaplanArray.getItemScalar, hidx]; rfl⟩,
          ⟨_, by simp only [LaiKaplanArray.setItemScalar, hidx]; rfl⟩⟩
      · push_neg at hden
        have hdnn : 0 ≤ d := by
          apply div_nonneg _ (le_of_lt hspos)
          push_neg at hlt
          linarith
        have hnum : 0 ≤ d.num := Rat.num_nonneg.mpr hdnn
        have hdint : ((d.num.toNat : ℚ)) = d := by
          have h1 : ((d.num : ℚ)) = d := by
            conv_rhs => rw [← Rat.num_div_den d]
            rw [hden]
            simp
          have h2 : (d.num.toNat : ℤ) = d.num := Int.toNat_of_nonneg hnum
          rw [← h1]
          exact_mod_cast h2
        have heq : idx = m + (d.num.toNat : ℚ) * s := by
          rw [hdint, hd]
          field_simp
        have hgt : (d.num.toNat : ℤ) > (data.length : ℤ) - 1 := by
          by_contra hle
          exact hno ⟨d.num.toNat, heq, by omega⟩
        have hidx : (LaiKaplanArray.mk m s data).to_data_index idx false =
            .error (.lkIdxTooBig idx) := by
          simp only [LaiKaplanArray.to_data_index]
          rw [if_neg hlt, if_neg (by simpa using hden), if_pos (by
            simpa using hgt)]
        exact ⟨⟨_, by simp only [LaiKaplanArray.getItemScalar, hidx]; rfl⟩,
          ⟨_, by simp only [LaiKaplanArray.setItemScalar, hidx]; rfl⟩⟩

/-- C8 witness: the half-integer array `min = 1/2`, `stride = 1/2`,
`data = [1,2,3]` accessed at Lai-Kaplan index `3/2` reads data position 2. -/
theorem c8_index_contract_witness :
    ((1 : ℚ)/2 = 1/2 ∨ (1 : ℚ)/2 = 1) ∧
    (LaiKaplanArray.mk (1/2) (1/2) [(1 : ℚ), 2, 3]).getItemScalar (3/2) =
      .ok 3 ∧
    (LaiKaplanArray.mk (1/2) (1/2) [(1 : ℚ), 2, 3]).setItemScalar (3/2) 7 =
      .ok (LaiKaplanArray.mk (1/2) (1/2) [(1 : ℚ), 2, 7]) :=
  ⟨Or.inl rfl, by
    have h := (c8_index_contract (1/2) (1/2) [(1 : ℚ), 2, 3] (3/2) 7
      (Or.inl rfl)).1 2 (by norm_num) (by decide)
    exact ⟨h.1, h.2⟩⟩

/-! ### Hermite quartic basis (module-level constants of `lai_kaplan.py`)

`HERMITE_QUARTICS` is obtained in the source by symbolically integrating the
Hermite cubic basis `HERMITE_CUBICS` once at import time; here the
antiderivatives are spelled out (all have zero constant term, as
`numpy.polynomial.Polynomial.integ` produces). -/

/-- Antiderivative of `H00(u) = 1 - 3u^2 + 2u^3`. -/
def hq00 (u : ℚ) : ℚ := u - u ^ 3 + u ^ 4 / 2

/-- Antiderivative of `H01(u) = 3u^2 - 2u^3`. -/
def hq01 (u : ℚ) : ℚ := u ^ 3 - u ^ 4 / 2

/-- Antiderivative of `H10(u) = u - 2u^2 + u^3`. -/
def hq10 (u : ℚ) : ℚ := u ^ 2 / 2 - 2 * u ^ 3 / 3 + u ^ 4 / 4

/-- Antiderivative of `H11(u) = -u^2 + u^3`. -/
def hq11 (u : ℚ) : ℚ := -(u ^ 3) / 3 + u ^ 4 / 4

/-- Sub-diagonal coefficient `a_1 = -HQ[1][0](1)/2` of the Lai-Kaplan system. -/
def a1Const : ℚ := -(hq10 1) / 2

/-- Diagonal coefficient
`a_2 = HQ[0][0](1) + HQ[0][1](1) + HQ[1][0](1)/2 - HQ[1][1](1)/2`. -/
def a2Const : ℚ := hq00 1 + hq01 1 + hq10 1 / 2 - hq11 1 / 2

/-- Super-diagonal coefficient `a_3 = HQ[1][1](1)/2`. -/
def a3Const : ℚ := hq11 1 / 2

/-- Wall coefficient `beta_1 = HQ[0][0](1) - HQ[1][0](1)/2 - HQ[1][1](1)/2`. -/
def beta1Const : ℚ := hq00 1 - hq10 1 / 2 - hq11 1 / 2

/-- Wall coefficient `beta_2 = HQ[0][1](1) + HQ[1][0](1)/2 + HQ[1][1](1)/2`. -/
def beta2Const : ℚ := hq01 1 + hq10 1 / 2 + hq11 1 / 2

/-! ### `LaiKaplanF`: one Hermite-cubic patch -/

/-- `lai_kaplan.LaiKaplanF`: a Hermite-cubic segment on `[x_i, x_i + delta]`
defined by its endpoint values and gradients. -/
structure LaiKaplanF where
  x_i : ℚ
  delta : ℚ
  s_i : ℚ
  s_i_plus_half : ℚ
  m_i : ℚ
  m_i_plus_half : ℚ
deriving DecidableEq, Repr

/-- `LaiKaplanF.calculate_integral_indefinite_unitless`: the quartic
antiderivative evaluated at `u = (x - x_i)/delta`, with the optional domain
check (`ValueError` outside `[x_i, x_i + delta]`). -/
def LaiKaplanF.calculate_integral_indefinite_unitless (f : LaiKaplanF)
    (x : ℚ) (check_domain : Bool := true) : Except Err ℚ :=
  if check_domain ∧ (x < f.x_i ∨ x > f.x_i + f.delta) then
    .error (.integralDomain x f.x_i f.delta)
  else
    let u := (x - f.x_i) / f.delta
    .ok (f.delta *
      (f.s_i * hq00 u + f.delta * f.m_i * hq10 u +
        f.s_i_plus_half * hq01 u + f.delta * f.m_i_plus_half * hq11 u))

/-- `LaiKaplanF.calculate_integral_definite_unitless`: raises `ValueError`
when `x_lower >= x_upper`, then subtracts the two indefinite integrals
(the upper one is evaluated first, as in the source). -/
def LaiKaplanF.calculate_integral_definite_unitless (f : LaiKaplanF)
    (x_lower x_upper : ℚ) (check_domain : Bool := true) : Except Err ℚ :=
  if x_lower ≥ x_upper then .error (.integralBoundsOrder x_lower x_upper)
  else do
    let upper ← f.calculate_integral_indefinite_unitless x_upper check_domain
    let lower ← f.calculate_integral_indefinite_unitless x_lower check_domain
    return upper - lower

/-! ### Boundary extrapolation and wall-value policies -/

/-- `boundary_handling.BoundaryHandling` (module not under `src/`; the two
members are named in `lai_kaplan.extrapolate_y_interval_values`). -/
inductive BoundaryHandling where
  | constant
  | cubic_extrapolation
deriving DecidableEq, Repr

/-- `np.interp`: piecewise-linear interpolation through `(xp, fp)`, clamped
to the edge values outside the domain. -/
def npInterp (x : ℚ) : List ℚ → List ℚ → ℚ
  | [], _ => 0
  | _ :: _, [] => 0
  | [_], f0 :: _ => f0
  | _ :: _ :: _, [f0] => f0
  | x0 :: x1 :: xrest, f0 :: f1 :: frest =>
    if x ≤ x0 then f0
    else if x ≤ x1 then f0 + (f1 - f0) * (x - x0) / (x1 - x0)
    else npInterp x (x1 :: xrest) (f1 :: frest)

/-- `lai_kaplan.get_wall_control_points_y_linear`: `np.interp` of the wall
x-positions against the interval mid-point values. -/
def get_wall_control_points_y_linear
    (intervals_x intervals_y control_points_wall_x : List ℚ) : List ℚ :=
  control_points_wall_x.map (fun x => npInterp x intervals_x intervals_y)

/-- `lai_kaplan.get_wall_control_points_y_linear_with_flat_override_on_left`:
linear interpolation, but if the (padded) interval values start with a flat
run, the wall at the first change (`np.argmax(np.abs(np.diff(y)) > 0)`) is
forced back to the first interval value. -/
def get_wall_control_points_y_linear_with_flat_override_on_left
    (intervals_x intervals_y control_points_wall_x : List ℚ) : List ℚ :=
  let control_points_wall_y :=
    get_wall_control_points_y_linear intervals_x intervals_y control_points_wall_x
  let first_change :=
    ((npDiff intervals_y).findIdx? (fun d => decide (0 < |d|))).getD 0
  if 0 < first_change then
    control_points_wall_y.set first_change (intervals_y.headD 0)
  else control_points_wall_y

/-! #### Not-a-knot cubic spline (model of `scipy.interpolate.interp1d(kind="cubic")`)

Modelled from the spec: `scipy` is a third-party dependency, so its cubic
interpolant is embedded here as what `interp1d(..., kind="cubic",
fill_value="extrapolate")` computes — the not-a-knot cubic spline through the
points, extended polynomially beyond the domain (spec section 4.2
"fit a cubic interpolant through all interior points and evaluate it beyond
the domain"). Only uniformly spaced abscissae are needed by the callers. -/

/-- Forward sweep of the Thomas algorithm for the tridiagonal system with
constant coefficients `(a1, a2, a3)`: produces the per-row `(c', d')` pairs,
failing on a zero pivot. -/
def thomasSweep (a1 a2 a3 : ℚ) : ℚ → ℚ → List ℚ → Option (List (ℚ × ℚ))
  | _, _, [] => some []
  | pc, pd, bi :: rest =>
    let p := a2 - a1 * pc
    if p = 0 then none
    else
      let ci := a3 / p
      let di := (bi - a1 * pd) / p
      match thomasSweep a1 a2 a3 ci di rest with
      | some l => some ((ci, di) :: l)
      | none => none

/-- Back substitution of the Thomas algorithm. -/
def thomasBack : List (ℚ × ℚ) → List ℚ
  | [] => []
  | (ci, di) :: rest =>
    let xs := thomasBack rest
    (di - ci * xs.headD 0) :: xs

/-- Exact solver for the tridiagonal system with sub/main/super diagonals
`a1/a2/a3` (the shape `np.linalg.solve` is applied to in
`solve_control_points_y`): in exact arithmetic `np.linalg.solve` returns the
unique solution of a nonsingular system and raises `LinAlgError` otherwise;
for the diagonally dominant tridiagonal systems built here the two agree and
no pivot ever vanishes (proved below). -/
def thomasSolve (a1 a2 a3 : ℚ) (b : List ℚ) : Option (List ℚ) :=
  (thomasSweep a1 a2 a3 0 0 b).map thomasBack

/-- Second-difference right-hand sides `6*(y_{i-1} - 2y_i + y_{i+1})/h^2`
of the not-a-knot moment system (uniform spacing `h`). -/
def splineSecondDiffs (ys : List ℚ) (h : ℚ) : List ℚ :=
  List.zipWith3 (fun a b c => 6 * (a - 2 * b + c) / h ^ 2) ys ys.tail
    (ys.tail.tail)

/-- Subtract `v` from the last element of a list (helper for assembling
tridiagonal right-hand sides). -/
def setLastSub : List ℚ → ℚ → List ℚ
  | [], _ => []
  | [x], v => [x - v]
  | x :: rest, v => x :: setLastSub rest v

/-- Moments (second derivatives at the knots) of the not-a-knot cubic spline
through `ys` at uniform spacing `h`. With the two not-a-knot conditions
`M_0 - 2M_1 + M_2 = 0` and `M_{n-3} - 2M_{n-2} + M_{n-1} = 0`, the first and
last interior equations collapse to `6 M_1 = d_1` and `6 M_{n-2} = d_{n-2}`,
and the remaining interior moments solve a `(1,4,1)` tridiagonal system. -/
def splineMoments (ys : List ℚ) (h : ℚ) : List ℚ :=
  let d := splineSecondDiffs ys h
  match d with
  | [] => List.replicate ys.length 0
  | [_] => List.replicate ys.length 0
  | d1 :: dmid1 =>
    let m1 := d1 / 6
    let mn2 := (dmid1.getLastD 0) / 6
    let dinner := dmid1.dropLast
    let binner :=
      match dinner with
      | [] => ([] : List ℚ)
      | [x] => [x - m1 - mn2]
      | x :: rest => (x - m1) :: setLastSub rest mn2
    match thomasSolve 1 4 1 binner with
    | none => List.replicate ys.length 0
    | some ms =>
      let mids := m1 :: ms ++ [mn2]
      (2 * m1 - (ms ++ [mn2]).headD 0) :: mids ++
        [2 * mn2 - (m1 :: ms).getLastD 0]

/-- Evaluate the not-a-knot cubic spline through `(xs, ys)` (uniform spacing)
at `x`, using the polynomial extension of the boundary pieces outside the
domain, as `fill_value="extrapolate"` does. -/
def cubicInterpEval (xs ys : List ℚ) (x : ℚ) : ℚ :=
  match xs with
  | [] => 0
  | [_] => ys.headD 0
  | x0 :: x1 :: _ =>
    let h := x1 - x0
    let n := xs.length
    let ms := splineMoments ys h
    let iRaw : ℤ := ⌊(x - x0) / h⌋
    let i : ℕ := (max 0 (min ((n : ℤ) - 2) iRaw)).toNat
    let xi := x0 + (i : ℚ) * h
    let xi1 := xi + h
    let mi := ms.getD i 0
    let mi1 := ms.getD (i + 1) 0
    let yi := ys.getD i 0
    let yi1 := ys.getD (i + 1) 0
    mi * (xi1 - x) ^ 3 / (6 * h) + mi1 * (x - xi) ^ 3 / (6 * h) +
      (yi - mi * h ^ 2 / 6) * (xi1 - x) / h +
      (yi1 - mi1 * h ^ 2 / 6) * (x - xi) / h

/-- `lai_kaplan.extrapolate_y_interval_values` with per-side policies: the
two requested x-values are the synthetic interval mid-points just outside
the domain; `CONSTANT` repeats the nearest edge value, `CUBIC_EXTRAPOLATION`
evaluates the cubic interpolant beyond the domain. -/
def extrapolate_y_interval_values (left right : BoundaryHandling)
    (x_in y_in : List ℚ) (x_out_left x_out_right : ℚ) : ℚ × ℚ :=
  (match left with
    | .constant => y_in.headD 0
    | .cubic_extrapolation => cubicInterpEval x_in y_in x_out_left,
   match right with
    | .constant => y_in.getLastD 0
    | .cubic_extrapolation => cubicInterpEval x_in y_in x_out_right)

/-! ### The Lai-Kaplan interpolator -/

/-- Execution stages of `LaiKaplanInterpolator.__call__`, recorded in order
as the corresponding code region is entered; they let the theorems talk about
"raises before any solve is attempted / before any output is produced". -/
inductive Stage where
  | sortedCheck
  | uniformCheck
  | solveStage
  | evaluateStage
  | minCheckStage
  | adjustStage
deriving DecidableEq, Repr

/-- `np.all(x_bounds_out[:-1] <= x_bounds_out[1:])`. -/
def nondecr : List ℚ → Bool
  | [] => true
  | [_] => true
  | a :: b :: rest => decide (a ≤ b) && nondecr (b :: rest)

/-- `lai_kaplan.LaiKaplanInterpolator` (attrs class). The two policy
callables and the minimum-value applier are injectable fields exactly as in
the source (their defaults there are the constant/cubic extrapolator, the
cubic wall policy, and the Rymes-Meyers interpolator of the
`rymes_meyers` module, which is not part of the algorithm below). The
extrapolation callable receives the interval mid-points, the interval values
and the two out-of-domain x-positions and returns the (left, right) padding
values. -/
structure LaiKaplanInterpolator where
  extrapolate_fn : List ℚ → List ℚ → ℚ → ℚ → ℚ × ℚ
  get_wall_control_points_y_from_interval_ys : List ℚ → List ℚ → List ℚ → List ℚ
  min_val_applier : List ℚ → List ℚ → List ℚ → List ℚ → ℚ → ℚ → ℚ → List ℚ
  min_val : Option ℚ := none
  atol : ℚ := 1 / 10 ^ 10
  rtol : ℚ := 1 / 10 ^ 7
  rtol_uniform_steps : ℚ := 1 / 10 ^ 7

/-- Right-hand side `b` of the tridiagonal system in
`solve_control_points_y`: the generic row is `A_i/delta - beta1*w_i -
beta2*w_{i+1}`; the first row additionally subtracts `a_1 * e_0`, the last
row `a_3 * e_last`. For `n = 1` the single cell is assigned twice (`b[1]`
then `b[n]`), so only the last-row formula survives — the `a_1 * e_0` term
is lost. -/
def mkB (x_step : ℚ) (y_in walls : List ℚ) (e0 eN : ℚ) : List ℚ :=
  let delta := x_step / 2
  let core := List.zipWith3
    (fun y wi wi1 => (x_step * y) / delta - beta1Const * wi - beta2Const * wi1)
    y_in walls walls.tail
  match core with
  | [] => []
  | [c] => [c - a3Const * eN]
  | c :: rest => (c - a1Const * e0) :: setLastSub rest (a3Const * eN)

/-- Interleave starting with an interval value: `i0 w0 i1 w1 ... i_last`
(the layout of `control_points_x_d`, even data slots holding interval
mid-points, odd slots holding walls). -/
def weaveIntervalsWalls : List ℚ → List ℚ → List ℚ
  | [], _ => []
  | is, [] => is
  | i :: is, w :: ws => i :: w :: weaveIntervalsWalls is ws

/-- Interleave starting with a wall value: `w1 c1 w2 c2 ... w_last`
(the interior of `control_points_y`). -/
def weaveWallsIntervals : List ℚ → List ℚ → List ℚ
  | [], _ => []
  | ws, [] => ws
  | w :: ws, c :: cs => w :: c :: weaveWallsIntervals ws cs

/-- Construct the `LaiKaplanF` patch for the half-interval at control-point
data index `k` (`k = 2*lai_idx - 1`): `s` values come from the control
points at `k` and `k+1`, gradients from the centred differences at `k-1`
and `k` of the gradient array. `k = 0` corresponds to Lai-Kaplan index
`1/2`, which is below the gradient array's minimum index (`IndexError`). -/
def mkPatch (cpX cpY grads : List ℚ) (delta : ℚ) (k : ℕ) :
    Except Err LaiKaplanF :=
  if k = 0 then .error (.lkIdxBelowMin 0 1)
  else
    match cpX.get? k, cpY.get? k, cpY.get? (k + 1),
        grads.get? (k - 1), grads.get? k with
    | some xi, some s, some s1, some m, some m1 =>
      .ok ⟨xi, delta, s, s1, m, m1⟩
    | _, _, _, _, _ => .error .indexOutOfRange

/-- The output loop of `create_y_out_from_control_points`: walk the output
boundaries left to right; whenever the current boundary has reached the end
of the current patch, advance by exactly one half-interval and rebuild the
patch; each output value is the definite integral over the sub-interval
divided by its width. The loop state is (current patch if any, its
control-point data index, its left edge `x_i`). -/
def evalLoop (cpX cpY grads : List ℚ) (delta : ℚ) :
    Option LaiKaplanF → ℕ → ℚ → List ℚ → Except Err (List ℚ)
  | _, _, _, [] => .ok []
  | _, _, _, [_] => .ok []
  | fOpt, k, xi, a :: b :: rest =>
    let step : Except Err (LaiKaplanF × ℕ × ℚ) :=
      if a ≥ xi + delta then
        match mkPatch cpX cpY grads delta (k + 1) with
        | .ok f => .ok (f, k + 1, f.x_i)
        | .error e => .error e
      else
        match fOpt with
        | some f => .ok (f, k, xi)
        | none => .error .nameErrorPatch
    match step with
    | .error e => .error e
    | .ok (f, k1, xi1) =>
      match f.calculate_integral_definite_unitless a b true with
      | .error e => .error e
      | .ok integ =>
        match evalLoop cpX cpY grads delta (some f) k1 xi1 (b :: rest) with
        | .error e => .error e
        | .ok vs => .ok (integ / (b - a) :: vs)

/-- Python slice `l[a:b]`. -/
def sliceList (l : List ℚ) (a b : ℕ) : List ℚ := (l.drop a).take (b - a)

/-- Replace the entries of `ys` at the positions where `mask` holds by the
values of `updated`, in order (`y_out[interval_indexer] = ...`); a length
mismatch is a numpy broadcast error. -/
def assignWhere : List ℚ → List Bool → List ℚ → Except Err (List ℚ)
  | [], _, [] => .ok []
  | [], _, _ :: _ => .error .broadcastMismatch
  | _ :: _, [], _ => .error .broadcastMismatch
  | y :: ys, m :: ms, upd =>
    if m then
      match upd with
      | [] => .error .broadcastMismatch
      | u :: us => do
        let rest ← assignWhere ys ms us
        return u :: rest
    else do
      let rest ← assignWhere ys ms upd
      return y :: rest

/-- `LaiKaplanInterpolator.lower_bound_adjustment`: snap values already
within tolerance of the minimum onto it, find the coarse groups containing
below-minimum values, and re-solve each such group with the injected
minimum-value applier, using the group's two wall control points as
boundary values. -/
def lowerBoundAdjustment (interp : LaiKaplanInterpolator) (mv : ℚ)
    (y_out : List ℚ) (control_points_y : List ℚ)
    (x_bounds_target target x_bounds_out : List ℚ) : Except Err (List ℚ) := do
  let y_snapped := y_out.map
    (fun y => if |y - mv| ≤ interp.atol + interp.rtol * |mv| then mv else y)
  let below_min := y_snapped.map (fun y => if y < mv then (1 : ℚ) else 0)
  let below_min_in_group ← get_group_sums x_bounds_out below_min x_bounds_target
  let y_out_group_index ← get_group_indexes x_bounds_out x_bounds_target
  let groups := (List.range below_min_in_group.length).filter
    (fun g => decide (0 < below_min_in_group.getD g 0))
  groups.foldlM (fun (acc : List ℚ) (g : ℕ) => do
    let mask := y_out_group_index.map (fun gi => decide (gi = (g : ℤ)))
    let interval_vals := (List.zip acc mask).filterMap
      (fun p => if p.2 then some p.1 else none)
    let idxs := ((List.range acc.length).zip mask).filterMap
      (fun p => if p.2 then some p.1 else none)
    let lo := idxs.headD 0
    let hi := idxs.getLastD 0
    let x_bounds_out_interval := sliceList x_bounds_out lo (hi + 2)
    let x_bounds_in_interval := sliceList x_bounds_target g (g + 2)
    let y_in_interval := [target.getD g 0]
    match control_points_y.get? (2 * g + 1), control_points_y.get? (2 * g + 3) with
    | some left_bound_val, some right_bound_val =>
      let updated := interp.min_val_applier interval_vals x_bounds_out_interval
        x_bounds_in_interval y_in_interval left_bound_val right_bound_val mv
      assignWhere acc mask updated
    | _, _ => .error .indexOutOfRange) y_snapped

/-- `LaiKaplanInterpolator.__call__`, with the list of execution stages that
were entered. Over `ℚ` the integer-dtype upcast of the source is the
identity, and the pint unit conversion of `x_bounds_out` is the identity
(everything is carried in the unit of `x_bounds_in`). -/
def laiKaplanCallS (interp : LaiKaplanInterpolator)
    (x_bounds_in y_in x_bounds_out : List ℚ) :
    List Stage × Except Err (List ℚ) :=
  if ¬ nondecr x_bounds_out then
    ([.sortedCheck], .error .outBoundsUnsorted)
  else
    match npDiff x_bounds_in with
    | [] => ([.sortedCheck, .uniformCheck], .error .indexOutOfRange)
    | x_step :: _ =>
      if ¬ (npDiff x_bounds_in).all
          (fun d => decide (|x_step - d| ≤ interp.rtol_uniform_steps * |d|)) then
        ([.sortedCheck, .uniformCheck], .error .nonUniformSpacing)
      else
        let delta := x_step / 2
        let intervals_internal_x :=
          List.zipWith (fun a b => (a + b) / 2) x_bounds_in x_bounds_in.tail
        let intervals_x := (intervals_internal_x.headD 0 - x_step) ::
          intervals_internal_x ++ [intervals_internal_x.getLastD 0 + x_step]
        let control_points_x := weaveIntervalsWalls intervals_x x_bounds_in
        let ee := interp.extrapolate_fn intervals_internal_x y_in
          (intervals_x.headD 0) (intervals_x.getLastD 0)
        let intervals_y := ee.1 :: y_in ++ [ee.2]
        let walls_y := interp.get_wall_control_points_y_from_interval_ys
          intervals_x intervals_y x_bounds_in
        match thomasSolve a1Const a2Const a3Const
            (mkB x_step y_in walls_y ee.1 ee.2) with
        | none => ([.sortedCheck, .uniformCheck, .solveStage],
            .error .singularMatrix)
        | some c =>
          let control_points_y := ee.1 :: weaveWallsIntervals walls_y c ++ [ee.2]
          let grads := List.zipWith (fun a b => (b - a) / (2 * delta))
            control_points_y (control_points_y.drop 2)
          match evalLoop control_points_x control_points_y grads delta
              none 0 (control_points_x.headD 0 - 10 * delta) x_bounds_out with
          | .error e => ([.sortedCheck, .uniformCheck, .solveStage,
              .evaluateStage], .error e)
          | .ok y_out =>
            match interp.min_val with
            | none => ([.sortedCheck, .uniformCheck, .solveStage,
                .evaluateStage, .minCheckStage], .ok y_out)
            | some mv =>
              if y_out.any (fun y => decide (y < mv)) then
                if y_in.any (fun y => decide (y < mv)) then
                  ([.sortedCheck, .uniformCheck, .solveStage, .evaluateStage,
                    .minCheckStage], .error .infeasibleMin)
                else
                  ([.sortedCheck, .uniformCheck, .solveStage, .evaluateStage,
                    .minCheckStage, .adjustStage],
                   lowerBoundAdjustment interp mv y_out control_points_y
                     x_bounds_in y_in x_bounds_out)
              else
                ([.sortedCheck, .uniformCheck, .solveStage, .evaluateStage,
                  .minCheckStage], .ok y_out)

/-- `LaiKaplanInterpolator.__call__` (result only). -/
def laiKaplanCall (interp : LaiKaplanInterpolator)
    (x_bounds_in y_in x_bounds_out : List ℚ) : Except Err (List ℚ) :=
  (laiKaplanCallS interp x_bounds_in y_in x_bounds_out).2

/-! ### Simple equation lemmas for the early-exit paths of `__call__` -/

lemma callS_unsorted (interp : LaiKaplanInterpolator)
    (x_bounds_in y_in x_bounds_out : List ℚ)
    (h : nondecr x_bounds_out = false) :
    laiKaplanCallS interp x_bounds_in y_in x_bounds_out =
      ([.sortedCheck], .error .outBoundsUnsorted) := by
  unfold laiKaplanCallS
  rw [if_pos (by simp [h])]

lemma callS_empty_steps (interp : LaiKaplanInterpolator)
    (x_bounds_in y_in x_bounds_out : List ℚ)
    (hs : nondecr x_bounds_out = true) (hd : npDiff x_bounds_in = []) :
    laiKaplanCallS interp x_bounds_in y_in x_bounds_out =
      ([.sortedCheck, .uniformCheck], .error .indexOutOfRange) := by
  unfold laiKaplanCallS
  rw [if_neg (by simp [hs]), hd]

lemma callS_nonuniform (interp : LaiKaplanInterpolator)
    (x_bounds_in y_in x_bounds_out : List ℚ) (x_step : ℚ) (rest : List ℚ)
    (hs : nondecr x_bounds_out = true)
    (hd : npDiff x_bounds_in = x_step :: rest)
    (hall : (x_step :: rest).all
      (fun d => decide (|x_step - d| ≤ interp.rtol_uniform_steps * |d|)) = false) :
    laiKaplanCallS interp x_bounds_in y_in x_bounds_out =
      ([.sortedCheck, .uniformCheck], .error .nonUniformSpacing) := by
  unfold laiKaplanCallS
  rw [if_neg (by simp [hs]), hd]
  simp [hall]

/-! ### Claim C6: the uniform-spacing precondition -/

/-- C6. Whenever the consecutive differences of `x_bounds_in` are not all
equal to the first difference within `rtol_uniform_steps`
(`pint.testing.assert_allclose(x_step, x_steps, rtol=...)`, absolute
tolerance zero), `__call__` raises immediately: it returns an error and
neither the solve stage nor the evaluation stage is ever entered, so no
system is assembled and no output is produced. -/
theorem c6_uniform_spacing (interp : LaiKaplanInterpolator)
    (x_bounds_in y_in x_bounds_out : List ℚ)
    (h : ¬ ∀ d ∈ npDiff x_bounds_in,
      |(npDiff x_bounds_in).headD 0 - d| ≤ interp.rtol_uniform_steps * |d|) :
    (∃ e, laiKaplanCall interp x_bounds_in y_in x_bounds_out = .error e) ∧
    Stage.solveStage ∉ (laiKaplanCallS interp x_bounds_in y_in x_bounds_out).1 ∧
    Stage.evaluateStage ∉ (laiKaplanCallS interp x_bounds_in y_in x_bounds_out).1 := by
  by_cases hs : nondecr x_bounds_out
  · cases hd : npDiff x_bounds_in with
    | nil =>
      exfalso
      apply h
      intro d hd2
      rw [hd] at hd2
      simp at hd2
    | cons x_step rest =>
      have hall : (x_step :: rest).all
          (fun d => decide (|x_step - d| ≤ interp.rtol_uniform_steps * |d|)) = false := by
        by_contra hcontra
        have hcontra' : (x_step :: rest).all
            (fun d => decide (|x_step - d| ≤ interp.rtol_uniform_steps * |d|)) = true := by
          cases hv : (x_step :: rest).all
              (fun d => decide (|x_step - d| ≤ interp.rtol_uniform_steps * |d|)) with
          | false => exact absurd hv hcontra
          | true => rfl
        apply h
        intro d hmem
        rw [hd] at hmem
        have := List.all_eq_true.mp hcontra' d hmem
        rw [hd]
        simpa using this
      have heq := callS_nonuniform interp x_bounds_in y_in x_bounds_out
        x_step rest (by simpa using hs) hd hall
      rw [laiKaplanCall, heq]
      exact ⟨⟨_, rfl⟩, by simp, by simp⟩
  · have heq := callS_unsorted interp x_bounds_in y_in x_bounds_out
      (by simpa using hs)
    rw [laiKaplanCall, heq]
    exact ⟨⟨_, rfl⟩, by simp, by simp⟩

/-- C6 witness: `x_bounds_in = [0, 1, 3]` is not uniformly spaced. -/
theorem c6_uniform_spacing_witness :
    (¬ ∀ d ∈ npDiff [(0 : ℚ), 1, 3],
      |(npDiff [(0 : ℚ), 1, 3]).headD 0 - d| ≤ (1 / 10 ^ 7 : ℚ) * |d|) ∧
    (∃ e, laiKaplanCall
      { extrapolate_fn := fun xs ys xl xr =>
          extrapolate_y_interval_values .constant .constant xs ys xl xr
        get_wall_control_points_y_from_interval_ys := get_wall_control_points_y_linear
        min_val_applier := fun sv _ _ _ _ _ _ => sv }
      [(0 : ℚ), 1, 3] [(1 : ℚ), 2] [(0 : ℚ), 1, 3] = .error e) :=
  ⟨by decide, (c6_uniform_spacing _ [(0 : ℚ), 1, 3] [(1 : ℚ), 2] [(0 : ℚ), 1, 3]
    (by decide)).1⟩

/-! ### Concrete interpolator instances for the counterexamples -/

/-- A `LaiKaplanInterpolator` configured with constant extrapolation on both
sides and the linear wall policy (both policies of the source; the
minimum-value applier is irrelevant as `min_val = none`). -/
def linearConstInterp : LaiKaplanInterpolator := {
  extrapolate_fn := fun xs ys xl xr =>
    extrapolate_y_interval_values .constant .constant xs ys xl xr
  get_wall_control_points_y_from_interval_ys := get_wall_control_points_y_linear
  min_val_applier := fun sv _ _ _ _ _ _ => sv }

/-- The same interpolator with a configured minimum value of `0`. -/
def minZeroInterp : LaiKaplanInterpolator :=
  { linearConstInterp with min_val := some 0 }

/-- C1 counterexample: the trivial refinement `x_bounds_out = x_bounds_in`
(every input boundary appears among the output boundaries, non-decreasing)
makes `__call__` raise a domain `ValueError` instead of returning a
mean-preserved output: the evaluation loop advances at most one
half-interval per output boundary and domain-checks every definite
integral, so an output sub-interval spanning a full input interval
(width `2*delta`) is rejected. -/
theorem c1_refinement_counterexample :
    nondecr [(0 : ℚ), 2, 4] = true ∧
    npDiff [(0 : ℚ), 2, 4] = [2, 2] ∧
    laiKaplanCall linearConstInterp [(0 : ℚ), 2, 4] [(1 : ℚ), 2]
      [(0 : ℚ), 2, 4] = .error (.integralDomain 2 0 1) :=
  ⟨by decide, by decide, by decide⟩

/-- C2 counterexample: with `min_val = 0` and `y_in = [1, -1]` (an input
value below the minimum), `__call__` does raise the specific
infeasible-minimum `AssertionError` — but only after the solve stage and
the evaluation stage have both run, i.e. not "before any solve is attempted
and before any output values are produced". -/
theorem c2_order_counterexample :
    laiKaplanCall minZeroInterp [(0 : ℚ), 2, 4] [(1 : ℚ), -1]
      [(0 : ℚ), 1, 2, 3, 4] = .error .infeasibleMin ∧
    (laiKaplanCallS minZeroInterp [(0 : ℚ), 2, 4] [(1 : ℚ), -1]
      [(0 : ℚ), 1, 2, 3, 4]).1 =
      [.sortedCheck, .uniformCheck, .solveStage, .evaluateStage,
        .minCheckStage] ∧
    Stage.solveStage ∈ (laiKaplanCallS minZeroInterp [(0 : ℚ), 2, 4]
      [(1 : ℚ), -1] [(0 : ℚ), 1, 2, 3, 4]).1 ∧
    Stage.evaluateStage ∈ (laiKaplanCallS minZeroInterp [(0 : ℚ), 2, 4]
      [(1 : ℚ), -1] [(0 : ℚ), 1, 2, 3, 4]).1 :=
  ⟨by decide, by decide, by decide, by decide⟩

/-- C3 counterexample: a constant series interpolated to the strictly
increasing output grid `[0, 3]`, which lies within the input domain
`[0, 4]`, raises a domain `ValueError` instead of returning the constant:
the first output sub-interval must lie inside the first half-interval of
the solution. -/
theorem c3_constant_counterexample :
    (0 : ℚ) < 3 ∧ (3 : ℚ) < 4 ∧
    laiKaplanCall linearConstInterp [(0 : ℚ), 2, 4] [(3 : ℚ), 3]
      [(0 : ℚ), 3] = .error (.integralDomain 3 0 1) :=
  ⟨by decide, by decide, by decide⟩

/-- C4 counterexample: the non-decreasing output boundaries
`[0, 1, 1, 2, 3, 4]` cover the input domain and contain one repeated value
(a zero-width output sub-interval); instead of being accepted with
`len(x_bounds_out) - 1` values, `__call__` raises the
`x_lower >= x_upper` `ValueError` of the definite integral. -/
theorem c4_zero_width_counterexample :
    nondecr [(0 : ℚ), 1, 1, 2, 3, 4] = true ∧
    laiKaplanCall linearConstInterp [(0 : ℚ), 2, 4] [(1 : ℚ), 2]
      [(0 : ℚ), 1, 1, 2, 3, 4] = .error (.integralBoundsOrder 1 1) :=
  ⟨by decide, by decide⟩

/-! ### Correctness of the tridiagonal solve -/

/-- The tridiagonal system relation: `triRows a1 a2 a3 xprev xs bs` says that
each row `a1*x_{i-1} + a2*x_i + a3*x_{i+1} = b_i` holds, where `xprev` is
the value preceding the first unknown and the value after the last unknown
is `0`. With `xprev = 0` this is exactly `A_mat @ xs = bs` for the matrix
built in `solve_control_points_y`. -/
def triRows (a1 a2 a3 : ℚ) : ℚ → List ℚ → List ℚ → Prop
  | _, [], [] => True
  | xprev, x :: xs, bi :: bs =>
    a1 * xprev + a2 * x + a3 * xs.headD 0 = bi ∧ triRows a1 a2 a3 x xs bs
  | _, _, _ => False

lemma thomasBack_length : ∀ (pairs : List (ℚ × ℚ)),
    (thomasBack pairs).length = pairs.length := by
  intro pairs
  induction pairs with
  | nil => rfl
  | cons p rest ih => simp [thomasBack, ih]

lemma thomasSweep_length (a1 a2 a3 : ℚ) : ∀ (b : List ℚ) (pc pd : ℚ)
    (pairs : List (ℚ × ℚ)), thomasSweep a1 a2 a3 pc pd b = some pairs →
    pairs.length = b.length := by
  intro b
  induction b with
  | nil => intro pc pd pairs h; simp [thomasSweep] at h; simp [← h]
  | cons bi rest ih =>
    intro pc pd pairs h
    simp only [thomasSweep] at h
    by_cases hp : a2 - a1 * pc = 0
    · rw [if_pos hp] at h; exact absurd h (by simp)
    · rw [if_neg hp] at h
      cases hs : thomasSweep a1 a2 a3 (a3 / (a2 - a1 * pc))
          ((bi - a1 * pd) / (a2 - a1 * pc)) rest with
      | none => rw [hs] at h; exact absurd h (by simp)
      | some l =>
        rw [hs] at h
        simp only [Option.some.injEq] at h
        subst h
        simp [ih _ _ l hs]

lemma thomasSweep_correct (a1 a2 a3 : ℚ) : ∀ (b : List ℚ) (pc pd : ℚ)
    (pairs : List (ℚ × ℚ)), thomasSweep a1 a2 a3 pc pd b = some pairs →
    triRows a1 a2 a3 (pd - pc * (thomasBack pairs).headD 0)
      (thomasBack pairs) b := by
  intro b
  induction b with
  | nil =>
    intro pc pd pairs h
    simp only [thomasSweep, Option.some.injEq] at h
    subst h
    exact trivial
  | cons bi rest ih =>
    intro pc pd pairs h
    simp only [thomasSweep] at h
    by_cases hp : a2 - a1 * pc = 0
    · rw [if_pos hp] at h; exact absurd h (by simp)
    · rw [if_neg hp] at h
      cases hs : thomasSweep a1 a2 a3 (a3 / (a2 - a1 * pc))
          ((bi - a1 * pd) / (a2 - a1 * pc)) rest with
      | none => rw [hs] at h; exact absurd h (by simp)
      | some l =>
        rw [hs] at h
        simp only [Option.some.injEq] at h
        subst h
        have htail := ih _ _ l hs
        set ci := a3 / (a2 - a1 * pc) with hci
        set di := (bi - a1 * pd) / (a2 - a1 * pc) with hdi
        set xh := (thomasBack l).headD 0 with hxh
        show triRows a1 a2 a3 (pd - pc * ((di - ci * xh) :: thomasBack l).headD 0)
          ((di - ci * xh) :: thomasBack l) (bi :: rest)
        refine ⟨?_, htail⟩
        have hpci : (a2 - a1 * pc) * ci = a3 := by
          rw [hci]
          field_simp
        have hpdi : (a2 - a1 * pc) * di = bi - a1 * pd := by
          rw [hdi]
          field_simp
        have hexp : a1 * (pd - pc * ((di - ci * xh) :: thomasBack l).headD 0) +
            a2 * (di - ci * xh) + a3 * (thomasBack l).headD 0 =
            a1 * pd + (a2 - a1 * pc) * di - ((a2 - a1 * pc) * ci) * xh +
              a3 * xh := by
          simp only [List.headD_cons]
          ring
        rw [hexp, hpci, hpdi]
        ring

/-- What `thomasSolve` returns satisfies the tridiagonal system. -/
lemma thomasSolve_correct (a1 a2 a3 : ℚ) (b c : List ℚ)
    (h : thomasSolve a1 a2 a3 b = some c) :
    triRows a1 a2 a3 0 c b ∧ c.length = b.length := by
  simp only [thomasSolve] at h
  cases hs : thomasSweep a1 a2 a3 0 0 b with
  | none => rw [hs] at h; exact absurd h (by simp)
  | some pairs =>
    rw [hs] at h
    have h2 : thomasBack pairs = c := by simpa using h
    subst h2
    have hcor := thomasSweep_correct a1 a2 a3 b 0 0 pairs hs
    have hzero : (0 : ℚ) - 0 * (thomasBack pairs).headD 0 = 0 := by ring
    rw [hzero] at hcor
    exact ⟨hcor, by rw [thomasBack_length, thomasSweep_length a1 a2 a3 b 0 0 pairs hs]⟩

/-- The main-system pivots never vanish: the sweep coefficients stay in
`(-1/24, 0]`, so each pivot is at least `13/12 - 1/576 > 0`. -/
lemma thomasSweep_main_total : ∀ (b : List ℚ) (pc pd : ℚ),
    -1/24 < pc → pc ≤ 0 →
    ∃ pairs, thomasSweep a1Const a2Const a3Const pc pd b = some pairs := by
  intro b
  induction b with
  | nil => intro pc pd _ _; exact ⟨[], rfl⟩
  | cons bi rest ih =>
    intro pc pd hlo hhi
    have ha1 : a1Const = -(1/24) := by decide
    have ha2 : a2Const = 13/12 := by decide
    have ha3 : a3Const = -(1/24) := by decide
    have hppos : 0 < a2Const - a1Const * pc := by
      rw [ha1, ha2]
      nlinarith
    have hpge : 1 < a2Const - a1Const * pc := by
      rw [ha1, ha2]
      nlinarith
    have hcilo : -1/24 < a3Const / (a2Const - a1Const * pc) := by
      rw [ha3, lt_div_iff hppos]
      nlinarith
    have hcihi : a3Const / (a2Const - a1Const * pc) ≤ 0 := by
      apply div_nonpos_of_nonpos_of_nonneg
      · rw [ha3]; norm_num
      · exact le_of_lt hppos
    obtain ⟨l, hl⟩ := ih (a3Const / (a2Const - a1Const * pc))
      ((bi - a1Const * pd) / (a2Const - a1Const * pc)) hcilo hcihi
    refine ⟨(a3Const / (a2Const - a1Const * pc),
      (bi - a1Const * pd) / (a2Const - a1Const * pc)) :: l, ?_⟩
    simp only [thomasSweep]
    rw [if_neg (ne_of_gt hppos), hl]

/-- The solve of `solve_control_points_y` always succeeds and its result
satisfies the tridiagonal system. -/
lemma thomasSolve_main_total (b : List ℚ) :
    ∃ c, thomasSolve a1Const a2Const a3Const b = some c ∧
      triRows a1Const a2Const a3Const 0 c b ∧ c.length = b.length := by
  obtain ⟨pairs, hpairs⟩ := thomasSweep_main_total b 0 0 (by norm_num) le_rfl
  refine ⟨thomasBack pairs, ?_, ?_⟩
  · simp [thomasSolve, hpairs]
  · apply thomasSolve_correct
    simp [thomasSolve, hpairs]

lemma getD_zero_eq_headD (l : List ℚ) : l.getD 0 0 = l.headD 0 := by
  cases l <;> rfl

/-- Index form of `triRows` (with `xprev = 0` boundary convention on both
sides, matching the matrix). -/
lemma triRows_getD (a1 a2 a3 : ℚ) : ∀ (c b : List ℚ) (xprev : ℚ),
    triRows a1 a2 a3 xprev c b →
    ∀ i < b.length,
      a1 * (if i = 0 then xprev else c.getD (i - 1) 0) + a2 * c.getD i 0 +
        a3 * c.getD (i + 1) 0 = b.getD i 0 := by
  intro c
  induction c with
  | nil =>
    intro b xprev h i hi
    cases b with
    | nil => simp at hi
    | cons bh bt => exact absurd h (by simp [triRows])
  | cons x xs ih =>
    intro b xprev h i hi
    cases b with
    | nil => simp at hi
    | cons bh bt =>
      obtain ⟨hrow, htail⟩ := h
      cases i with
      | zero =>
        simp only [if_pos rfl, List.getD_cons_zero, List.getD_cons_succ,
          getD_zero_eq_headD]
        exact hrow
      | succ i =>
        have := ih bt x htail i (by simpa using hi)
        simp only [List.getD_cons_succ]
        cases i with
        | zero =>
          simpa using this
        | succ j =>
          simpa using this

/-! ### Patch antiderivative algebra -/

/-- The expression inside the `.ok` of
`calculate_integral_indefinite_unitless`: the quartic antiderivative of the
patch evaluated at `x`. -/
def patchAnti (f : LaiKaplanF) (x : ℚ) : ℚ :=
  let u := (x - f.x_i) / f.delta
  f.delta * (f.s_i * hq00 u + f.delta * f.m_i * hq10 u +
    f.s_i_plus_half * hq01 u + f.delta * f.m_i_plus_half * hq11 u)

/-- On an in-domain, positive-width sub-interval the definite integral
succeeds and equals the difference of antiderivative values. -/
lemma definite_eq_anti (f : LaiKaplanF) (a b : ℚ) (hab : a < b)
    (ha : f.x_i ≤ a) (hb : b ≤ f.x_i + f.delta) :
    f.calculate_integral_definite_unitless a b true =
      .ok (patchAnti f b - patchAnti f a) := by
  have hnab : ¬ a ≥ b := not_le.mpr hab
  have hadom : ¬ (True ∧ (a < f.x_i ∨ a > f.x_i + f.delta)) := by
    rintro ⟨_, hcase | hcase⟩
    · exact absurd ha (not_le.mpr hcase)
    · exact absurd (le_trans (le_of_lt hab) hb) (not_le.mpr hcase)
  have hbdom : ¬ (True ∧ (b < f.x_i ∨ b > f.x_i + f.delta)) := by
    rintro ⟨_, hcase | hcase⟩
    · exact absurd (le_trans ha (le_of_lt hab)) (not_le.mpr hcase)
    · exact absurd hb (not_le.mpr hcase)
  simp only [LaiKaplanF.calculate_integral_definite_unitless,
    LaiKaplanF.calculate_integral_indefinite_unitless]
  rw [if_neg hnab, if_neg hbdom, if_neg hadom]
  rfl

/-- The full-patch integral (`u` from 0 to 1) in terms of the endpoint data:
`delta * (s/2 + delta*m/12 + s'/2 - delta*m'/12)`. -/
lemma patchAnti_full (f : LaiKaplanF) (hδ : f.delta ≠ 0) :
    patchAnti f (f.x_i + f.delta) - patchAnti f f.x_i =
      f.delta * (f.s_i / 2 + f.delta * f.m_i / 12 + f.s_i_plus_half / 2 -
        f.delta * f.m_i_plus_half / 12) := by
  simp only [patchAnti, hq00, hq01, hq10, hq11]
  field_simp
  ring

/-- Per-pair integral averages of consecutive output boundaries — the shape
of the values the evaluation loop emits within one patch. -/
def pairAverages (A : ℚ → ℚ) : List ℚ → List ℚ
  | [] => []
  | [_] => []
  | a :: b :: rest => (A b - A a) / (b - a) :: pairAverages A (b :: rest)

/-- Per-pair integral differences (the width-weighted averages). -/
def pairDiffs (A : ℚ → ℚ) : List ℚ → List ℚ
  | [] => []
  | [_] => []
  | a :: b :: rest => (A b - A a) :: pairDiffs A (b :: rest)

lemma pairAverages_length (A : ℚ → ℚ) : ∀ (l : List ℚ),
    (pairAverages A l).length = l.length - 1 := by
  intro l
  induction l with
  | nil => rfl
  | cons a rest ih =>
    cases rest with
    | nil => rfl
    | cons b rest2 =>
      simp only [pairAverages, List.length_cons]
      rw [ih]
      simp

lemma pairDiffs_sum (A : ℚ → ℚ) : ∀ (rest : List ℚ) (a : ℚ),
    (pairDiffs A (a :: rest)).sum = A ((a :: rest).getLast (by simp)) - A a := by
  intro rest
  induction rest with
  | nil => intro a; simp [pairDiffs]
  | cons b rest2 ih =>
    intro a
    simp only [pairDiffs, List.sum_cons]
    rw [ih b]
    have : (a :: b :: rest2).getLast (by simp) = (b :: rest2).getLast (by simp) := by
      simp [List.getLast_cons]
    rw [this]
    ring

lemma weighted_pairAverages (A : ℚ → ℚ) : ∀ (l : List ℚ),
    List.Chain' (· < ·) l →
    List.zipWith (fun w v => w * v) (npDiff l) (pairAverages A l) =
      pairDiffs A l := by
  intro l
  induction l with
  | nil => intro _; rfl
  | cons a rest ih =>
    intro hchain
    cases rest with
    | nil => rfl
    | cons b rest2 =>
      have hab : a < b := (List.chain'_cons.mp hchain).1
      have htail := (List.chain'_cons.mp hchain).2
      have hne : b - a ≠ 0 := sub_ne_zero.mpr (ne_of_gt hab)
      simp only [npDiff, pairAverages, pairDiffs, List.tail_cons,
        List.zipWith_cons_cons]
      rw [show (b - a) * ((A b - A a) / (b - a)) = A b - A a from by field_simp]
      congr 1
      simpa [npDiff] using ih htail

lemma pairAverages_linear (A : ℚ → ℚ) (v : ℚ)
    (hA : ∀ x y, A x - A y = v * (x - y)) : ∀ (l : List ℚ),
    List.Chain' (· < ·) l → ∀ z ∈ pairAverages A l, z = v := by
  intro l
  induction l with
  | nil => intro _ z hz; simp [pairAverages] at hz
  | cons a rest ih =>
    intro hchain z hz
    cases rest with
    | nil => simp [pairAverages] at hz
    | cons b rest2 =>
      have hab : a < b := (List.chain'_cons.mp hchain).1
      simp only [pairAverages, List.mem_cons] at hz
      rcases hz with rfl | hz
      · have hne : b - a ≠ 0 := sub_ne_zero.mpr (ne_of_gt hab)
        rw [hA b a]
        field_simp
      · exact ih (List.chain'_cons.mp hchain).2 z hz

/-! ### The evaluation walk over half-interval-aligned output grids -/

/-- The patch the evaluation loop builds at control-point data index `k`
(when all lookups succeed): left edge `x0 + (k-1)*delta`, endpoint values
from the control points, gradients from the centred-difference array. -/
def patchAtIdx (cpY grads : List ℚ) (x0 δ : ℚ) (k : ℕ) : LaiKaplanF :=
  ⟨x0 + ((k : ℚ) - 1) * δ, δ, cpY.getD k 0, cpY.getD (k + 1) 0,
    grads.getD (k - 1) 0, grads.getD k 0⟩

lemma mkPatch_ok (cpX cpY grads : List ℚ) (δ x0 : ℚ)
    (hx : ∀ k < cpX.length, cpX.getD k 0 = x0 + ((k : ℚ) - 1) * δ)
    (hylen : cpY.length = cpX.length) (hglen : grads.length + 2 = cpX.length)
    (k : ℕ) (hk1 : 1 ≤ k) (hk2 : k + 3 ≤ cpX.length) :
    mkPatch cpX cpY grads δ k = .ok (patchAtIdx cpY grads x0 δ k) := by
  have hkx : k < cpX.length := by omega
  have hky : k + 1 < cpY.length := by omega
  have hg1 : k - 1 < grads.length := by omega
  have hg2 : k < grads.length := by omega
  simp only [mkPatch]
  rw [if_neg (by omega)]
  rw [get?_getD cpX k 0 hkx, get?_getD cpY k 0 (by omega),
    get?_getD cpY (k + 1) 0 hky, get?_getD grads (k - 1) 0 hg1,
    get?_getD grads k 0 hg2]
  simp only [patchAtIdx, hx k hkx]

/-- Half-interval-aligned output boundaries after the first one: for each
cell (half-interval) starting at index `k`, its strictly-interior extra
subdivision points followed by its right endpoint `x0 + k*delta`. -/
def cellsOut (x0 δ : ℚ) : ℕ → List (List ℚ) → List ℚ
  | _, [] => []
  | k, ts :: rest => (ts ++ [x0 + (k : ℚ) * δ]) ++ cellsOut x0 δ (k + 1) rest

/-- The values the evaluation loop produces on such a grid: per cell, the
pair averages of that cell's patch antiderivative. -/
def expectedVals (cpY grads : List ℚ) (x0 δ : ℚ) :
    ℕ → ℚ → List (List ℚ) → List ℚ
  | _, _, [] => []
  | k, a, ts :: rest =>
    pairAverages (patchAnti (patchAtIdx cpY grads x0 δ k))
        (a :: ts ++ [x0 + (k : ℚ) * δ]) ++
      expectedVals cpY grads x0 δ (k + 1) (x0 + (k : ℚ) * δ) rest

/-- Validity of the per-cell subdivision points: each cell's points strictly
increase from the previous boundary to the cell's right endpoint. -/
def segsValid (x0 δ : ℚ) : ℕ → ℚ → List (List ℚ) → Prop
  | _, _, [] => True
  | k, lo, ts :: rest =>
    List.Chain' (· < ·) (lo :: ts ++ [x0 + (k : ℚ) * δ]) ∧
      segsValid x0 δ (k + 1) (x0 + (k : ℚ) * δ) rest

lemma evalLoop_cons_noadv (cpX cpY grads : List ℚ) (δ : ℚ)
    (f : LaiKaplanF) (k : ℕ) (xi a b : ℚ) (rest : List ℚ)
    (h : ¬ a ≥ xi + δ) :
    evalLoop cpX cpY grads δ (some f) k xi (a :: b :: rest) =
      (match f.calculate_integral_definite_unitless a b true with
      | .error e => .error e
      | .ok integ =>
        match evalLoop cpX cpY grads δ (some f) k xi (b :: rest) with
        | .error e => .error e
        | .ok vs => .ok (integ / (b - a) :: vs)) := by
  simp only [evalLoop]
  rw [if_neg h]

lemma evalLoop_cons_adv (cpX cpY grads : List ℚ) (δ : ℚ)
    (fOpt : Option LaiKaplanF) (k : ℕ) (xi a b : ℚ) (rest : List ℚ)
    (f2 : LaiKaplanF) (h : a ≥ xi + δ)
    (hmk : mkPatch cpX cpY grads δ (k + 1) = .ok f2) :
    evalLoop cpX cpY grads δ fOpt k xi (a :: b :: rest) =
      (match f2.calculate_integral_definite_unitless a b true with
      | .error e => .error e
      | .ok integ =>
        match evalLoop cpX cpY grads δ (some f2) (k + 1) f2.x_i (b :: rest) with
        | .error e => .error e
        | .ok vs => .ok (integ / (b - a) :: vs)) := by
  simp only [evalLoop]
  rw [if_pos h, hmk]

/-- Processing one cell of the walk: starting inside cell `k` at position
`a` with cell-`k`'s patch current, the loop emits the pair averages of that
patch over `a`, the interior points and the right endpoint, and then behaves
like the continuation starting at the right endpoint. -/
lemma evalLoop_cell (cpX cpY grads : List ℚ) (x0 δ : ℚ)
    (k : ℕ) (tail : List ℚ) (vals2 : List ℚ)
    (hcont : evalLoop cpX cpY grads δ (some (patchAtIdx cpY grads x0 δ k)) k
        (x0 + ((k : ℚ) - 1) * δ) ((x0 + (k : ℚ) * δ) :: tail) = .ok vals2) :
    ∀ (ts : List ℚ) (a : ℚ),
      List.Chain' (· < ·) (a :: ts ++ [x0 + (k : ℚ) * δ]) →
      x0 + ((k : ℚ) - 1) * δ ≤ a →
      evalLoop cpX cpY grads δ (some (patchAtIdx cpY grads x0 δ k)) k
          (x0 + ((k : ℚ) - 1) * δ) (a :: (ts ++ [x0 + (k : ℚ) * δ] ++ tail)) =
        .ok (pairAverages (patchAnti (patchAtIdx cpY grads x0 δ k))
          (a :: ts ++ [x0 + (k : ℚ) * δ]) ++ vals2) := by
  have hxi : x0 + ((k : ℚ) - 1) * δ + δ = x0 + (k : ℚ) * δ := by ring
  have hfx : (patchAtIdx cpY grads x0 δ k).x_i = x0 + ((k : ℚ) - 1) * δ := rfl
  have hfd : (patchAtIdx cpY grads x0 δ k).delta = δ := rfl
  intro ts
  induction ts with
  | nil =>
    intro a hchain hlo
    have har : a < x0 + (k : ℚ) * δ := by simpa using hchain
    have hnadv : ¬ a ≥ x0 + ((k : ℚ) - 1) * δ + δ := by
      rw [hxi]
      exact not_le.mpr har
    simp only [List.nil_append, List.singleton_append]
    rw [evalLoop_cons_noadv cpX cpY grads δ _ k _ a _ tail hnadv]
    rw [definite_eq_anti _ a _ har (by rw [hfx]; exact hlo)
      (by rw [hfx, hfd, hxi])]
    rw [hcont]
    simp [pairAverages]
  | cons t ts2 ih =>
    intro a hchain hlo
    have hat : a < t := (List.chain'_cons.mp hchain).1
    have hchainTail : List.Chain' (· < ·) (t :: ts2 ++ [x0 + (k : ℚ) * δ]) :=
      (List.chain'_cons.mp hchain).2
    have htr : t < x0 + (k : ℚ) * δ := by
      apply chain_head_lt hchainTail
      simp
    have hnadv : ¬ a ≥ x0 + ((k : ℚ) - 1) * δ + δ := by
      rw [hxi]
      exact not_le.mpr (lt_trans hat htr)
    simp only [List.cons_append]
    rw [evalLoop_cons_noadv cpX cpY grads δ _ k _ a t _ hnadv]
    rw [definite_eq_anti _ a t hat (by rw [hfx]; exact hlo)
      (by rw [hfx, hfd, hxi]; exact le_of_lt htr)]
    have hih := ih t hchainTail (le_trans hlo (le_of_lt hat))
    simp only [List.cons_append] at hih
    rw [hih]
    simp [pairAverages]

/-- The walk over an aligned output grid: starting inside cell `k` with
cell-`k`'s patch current, on the boundaries `a :: cellsOut x0 δ k segs` the
loop succeeds and produces exactly the per-cell pair averages. -/
lemma evalLoop_master (cpX cpY grads : List ℚ) (x0 δ : ℚ) (hδ : 0 < δ)
    (hx : ∀ k < cpX.length, cpX.getD k 0 = x0 + ((k : ℚ) - 1) * δ)
    (hylen : cpY.length = cpX.length) (hglen : grads.length + 2 = cpX.length) :
    ∀ (segs : List (List ℚ)) (k : ℕ) (a : ℚ),
      1 ≤ k → k + segs.length + 2 ≤ cpX.length →
      segsValid x0 δ k a segs →
      x0 + ((k : ℚ) - 1) * δ ≤ a → a < x0 + (k : ℚ) * δ →
      evalLoop cpX cpY grads δ (some (patchAtIdx cpY grads x0 δ k)) k
          (x0 + ((k : ℚ) - 1) * δ) (a :: cellsOut x0 δ k segs) =
        .ok (expectedVals cpY grads x0 δ k a segs) := by
  intro segs
  induction segs with
  | nil =>
    intro k a _ _ _ _ _
    rfl
  | cons ts rest ihOuter =>
    intro k a hk1 hk2 hvalid hlo hhi
    obtain ⟨hchain, hvalidRest⟩ := hvalid
    have hcont : evalLoop cpX cpY grads δ
        (some (patchAtIdx cpY grads x0 δ k)) k (x0 + ((k : ℚ) - 1) * δ)
        ((x0 + (k : ℚ) * δ) :: cellsOut x0 δ (k + 1) rest) =
        .ok (expectedVals cpY grads x0 δ (k + 1) (x0 + (k : ℚ) * δ) rest) := by
      cases rest with
      | nil => rfl
      | cons ts2 rest2 =>
        have hmk : mkPatch cpX cpY grads δ (k + 1) =
            .ok (patchAtIdx cpY grads x0 δ (k + 1)) := by
          apply mkPatch_ok cpX cpY grads δ x0 hx hylen hglen (k + 1)
            (by omega)
          simp only [List.length_cons] at hk2
          omega
        have hadv : x0 + (k : ℚ) * δ ≥ x0 + ((k : ℚ) - 1) * δ + δ := by
          apply ge_of_eq
          ring
        have hx1 : (patchAtIdx cpY grads x0 δ (k + 1)).x_i =
            x0 + (((k + 1 : ℕ) : ℚ) - 1) * δ := rfl
        have hxval : x0 + (((k + 1 : ℕ) : ℚ) - 1) * δ = x0 + (k : ℚ) * δ := by
          push_cast
          ring
        have hnadv2 : ¬ x0 + (k : ℚ) * δ ≥
            x0 + (((k + 1 : ℕ) : ℚ) - 1) * δ + δ := by
          rw [hxval]
          push_neg
          linarith
        -- the tail of the list is nonempty
        cases htl : ts2 ++ [x0 + ((k + 1 : ℕ) : ℚ) * δ] ++
            cellsOut x0 δ (k + 1 + 1) rest2 with
        | nil =>
          exfalso
          rcases List.append_eq_nil.mp htl with ⟨h1, _⟩
          rcases List.append_eq_nil.mp h1 with ⟨_, h2⟩
          simp at h2
        | cons b rest3 =>
          have hcells : cellsOut x0 δ (k + 1) (ts2 :: rest2) = b :: rest3 := by
            simp only [cellsOut]
            exact htl
          have hihOuter := ihOuter (k + 1) (x0 + (k : ℚ) * δ) (by omega)
            (by simp only [List.length_cons] at hk2 ⊢; omega) hvalidRest
            (le_of_eq hxval) (by push_cast; nlinarith)
          rw [hcells] at hihOuter
          rw [evalLoop_cons_noadv cpX cpY grads δ _ (k + 1) _ _ b rest3
            hnadv2] at hihOuter
          rw [hcells]
          rw [evalLoop_cons_adv cpX cpY grads δ _ k _ _ b rest3 _ hadv hmk]
          rw [hx1]
          exact hihOuter
    have hcell := evalLoop_cell cpX cpY grads x0 δ k (cellsOut x0 δ (k + 1) rest)
      (expectedVals cpY grads x0 δ (k + 1) (x0 + (k : ℚ) * δ) rest) hcont ts a
      hchain hlo
    show evalLoop cpX cpY grads δ (some (patchAtIdx cpY grads x0 δ k)) k
        (x0 + ((k : ℚ) - 1) * δ)
        (a :: (ts ++ [x0 + (k : ℚ) * δ] ++ cellsOut x0 δ (k + 1) rest)) =
      .ok (pairAverages (patchAnti (patchAtIdx cpY grads x0 δ k))
        (a :: ts ++ [x0 + (k : ℚ) * δ]) ++
        expectedVals cpY grads x0 δ (k + 1) (x0 + (k : ℚ) * δ) rest)
    exact hcell

/-! ### Uniform grids and the control-point x layout -/

/-- The uniform grid `x0, x0+s, ..., x0+(m-1)s`, written recursively for easy
induction. -/
def uniformBounds (x0 s : ℚ) : ℕ → List ℚ
  | 0 => []
  | m + 1 => x0 :: uniformBounds (x0 + s) s m

lemma uniformBounds_length (s : ℚ) : ∀ (m : ℕ) (x0 : ℚ),
    (uniformBounds x0 s m).length = m := by
  intro m
  induction m with
  | zero => intro x0; rfl
  | succ m ih =>
    intro x0
    simp only [uniformBounds, List.length_cons, ih]

lemma uniformBounds_getD (s : ℚ) : ∀ (m : ℕ) (x0 : ℚ) (i : ℕ), i < m →
    (uniformBounds x0 s m).getD i 0 = x0 + (i : ℚ) * s := by
  intro m
  induction m with
  | zero => intro x0 i hi; omega
  | succ m ih =>
    intro x0 i hi
    cases i with
    | zero => simp [uniformBounds]
    | succ i =>
      show (uniformBounds (x0 + s) s m).getD i 0 = _
      rw [ih (x0 + s) i (by omega)]
      push_cast
      ring

lemma npDiff_cons_cons (a b : ℚ) (t : List ℚ) :
    npDiff (a :: b :: t) = (b - a) :: npDiff (b :: t) := rfl

lemma npDiff_uniformBounds (s : ℚ) : ∀ (m : ℕ) (x0 : ℚ),
    npDiff (uniformBounds x0 s (m + 1)) = List.replicate m s := by
  intro m
  induction m with
  | zero => intro x0; rfl
  | succ m ih =>
    intro x0
    show npDiff (x0 :: (x0 + s) :: uniformBounds (x0 + s + s) s m) = _
    rw [npDiff_cons_cons]
    rw [show (x0 + s) :: uniformBounds (x0 + s + s) s m =
      uniformBounds (x0 + s) s (m + 1) from rfl]
    rw [ih (x0 + s), List.replicate_succ]
    congr 1
    ring

lemma mids_uniformBounds (s : ℚ) : ∀ (m : ℕ) (x0 : ℚ),
    List.zipWith (fun a b => (a + b) / 2) (uniformBounds x0 s (m + 1))
      ((uniformBounds x0 s (m + 1)).tail) = uniformBounds (x0 + s / 2) s m := by
  intro m
  induction m with
  | zero => intro x0; rfl
  | succ m ih =>
    intro x0
    show ((x0 + (x0 + s)) / 2) :: List.zipWith (fun a b => (a + b) / 2)
        (uniformBounds (x0 + s) s (m + 1))
        (uniformBounds (x0 + s) s (m + 1)).tail = _
    rw [ih (x0 + s)]
    rw [show x0 + s + s / 2 = x0 + s / 2 + s from by ring]
    show _ = (x0 + s / 2) :: uniformBounds (x0 + s / 2 + s) s m
    congr 1
    ring

lemma uniformBounds_headD (x0 s : ℚ) (m : ℕ) :
    (uniformBounds x0 s (m + 1)).headD 0 = x0 := rfl

lemma uniformBounds_snoc (s : ℚ) : ∀ (m : ℕ) (x0 : ℚ),
    uniformBounds x0 s (m + 1) =
      uniformBounds x0 s m ++ [x0 + (m : ℚ) * s] := by
  intro m
  induction m with
  | zero => intro x0; simp [uniformBounds]
  | succ m ih =>
    intro x0
    show x0 :: uniformBounds (x0 + s) s (m + 1) = _
    rw [ih (x0 + s)]
    rw [show x0 + s + (m : ℚ) * s = x0 + ((m + 1 : ℕ) : ℚ) * s from by
      push_cast; ring]
    rfl

lemma uniformBounds_getLastD (s : ℚ) (m : ℕ) (x0 : ℚ) :
    (uniformBounds x0 s (m + 1)).getLastD 0 = x0 + (m : ℚ) * s := by
  rw [uniformBounds_snoc]
  rw [List.getLastD_eq_getLast?, List.getLast?_append]
  rfl

lemma uniformBounds_chain (s : ℚ) (hs : 0 < s) : ∀ (m : ℕ) (x0 : ℚ),
    List.Chain' (· < ·) (uniformBounds x0 s m) := by
  intro m
  induction m with
  | zero => intro x0; simp [uniformBounds]
  | succ m ih =>
    intro x0
    cases m with
    | zero => simp [uniformBounds]
    | succ m2 =>
      refine List.chain'_cons.mpr ⟨by linarith, ih (x0 + s)⟩

/-! ### Positions and values inside the interleaved control-point arrays -/

lemma weaveIW_length : ∀ (ws is : List ℚ), is.length = ws.length + 1 →
    (weaveIntervalsWalls is ws).length = 2 * ws.length + 1 := by
  intro ws
  induction ws with
  | nil =>
    intro is h
    match is, h with
    | [a], _ => rfl
  | cons w ws ih =>
    intro is h
    match is, h with
    | a :: is, h =>
      show (a :: w :: weaveIntervalsWalls is ws).length = _
      simp only [List.length_cons]
      rw [ih is (by simpa using h)]
      ring

lemma weaveIW_getD_even : ∀ (ws is : List ℚ), is.length = ws.length + 1 →
    ∀ i, (weaveIntervalsWalls is ws).getD (2 * i) 0 = is.getD i 0 := by
  intro ws
  induction ws with
  | nil =>
    intro is h i
    match is, h with
    | [a], _ =>
      cases i with
      | zero => rfl
      | succ i =>
        rw [show 2 * (i + 1) = 2 * i + 1 + 1 from by ring]
        simp [weaveIntervalsWalls]
  | cons w ws ih =>
    intro is h i
    match is, h with
    | a :: is, h =>
      cases i with
      | zero => rfl
      | succ i =>
        show (a :: w :: weaveIntervalsWalls is ws).getD (2 * (i + 1)) 0 = _
        rw [show 2 * (i + 1) = 2 * i + 1 + 1 from by ring]
        rw [List.getD_cons_succ, List.getD_cons_succ, List.getD_cons_succ]
        exact ih is (by simpa using h) i

lemma weaveIW_getD_odd : ∀ (ws is : List ℚ), is.length = ws.length + 1 →
    ∀ i, (weaveIntervalsWalls is ws).getD (2 * i + 1) 0 = ws.getD i 0 := by
  intro ws
  induction ws with
  | nil =>
    intro is h i
    match is, h with
    | [a], _ => simp [weaveIntervalsWalls]
  | cons w ws ih =>
    intro is h i
    match is, h with
    | a :: is, h =>
      cases i with
      | zero => rfl
      | succ i =>
        show (a :: w :: weaveIntervalsWalls is ws).getD (2 * (i + 1) + 1) 0 =
          ws.getD i 0
        rw [show 2 * (i + 1) + 1 = 2 * i + 1 + 1 + 1 from by ring]
        rw [List.getD_cons_succ, List.getD_cons_succ]
        exact ih is (by simpa using h) i

lemma weaveWI_length : ∀ (cs ws : List ℚ), ws.length = cs.length + 1 →
    (weaveWallsIntervals ws cs).length = 2 * cs.length + 1 := by
  intro cs
  induction cs with
  | nil =>
    intro ws h
    match ws, h with
    | [w], _ => rfl
  | cons c cs ih =>
    intro ws h
    match ws, h with
    | w :: ws, h =>
      show (w :: c :: weaveWallsIntervals ws cs).length = _
      simp only [List.length_cons]
      rw [ih ws (by simpa using h)]
      ring

lemma weaveWI_getD_even : ∀ (cs ws : List ℚ), ws.length = cs.length + 1 →
    ∀ i, (weaveWallsIntervals ws cs).getD (2 * i) 0 = ws.getD i 0 := by
  intro cs
  induction cs with
  | nil =>
    intro ws h i
    match ws, h with
    | [w], _ =>
      cases i with
      | zero => rfl
      | succ i =>
        rw [show 2 * (i + 1) = 2 * i + 1 + 1 from by ring]
        simp [weaveWallsIntervals]
  | cons c cs ih =>
    intro ws h i
    match ws, h with
    | w :: ws, h =>
      cases i with
      | zero => rfl
      | succ i =>
        show (w :: c :: weaveWallsIntervals ws cs).getD (2 * (i + 1)) 0 =
          (w :: ws).getD (i + 1) 0
        rw [show 2 * (i + 1) = 2 * i + 1 + 1 from by ring]
        rw [List.getD_cons_succ, List.getD_cons_succ, List.getD_cons_succ]
        exact ih ws (by simpa using h) i

lemma weaveWI_getD_odd : ∀ (cs ws : List ℚ), ws.length = cs.length + 1 →
    ∀ i, (weaveWallsIntervals ws cs).getD (2 * i + 1) 0 = cs.getD i 0 := by
  intro cs
  induction cs with
  | nil =>
    intro ws h i
    match ws, h with
    | [w], _ => simp [weaveWallsIntervals]
  | cons c cs ih =>
    intro ws h i
    match ws, h with
    | w :: ws, h =>
      cases i with
      | zero => rfl
      | succ i =>
        show (w :: c :: weaveWallsIntervals ws cs).getD (2 * (i + 1) + 1) 0 =
          cs.getD i 0
        rw [show 2 * (i + 1) + 1 = 2 * i + 1 + 1 + 1 from by ring]
        rw [List.getD_cons_succ, List.getD_cons_succ]
        exact ih ws (by simpa using h) i

lemma nondecr_of_chain : ∀ (l : List ℚ), List.Chain' (· < ·) l →
    nondecr l = true := by
  intro l
  induction l with
  | nil => intro _; rfl
  | cons a rest ih =>
    intro h
    cases rest with
    | nil => rfl
    | cons b t =>
      simp only [nondecr, Bool.and_eq_true, decide_eq_true_eq]
      exact ⟨le_of_lt (List.chain'_cons.mp h).1, ih (List.chain'_cons.mp h).2⟩

/-- Total number of output boundaries contributed by the cells. -/
def segLen (segs : List (List ℚ)) : ℕ :=
  (segs.map (fun ts => ts.length + 1)).sum

lemma segLen_nil : segLen [] = 0 := rfl

lemma segLen_cons (ts : List ℚ) (rest : List (List ℚ)) :
    segLen (ts :: rest) = (ts.length + 1) + segLen rest := by
  simp [segLen]

lemma cellsOut_length (x0 δ : ℚ) : ∀ (segs : List (List ℚ)) (k : ℕ),
    (cellsOut x0 δ k segs).length = segLen segs := by
  intro segs
  induction segs with
  | nil => intro k; rfl
  | cons ts rest ih =>
    intro k
    simp only [cellsOut, List.length_append, List.length_cons, ih, segLen_cons]
    simp

lemma pairDiffs_length (A : ℚ → ℚ) : ∀ (l : List ℚ),
    (pairDiffs A l).length = l.length - 1 := by
  intro l
  induction l with
  | nil => rfl
  | cons a rest ih =>
    cases rest with
    | nil => rfl
    | cons b rest2 =>
      simp only [pairDiffs, List.length_cons]
      rw [ih]
      simp

lemma expectedVals_length (cpY grads : List ℚ) (x0 δ : ℚ) :
    ∀ (segs : List (List ℚ)) (k : ℕ) (a : ℚ),
    (expectedVals cpY grads x0 δ k a segs).length = segLen segs := by
  intro segs
  induction segs with
  | nil => intro k a; rfl
  | cons ts rest ih =>
    intro k a
    simp only [expectedVals, List.length_append, ih, segLen_cons,
      pairAverages_length]
    simp

lemma chain_cellsOut (x0 δ : ℚ) : ∀ (segs : List (List ℚ)) (k : ℕ) (a : ℚ),
    segsValid x0 δ k a segs →
    List.Chain' (· < ·) (a :: cellsOut x0 δ k segs) := by
  intro segs
  induction segs with
  | nil => intro k a _; simp [cellsOut]
  | cons ts rest ih =>
    intro k a hvalid
    obtain ⟨hchain, hrest⟩ := hvalid
    have hihc := ih (k + 1) (x0 + (k : ℚ) * δ) hrest
    show List.Chain' (· < ·)
      ((a :: (ts ++ [x0 + (k : ℚ) * δ])) ++ cellsOut x0 δ (k + 1) rest)
    refine List.chain'_append.mpr ⟨hchain, (List.chain'_cons'.mp hihc).2, ?_⟩
    intro x hx y hy
    have hxr : x = x0 + (k : ℚ) * δ := by
      rw [show a :: (ts ++ [x0 + (k : ℚ) * δ]) =
        (a :: ts) ++ [x0 + (k : ℚ) * δ] from rfl] at hx
      rw [List.getLast?_concat] at hx
      exact (by simpa using hx : x0 + (k : ℚ) * δ = x).symm
    subst hxr
    exact (List.chain'_cons'.mp hihc).1 y hy

/-- The internal `intervals_x` array on a uniform grid is itself the uniform
grid shifted half a step left with two extra points. -/
lemma intervalsX_eq (s : ℚ) (n : ℕ) (hn : 1 ≤ n) (x0 : ℚ) :
    ((uniformBounds (x0 + s / 2) s n).headD 0 - s) ::
      uniformBounds (x0 + s / 2) s n ++
      [(uniformBounds (x0 + s / 2) s n).getLastD 0 + s] =
    uniformBounds (x0 - s / 2) s (n + 2) := by
  obtain ⟨m, rfl⟩ : ∃ m, n = m + 1 := ⟨n - 1, by omega⟩
  rw [uniformBounds_headD, uniformBounds_getLastD]
  rw [show uniformBounds (x0 - s / 2) s (m + 1 + 2) =
    uniformBounds (x0 - s / 2) s (m + 2) ++
      [x0 - s / 2 + ((m + 2 : ℕ) : ℚ) * s] from uniformBounds_snoc s (m + 2) _]
  rw [show x0 + s / 2 - s = x0 - s / 2 from by ring]
  rw [show x0 + s / 2 + (m : ℚ) * s + s = x0 - s / 2 + ((m + 2 : ℕ) : ℚ) * s
    from by push_cast; ring]
  rw [show x0 + s / 2 = x0 - s / 2 + s from by ring]
  rfl

/-- The `control_points_x` array on a uniform grid. -/
def lkCpX (x0 s : ℚ) (n : ℕ) : List ℚ :=
  weaveIntervalsWalls (uniformBounds (x0 - s / 2) s (n + 2))
    (uniformBounds x0 s (n + 1))

lemma lkCpX_length (x0 s : ℚ) (n : ℕ) :
    (lkCpX x0 s n).length = 2 * n + 3 := by
  show (weaveIntervalsWalls _ _).length = _
  rw [weaveIW_length (uniformBounds x0 s (n + 1)) _
    (by rw [uniformBounds_length, uniformBounds_length])]
  rw [uniformBounds_length]
  ring

lemma lkCpX_getD (x0 s : ℚ) (n : ℕ) :
    ∀ k < 2 * n + 3, (lkCpX x0 s n).getD k 0 =
      x0 + ((k : ℚ) - 1) * (s / 2) := by
  intro k hk
  rcases Nat.even_or_odd k with ⟨i, hi⟩ | ⟨i, hi⟩
  · subst hi
    show (weaveIntervalsWalls _ _).getD (i + i) 0 = _
    rw [show i + i = 2 * i from by ring]
    rw [weaveIW_getD_even (uniformBounds x0 s (n + 1)) _
      (by rw [uniformBounds_length, uniformBounds_length]) i]
    rw [uniformBounds_getD s (n + 2) _ i (by omega)]
    push_cast
    ring
  · subst hi
    show (weaveIntervalsWalls _ _).getD (2 * i + 1) 0 = _
    rw [weaveIW_getD_odd (uniformBounds x0 s (n + 1)) _
      (by rw [uniformBounds_length, uniformBounds_length]) i]
    rw [uniformBounds_getD s (n + 1) _ i (by omega)]
    push_cast
    ring

/-! ### The main branch of `__call__` after the input checks -/

/-- The body of `LaiKaplanInterpolator.__call__` after the two input checks
pass, with the pieces that depend only on the inputs (`control_points_x`,
the wall control points and the two extrapolated interval values) abstracted
as parameters. -/
def lkMain (interp : LaiKaplanInterpolator) (x_step : ℚ)
    (x_bounds_in y_in x_bounds_out cpX walls : List ℚ) (e0 eN : ℚ) :
    List Stage × Except Err (List ℚ) :=
  match thomasSolve a1Const a2Const a3Const (mkB x_step y_in walls e0 eN) with
  | none => ([.sortedCheck, .uniformCheck, .solveStage], .error .singularMatrix)
  | some c =>
    let control_points_y := e0 :: weaveWallsIntervals walls c ++ [eN]
    let grads := List.zipWith (fun a b => (b - a) / (2 * (x_step / 2)))
      control_points_y (control_points_y.drop 2)
    match evalLoop cpX control_points_y grads (x_step / 2)
        none 0 (cpX.headD 0 - 10 * (x_step / 2)) x_bounds_out with
    | .error e => ([.sortedCheck, .uniformCheck, .solveStage,
        .evaluateStage], .error e)
    | .ok y_out =>
      match interp.min_val with
      | none => ([.sortedCheck, .uniformCheck, .solveStage,
          .evaluateStage, .minCheckStage], .ok y_out)
      | some mv =>
        if y_out.any (fun y => decide (y < mv)) then
          if y_in.any (fun y => decide (y < mv)) then
            ([.sortedCheck, .uniformCheck, .solveStage, .evaluateStage,
              .minCheckStage], .error .infeasibleMin)
          else
            ([.sortedCheck, .uniformCheck, .solveStage, .evaluateStage,
              .minCheckStage, .adjustStage],
             lowerBoundAdjustment interp mv y_out control_points_y
               x_bounds_in y_in x_bounds_out)
        else
          ([.sortedCheck, .uniformCheck, .solveStage, .evaluateStage,
            .minCheckStage], .ok y_out)

/-- `__call__` reduces to `lkMain` once the output-sorted and
uniform-spacing checks pass. -/
lemma callS_eq_main (interp : LaiKaplanInterpolator)
    (x_bounds_in y_in x_bounds_out : List ℚ) (x_step : ℚ) (ds : List ℚ)
    (mids ix : List ℚ) (ee : ℚ × ℚ) (walls : List ℚ)
    (hsort : nondecr x_bounds_out = true)
    (hd : npDiff x_bounds_in = x_step :: ds)
    (hall : (x_step :: ds).all
      (fun d => decide (|x_step - d| ≤ interp.rtol_uniform_steps * |d|)) = true)
    (hmids : mids = List.zipWith (fun a b => (a + b) / 2)
      x_bounds_in x_bounds_in.tail)
    (hix : ix = (mids.headD 0 - x_step) :: mids ++ [mids.getLastD 0 + x_step])
    (hee : ee = interp.extrapolate_fn mids y_in (ix.headD 0) (ix.getLastD 0))
    (hwalls : walls = interp.get_wall_control_points_y_from_interval_ys ix
      (ee.1 :: y_in ++ [ee.2]) x_bounds_in) :
    laiKaplanCallS interp x_bounds_in y_in x_bounds_out =
      lkMain interp x_step x_bounds_in y_in x_bounds_out
        (weaveIntervalsWalls ix x_bounds_in) walls ee.1 ee.2 := by
  subst hmids hix hee hwalls
  unfold laiKaplanCallS
  rw [if_neg (by simp [hsort]), hd]
  show (if ¬ (x_step :: ds).all
      (fun d => decide (|x_step - d| ≤ interp.rtol_uniform_steps * |d|)) = true
    then ([Stage.sortedCheck, Stage.uniformCheck],
      Except.error Err.nonUniformSpacing)
    else _) = _
  rw [if_neg (by simp [hall])]
  rfl

/-- The evaluation loop from its cold start (`no patch yet`, index `0`,
far-left sentinel position) over a half-grid-aligned output grid. -/
lemma evalLoop_start (cpX cpY grads : List ℚ) (x0 δ : ℚ) (hδ : 0 < δ)
    (hx : ∀ k < cpX.length, cpX.getD k 0 = x0 + ((k : ℚ) - 1) * δ)
    (hylen : cpY.length = cpX.length) (hglen : grads.length + 2 = cpX.length)
    (segs : List (List ℚ)) (hlen : segs.length + 3 ≤ cpX.length)
    (hvalid : segsValid x0 δ 1 x0 segs) :
    evalLoop cpX cpY grads δ none 0 (cpX.headD 0 - 10 * δ)
        (x0 :: cellsOut x0 δ 1 segs) =
      .ok (expectedVals cpY grads x0 δ 1 x0 segs) := by
  cases segs with
  | nil => rfl
  | cons ts rest =>
    have h0 : cpX.headD 0 = x0 - δ := by
      have h00 := hx 0 (by omega)
      rw [getD_zero_eq_headD] at h00
      rw [h00]
      push_cast
      ring
    have hmk1 : mkPatch cpX cpY grads δ 1 = .ok (patchAtIdx cpY grads x0 δ 1) := by
      apply mkPatch_ok cpX cpY grads δ x0 hx hylen hglen 1 le_rfl
      simp only [List.length_cons] at hlen
      omega
    have hx1 : (patchAtIdx cpY grads x0 δ 1).x_i =
        x0 + (((1 : ℕ) : ℚ) - 1) * δ := rfl
    cases htl : ts ++ [x0 + ((1 : ℕ) : ℚ) * δ] ++ cellsOut x0 δ (1 + 1) rest with
    | nil =>
      exfalso
      rcases List.append_eq_nil.mp htl with ⟨h1, _⟩
      rcases List.append_eq_nil.mp h1 with ⟨_, h2⟩
      simp at h2
    | cons b rest3 =>
      have hcells : cellsOut x0 δ 1 (ts :: rest) = b :: rest3 := by
        simp only [cellsOut]
        exact htl
      have hadv : x0 ≥ cpX.headD 0 - 10 * δ + δ := by
        rw [h0]
        linarith
      have hnadv : ¬ x0 ≥ x0 + (((1 : ℕ) : ℚ) - 1) * δ + δ := by
        push_cast
        push_neg
        linarith
      have hmaster := evalLoop_master cpX cpY grads x0 δ hδ hx hylen hglen
        (ts :: rest) 1 x0 le_rfl
        (by simp only [List.length_cons] at hlen ⊢; omega) hvalid
        (le_of_eq (by push_cast; ring)) (by push_cast; linarith)
      rw [hcells] at hmaster
      rw [evalLoop_cons_noadv cpX cpY grads δ _ 1 _ _ b rest3 hnadv] at hmaster
      rw [hcells]
      rw [evalLoop_cons_adv cpX cpY grads δ none 0 (cpX.headD 0 - 10 * δ)
        x0 b rest3 _ hadv hmk1]
      rw [hx1]
      exact hmaster

lemma setLastSub_length : ∀ (l : List ℚ) (v : ℚ),
    (setLastSub l v).length = l.length := by
  intro l
  induction l with
  | nil => intro v; rfl
  | cons x t ih =>
    intro v
    cases t with
    | nil => rfl
    | cons y u =>
      show (x :: setLastSub (y :: u) v).length = _
      simp only [List.length_cons]
      rw [ih v]
      rfl

lemma zipWith3_length {α β γ δ : Type} (f : α → β → γ → δ) :
    ∀ (as : List α) (bs : List β) (cs : List γ),
    (List.zipWith3 f as bs cs).length =
      min as.length (min bs.length cs.length) := by
  intro as
  induction as with
  | nil =>
    intro bs cs
    have h : List.zipWith3 f [] bs cs = [] := by cases bs <;> cases cs <;> rfl
    rw [h]
    simp
  | cons a as ih =>
    intro bs cs
    cases bs with
    | nil =>
      have h : List.zipWith3 f (a :: as) [] cs = [] := by cases cs <;> rfl
      rw [h]
      simp
    | cons b bs =>
      cases cs with
      | nil =>
        rw [show List.zipWith3 f (a :: as) (b :: bs) [] = [] from rfl]
        simp
      | cons c cs =>
        show (f a b c :: List.zipWith3 f as bs cs).length = _
        simp only [List.length_cons, ih]
        omega

lemma mkB_length (x_step : ℚ) (y_in walls : List ℚ) (e0 eN : ℚ)
    (hw : walls.length = y_in.length + 1) :
    (mkB x_step y_in walls e0 eN).length = y_in.length := by
  have hcore : (List.zipWith3
      (fun y wi wi1 => (x_step * y) / (x_step / 2) - beta1Const * wi -
        beta2Const * wi1) y_in walls walls.tail).length = y_in.length := by
    rw [zipWith3_length, hw, List.length_tail, hw]
    omega
  simp only [mkB]
  cases hc : List.zipWith3
      (fun y wi wi1 => (x_step * y) / (x_step / 2) - beta1Const * wi -
        beta2Const * wi1) y_in walls walls.tail with
  | nil =>
    rw [hc] at hcore
    simp only [List.length_nil] at hcore ⊢
    omega
  | cons c0 rest =>
    cases rest with
    | nil =>
      rw [hc] at hcore
      simp only [List.length_cons, List.length_nil] at hcore ⊢
      omega
    | cons c1 rest2 =>
      rw [hc] at hcore
      simp only [List.length_cons] at hcore
      simp only [List.length_cons, setLastSub_length]
      omega

/-- The whole successful pipeline on a uniform input grid and a
half-grid-aligned output grid: the solve succeeds, and the result is the
per-cell pair averages of the patch antiderivatives. -/
lemma lkMain_structured (interp : LaiKaplanInterpolator) (x0 s : ℚ)
    (hs : 0 < s) (n : ℕ) (hn : 1 ≤ n) (xin y_in walls : List ℚ) (e0 eN : ℚ)
    (hy : y_in.length = n) (hwalls : walls.length = n + 1)
    (hmin : interp.min_val = none)
    (segs : List (List ℚ)) (hslen : segs.length = 2 * n)
    (hvalid : segsValid x0 (s / 2) 1 x0 segs) :
    ∃ c, thomasSolve a1Const a2Const a3Const (mkB s y_in walls e0 eN) = some c ∧
      c.length = n ∧
      triRows a1Const a2Const a3Const 0 c (mkB s y_in walls e0 eN) ∧
      lkMain interp s xin y_in (x0 :: cellsOut x0 (s / 2) 1 segs)
          (lkCpX x0 s n) walls e0 eN =
        ([.sortedCheck, .uniformCheck, .solveStage, .evaluateStage,
          .minCheckStage],
         .ok (expectedVals (e0 :: weaveWallsIntervals walls c ++ [eN])
           (List.zipWith (fun a b => (b - a) / (2 * (s / 2)))
             (e0 :: weaveWallsIntervals walls c ++ [eN])
             ((e0 :: weaveWallsIntervals walls c ++ [eN]).drop 2))
           x0 (s / 2) 1 x0 segs)) := by
  obtain ⟨c, hsolve, htri, hclen⟩ := thomasSolve_main_total (mkB s y_in walls e0 eN)
  have hblen : (mkB s y_in walls e0 eN).length = n := by
    rw [mkB_length s y_in walls e0 eN (by omega), hy]
  have hclen2 : c.length = n := by rw [hclen, hblen]
  have hwv : (weaveWallsIntervals walls c).length = 2 * n + 1 := by
    rw [weaveWI_length c walls (by omega), hclen2]
  have hcpylen : (e0 :: weaveWallsIntervals walls c ++ [eN]).length = 2 * n + 3 := by
    simp only [List.length_cons, List.length_append, List.length_nil, hwv]
  have hglen : (List.zipWith (fun a b => (b - a) / (2 * (s / 2)))
      (e0 :: weaveWallsIntervals walls c ++ [eN])
      ((e0 :: weaveWallsIntervals walls c ++ [eN]).drop 2)).length + 2 =
      (lkCpX x0 s n).length := by
    rw [List.length_zipWith, List.length_drop, hcpylen, lkCpX_length]
    omega
  have hxk : ∀ k < (lkCpX x0 s n).length,
      (lkCpX x0 s n).getD k 0 = x0 + ((k : ℚ) - 1) * (s / 2) := by
    intro k hk
    exact lkCpX_getD x0 s n k (by rw [lkCpX_length] at hk; omega)
  have hev := evalLoop_start (lkCpX x0 s n)
    (e0 :: weaveWallsIntervals walls c ++ [eN])
    (List.zipWith (fun a b => (b - a) / (2 * (s / 2)))
      (e0 :: weaveWallsIntervals walls c ++ [eN])
      ((e0 :: weaveWallsIntervals walls c ++ [eN]).drop 2))
    x0 (s / 2) (by linarith) hxk (by rw [hcpylen, lkCpX_length]) hglen
    segs (by rw [lkCpX_length]; omega) hvalid
  refine ⟨c, hsolve, hclen2, htri, ?_⟩
  simp only [lkMain, hsolve]
  rw [hev]
  simp only [hmin]

/-! ### The pipeline values on a uniform input grid, in canonical form -/

/-- The two extrapolated interval values (`y_out_bounds`). -/
def lkEE (interp : LaiKaplanInterpolator) (x0 s : ℚ) (n : ℕ)
    (y_in : List ℚ) : ℚ × ℚ :=
  interp.extrapolate_fn (uniformBounds (x0 + s / 2) s n) y_in (x0 - s / 2)
    (x0 - s / 2 + ((n + 1 : ℕ) : ℚ) * s)

/-- The wall control points returned by the injected wall policy. -/
def lkWalls (interp : LaiKaplanInterpolator) (x0 s : ℚ) (n : ℕ)
    (y_in : List ℚ) : List ℚ :=
  interp.get_wall_control_points_y_from_interval_ys
    (uniformBounds (x0 - s / 2) s (n + 2))
    ((lkEE interp x0 s n y_in).1 :: y_in ++ [(lkEE interp x0 s n y_in).2])
    (uniformBounds x0 s (n + 1))

/-- The solved interval control points. -/
def lkC (interp : LaiKaplanInterpolator) (x0 s : ℚ) (n : ℕ)
    (y_in : List ℚ) : List ℚ :=
  (thomasSolve a1Const a2Const a3Const
    (mkB s y_in (lkWalls interp x0 s n y_in)
      (lkEE interp x0 s n y_in).1 (lkEE interp x0 s n y_in).2)).getD []

/-- The full `control_points_y` array. -/
def lkCpY (interp : LaiKaplanInterpolator) (x0 s : ℚ) (n : ℕ)
    (y_in : List ℚ) : List ℚ :=
  (lkEE interp x0 s n y_in).1 ::
    weaveWallsIntervals (lkWalls interp x0 s n y_in) (lkC interp x0 s n y_in)
    ++ [(lkEE interp x0 s n y_in).2]

/-- The centred-difference control-point gradients. -/
def lkGrads (interp : LaiKaplanInterpolator) (x0 s : ℚ) (n : ℕ)
    (y_in : List ℚ) : List ℚ :=
  List.zipWith (fun a b => (b - a) / (2 * (s / 2))) (lkCpY interp x0 s n y_in)
    ((lkCpY interp x0 s n y_in).drop 2)

lemma lkC_spec (interp : LaiKaplanInterpolator) (x0 s : ℚ) (n : ℕ)
    (y_in : List ℚ) :
    thomasSolve a1Const a2Const a3Const
      (mkB s y_in (lkWalls interp x0 s n y_in)
        (lkEE interp x0 s n y_in).1 (lkEE interp x0 s n y_in).2) =
      some (lkC interp x0 s n y_in) ∧
    triRows a1Const a2Const a3Const 0 (lkC interp x0 s n y_in)
      (mkB s y_in (lkWalls interp x0 s n y_in)
        (lkEE interp x0 s n y_in).1 (lkEE interp x0 s n y_in).2) ∧
    (lkC interp x0 s n y_in).length =
      (mkB s y_in (lkWalls interp x0 s n y_in)
        (lkEE interp x0 s n y_in).1 (lkEE interp x0 s n y_in).2).length := by
  obtain ⟨c, hsolve, htri, hclen⟩ := thomasSolve_main_total
    (mkB s y_in (lkWalls interp x0 s n y_in)
      (lkEE interp x0 s n y_in).1 (lkEE interp x0 s n y_in).2)
  have hc : lkC interp x0 s n y_in = c := by
    rw [lkC, hsolve]
    rfl
  rw [hc]
  exact ⟨hsolve, htri, hclen⟩

/-- `__call__` on a uniform input grid and a half-grid-aligned,
strictly increasing output grid starting at the left domain edge: every
stage is entered, no error is raised, and the output values are the
per-cell averages of the solved piecewise-quartic antiderivative. -/
lemma callS_structured (interp : LaiKaplanInterpolator) (x0 s : ℚ)
    (hs : 0 < s) (n : ℕ) (hn : 1 ≤ n) (y_in : List ℚ) (hy : y_in.length = n)
    (segs : List (List ℚ)) (hslen : segs.length = 2 * n)
    (hvalid : segsValid x0 (s / 2) 1 x0 segs)
    (hrtol : 0 ≤ interp.rtol_uniform_steps)
    (hmin : interp.min_val = none)
    (hw : ∀ ix iy xb,
      (interp.get_wall_control_points_y_from_interval_ys ix iy xb).length =
        xb.length) :
    laiKaplanCallS interp (uniformBounds x0 s (n + 1)) y_in
        (x0 :: cellsOut x0 (s / 2) 1 segs) =
      ([.sortedCheck, .uniformCheck, .solveStage, .evaluateStage,
        .minCheckStage],
       .ok (expectedVals (lkCpY interp x0 s n y_in)
         (lkGrads interp x0 s n y_in) x0 (s / 2) 1 x0 segs)) := by
  obtain ⟨m, rfl⟩ : ∃ m, n = m + 1 := ⟨n - 1, by omega⟩
  have hsort : nondecr (x0 :: cellsOut x0 (s / 2) 1 segs) = true :=
    nondecr_of_chain _ (chain_cellsOut x0 (s / 2) segs 1 x0 hvalid)
  have hd : npDiff (uniformBounds x0 s (m + 1 + 1)) =
      s :: List.replicate m s := by
    rw [npDiff_uniformBounds s (m + 1) x0, List.replicate_succ]
  have hall : (s :: List.replicate m s).all
      (fun d => decide (|s - d| ≤ interp.rtol_uniform_steps * |d|)) = true := by
    rw [List.all_eq_true]
    intro d hd2
    have hds : d = s := by
      rcases List.mem_cons.mp hd2 with h | h
      · exact h
      · exact (List.mem_replicate.mp h).2
    subst hds
    simp only [sub_self, abs_zero, decide_eq_true_eq]
    exact mul_nonneg hrtol (abs_nonneg d)
  have hee : lkEE interp x0 s (m + 1) y_in =
      interp.extrapolate_fn (uniformBounds (x0 + s / 2) s (m + 1)) y_in
        ((uniformBounds (x0 - s / 2) s (m + 1 + 2)).headD 0)
        ((uniformBounds (x0 - s / 2) s (m + 1 + 2)).getLastD 0) := by
    rw [show (uniformBounds (x0 - s / 2) s (m + 1 + 2)).getLastD 0 =
      x0 - s / 2 + ((m + 1 + 1 : ℕ) : ℚ) * s from
      uniformBounds_getLastD s (m + 1 + 1) (x0 - s / 2)]
    rfl
  have hmain := callS_eq_main interp (uniformBounds x0 s (m + 1 + 1)) y_in
    (x0 :: cellsOut x0 (s / 2) 1 segs) s (List.replicate m s)
    (uniformBounds (x0 + s / 2) s (m + 1))
    (uniformBounds (x0 - s / 2) s (m + 1 + 2))
    (lkEE interp x0 s (m + 1) y_in) (lkWalls interp x0 s (m + 1) y_in)
    hsort hd hall (mids_uniformBounds s (m + 1) x0).symm
    (intervalsX_eq s (m + 1) (by omega) x0).symm hee rfl
  rw [hmain]
  obtain ⟨c, hsolve, hclen, htri, heq⟩ := lkMain_structured interp x0 s hs
    (m + 1) (by omega) (uniformBounds x0 s (m + 1 + 1)) y_in
    (lkWalls interp x0 s (m + 1) y_in)
    (lkEE interp x0 s (m + 1) y_in).1 (lkEE interp x0 s (m + 1) y_in).2
    hy (by rw [lkWalls, hw, uniformBounds_length]) hmin segs hslen hvalid
  have hc : c = lkC interp x0 s (m + 1) y_in := by
    have h1 := (lkC_spec interp x0 s (m + 1) y_in).1
    rw [hsolve] at h1
    exact (Option.some.injEq _ _).mp h1.symm |>.symm
  subst hc
  rw [show weaveIntervalsWalls (uniformBounds (x0 - s / 2) s (m + 1 + 2))
    (uniformBounds x0 s (m + 1 + 1)) = lkCpX x0 s (m + 1) from rfl]
  rw [heq]
  rfl

/-! ### Aggregating the output back to the input intervals -/

lemma patchAnti_left (f : LaiKaplanF) : patchAnti f f.x_i = 0 := by
  simp only [patchAnti, hq00, hq01, hq10, hq11, sub_self, zero_div]
  ring

lemma patchAnti_atIdx_left (cpY grads : List ℚ) (x0 δ : ℚ) (k : ℕ) :
    patchAnti (patchAtIdx cpY grads x0 δ k) (x0 + ((k : ℚ) - 1) * δ) = 0 :=
  patchAnti_left _

lemma npDiff_length (l : List ℚ) : (npDiff l).length = l.length - 1 := by
  rw [npDiff, List.length_zipWith, List.length_tail]
  omega

lemma npDiff_cons_append (r : ℚ) : ∀ (ts : List ℚ) (a : ℚ) (l2 : List ℚ),
    npDiff (a :: (ts ++ [r] ++ l2)) =
      npDiff (a :: ts ++ [r]) ++ npDiff (r :: l2) := by
  intro ts
  induction ts with
  | nil => intro a l2; rfl
  | cons t ts ih =>
    intro a l2
    show (t - a) :: npDiff (t :: (ts ++ [r] ++ l2)) = _
    rw [ih t l2]
    rfl

/-- The width-weighted output values, cell by cell: per cell the pair
differences of that cell's patch antiderivative. -/
def weightedVals (cpY grads : List ℚ) (x0 δ : ℚ) :
    ℕ → ℚ → List (List ℚ) → List ℚ
  | _, _, [] => []
  | k, a, ts :: rest =>
    pairDiffs (patchAnti (patchAtIdx cpY grads x0 δ k))
        (a :: ts ++ [x0 + (k : ℚ) * δ]) ++
      weightedVals cpY grads x0 δ (k + 1) (x0 + (k : ℚ) * δ) rest

lemma weightedVals_length (cpY grads : List ℚ) (x0 δ : ℚ) :
    ∀ (segs : List (List ℚ)) (k : ℕ) (a : ℚ),
    (weightedVals cpY grads x0 δ k a segs).length = segLen segs := by
  intro segs
  induction segs with
  | nil => intro k a; rfl
  | cons ts rest ih =>
    intro k a
    simp only [weightedVals, List.length_append, ih, segLen_cons,
      pairDiffs_length]
    simp

/-- Width times emitted average equals the antiderivative difference, cell
by cell. -/
lemma weighted_expected (cpY grads : List ℚ) (x0 δ : ℚ) :
    ∀ (segs : List (List ℚ)) (k : ℕ) (a : ℚ), segsValid x0 δ k a segs →
    List.zipWith (fun w v => w * v) (npDiff (a :: cellsOut x0 δ k segs))
      (expectedVals cpY grads x0 δ k a segs) =
      weightedVals cpY grads x0 δ k a segs := by
  intro segs
  induction segs with
  | nil => intro k a _; rfl
  | cons ts rest ih =>
    intro k a hvalid
    obtain ⟨hchain, hrest⟩ := hvalid
    show List.zipWith _ (npDiff (a :: (ts ++ [x0 + (k : ℚ) * δ] ++
        cellsOut x0 δ (k + 1) rest))) _ = _
    rw [npDiff_cons_append (x0 + (k : ℚ) * δ) ts a (cellsOut x0 δ (k + 1) rest)]
    show List.zipWith _ _ (pairAverages (patchAnti (patchAtIdx cpY grads x0 δ k))
        (a :: ts ++ [x0 + (k : ℚ) * δ]) ++
      expectedVals cpY grads x0 δ (k + 1) (x0 + (k : ℚ) * δ) rest) = _
    rw [List.zipWith_append _ _ _ _ _ (by
      rw [npDiff_length, pairAverages_length])]
    rw [weighted_pairAverages _ _ hchain]
    show _ = pairDiffs (patchAnti (patchAtIdx cpY grads x0 δ k))
        (a :: ts ++ [x0 + (k : ℚ) * δ]) ++
      weightedVals cpY grads x0 δ (k + 1) (x0 + (k : ℚ) * δ) rest
    congr 1
    exact ih (k + 1) (x0 + (k : ℚ) * δ) hrest

/-- Sum of the first `q` full-cell integrals starting at cell `k`. -/
def cellIntSum (cpY grads : List ℚ) (x0 δ : ℚ) (k q : ℕ) : ℚ :=
  ((List.range q).map (fun i =>
    patchAnti (patchAtIdx cpY grads x0 δ (k + i))
      (x0 + ((k + i : ℕ) : ℚ) * δ))).sum

lemma cellIntSum_succ_front (cpY grads : List ℚ) (x0 δ : ℚ) (k q : ℕ) :
    cellIntSum cpY grads x0 δ k (q + 1) =
      patchAnti (patchAtIdx cpY grads x0 δ k) (x0 + (k : ℚ) * δ) +
        cellIntSum cpY grads x0 δ (k + 1) q := by
  simp only [cellIntSum, List.range_succ_eq_map, List.map_cons, List.sum_cons,
    List.map_map]
  congr 1
  refine congrArg List.sum (List.map_congr_left ?_)
  intro i _
  show patchAnti (patchAtIdx cpY grads x0 δ (k + (i + 1)))
      (x0 + ((k + (i + 1) : ℕ) : ℚ) * δ) =
    patchAnti (patchAtIdx cpY grads x0 δ (k + 1 + i))
      (x0 + ((k + 1 + i : ℕ) : ℚ) * δ)
  rw [show k + (i + 1) = k + 1 + i from by omega]

lemma cellIntSum_split2 (cpY grads : List ℚ) (x0 δ : ℚ) (k q : ℕ) :
    cellIntSum cpY grads x0 δ k (q + 2) =
      cellIntSum cpY grads x0 δ k q +
      patchAnti (patchAtIdx cpY grads x0 δ (k + q))
        (x0 + ((k + q : ℕ) : ℚ) * δ) +
      patchAnti (patchAtIdx cpY grads x0 δ (k + q + 1))
        (x0 + ((k + q + 1 : ℕ) : ℚ) * δ) := by
  show cellIntSum cpY grads x0 δ k (q + 1 + 1) = _
  simp only [cellIntSum, List.range_succ, List.map_append, List.sum_append,
    List.map_cons, List.map_nil, List.sum_cons, List.sum_nil]
  rw [show k + (q + 1) = k + q + 1 from by omega]
  ring

lemma getLast_cons_append (a r : ℚ) (ts : List ℚ)
    (h : a :: ts ++ [r] ≠ []) : (a :: ts ++ [r]).getLast h = r := by
  have h1 : (a :: ts ++ [r]).getLast? = some r := by
    rw [show a :: ts ++ [r] = (a :: ts) ++ [r] from rfl, List.getLast?_concat]
  rw [List.getLast?_eq_getLast _ h] at h1
  exact (Option.some.injEq _ _).mp h1

lemma segLen_take_mono (segs : List (List ℚ)) (q : ℕ) :
    segLen (segs.take q) ≤ segLen segs := by
  conv_rhs => rw [← List.take_append_drop q segs]
  simp only [segLen, List.map_append, List.sum_append]
  have : 0 ≤ ((segs.drop q).map (fun ts => ts.length + 1)).sum := Nat.zero_le _
  omega

lemma length_le_sum_ones (l : List ℕ) (h1 : ∀ x ∈ l, 1 ≤ x) :
    l.length ≤ l.sum := by
  induction l with
  | nil => simp
  | cons x t ih =>
    simp only [List.length_cons, List.sum_cons]
    have hx := h1 x (by simp)
    have ht := ih (fun y hy => h1 y (by simp [hy]))
    omega

lemma segLen_take_ge (segs : List (List ℚ)) (q : ℕ) (hq : q ≤ segs.length) :
    q ≤ segLen (segs.take q) := by
  have hlen : (segs.take q).length = q := by
    rw [List.length_take]
    omega
  calc q = (segs.take q).length := hlen.symm
  _ = ((segs.take q).map (fun ts => ts.length + 1)).length := by
      rw [List.length_map]
  _ ≤ ((segs.take q).map (fun ts => ts.length + 1)).sum := by
      apply length_le_sum_ones
      intro x hx
      obtain ⟨ts, _, rfl⟩ := List.mem_map.mp hx
      omega

/-- Partial sums of the weighted values at cell boundaries are partial sums
of full-cell integrals (the walk starts exactly at cell `k`'s left edge). -/
lemma weightedVals_take_sum (cpY grads : List ℚ) (x0 δ : ℚ) :
    ∀ (segs : List (List ℚ)) (q k : ℕ), q ≤ segs.length →
    segsValid x0 δ k (x0 + ((k : ℚ) - 1) * δ) segs →
    ((weightedVals cpY grads x0 δ k (x0 + ((k : ℚ) - 1) * δ) segs).take
      (segLen (segs.take q))).sum = cellIntSum cpY grads x0 δ k q := by
  intro segs
  induction segs with
  | nil =>
    intro q k hq _
    have hq0 : q = 0 := by simpa using hq
    subst hq0
    rfl
  | cons ts rest ih =>
    intro q k hq hvalid
    obtain ⟨hchain, hrest⟩ := hvalid
    cases q with
    | zero => rfl
    | succ q =>
      have hchunklen : (pairDiffs (patchAnti (patchAtIdx cpY grads x0 δ k))
          ((x0 + ((k : ℚ) - 1) * δ) :: ts ++ [x0 + (k : ℚ) * δ])).length =
          ts.length + 1 := by
        rw [pairDiffs_length]
        simp
      show ((pairDiffs (patchAnti (patchAtIdx cpY grads x0 δ k))
          ((x0 + ((k : ℚ) - 1) * δ) :: ts ++ [x0 + (k : ℚ) * δ]) ++
        weightedVals cpY grads x0 δ (k + 1) (x0 + (k : ℚ) * δ) rest).take
          (segLen (ts :: rest.take q))).sum = _
      rw [segLen_cons, List.take_append_eq_append_take]
      rw [List.take_of_length_le (by rw [hchunklen]; omega)]
      rw [List.sum_append]
      rw [show ts.length + 1 + segLen (rest.take q) -
        (pairDiffs (patchAnti (patchAtIdx cpY grads x0 δ k))
          ((x0 + ((k : ℚ) - 1) * δ) :: ts ++ [x0 + (k : ℚ) * δ])).length =
        segLen (rest.take q) from by rw [hchunklen]; omega]
      have hsum1 : (pairDiffs (patchAnti (patchAtIdx cpY grads x0 δ k))
          ((x0 + ((k : ℚ) - 1) * δ) :: ts ++ [x0 + (k : ℚ) * δ])).sum =
          patchAnti (patchAtIdx cpY grads x0 δ k) (x0 + (k : ℚ) * δ) := by
        simp only [List.cons_append]
        rw [pairDiffs_sum (patchAnti (patchAtIdx cpY grads x0 δ k))
          (ts ++ [x0 + (k : ℚ) * δ]) (x0 + ((k : ℚ) - 1) * δ)]
        rw [show ((x0 + ((k : ℚ) - 1) * δ) :: (ts ++ [x0 + (k : ℚ) * δ])).getLast
          (by simp) = x0 + (k : ℚ) * δ from getLast_cons_append _ _ _ _]
        rw [patchAnti_atIdx_left]
        ring
      rw [hsum1]
      have hrest2 : segsValid x0 δ (k + 1)
          (x0 + (((k + 1 : ℕ) : ℚ) - 1) * δ) rest := by
        rw [show x0 + (((k + 1 : ℕ) : ℚ) - 1) * δ = x0 + (k : ℚ) * δ from by
          push_cast; ring]
        exact hrest
      have hih := ih q (k + 1) (by simpa using hq) hrest2
      rw [show x0 + (((k + 1 : ℕ) : ℚ) - 1) * δ = x0 + (k : ℚ) * δ from by
        push_cast; ring] at hih
      rw [hih, cellIntSum_succ_front]

lemma isinIdxs_append (gb : List ℚ) : ∀ (l1 l2 : List ℚ) (i : ℕ),
    isinIdxs gb (l1 ++ l2) i =
      isinIdxs gb l1 i ++ isinIdxs gb l2 (i + l1.length) := by
  intro l1
  induction l1 with
  | nil => intro l2 i; simp [isinIdxs]
  | cons x t ih =>
    intro l2 i
    simp only [List.cons_append, isinIdxs, List.length_cons, List.append_eq]
    rw [ih l2 (i + 1)]
    rw [show i + 1 + t.length = i + (t.length + 1) from by omega]
    by_cases hmem : x ∈ gb
    · rw [if_pos hmem, if_pos hmem]
      rfl
    · rw [if_neg hmem, if_neg hmem]

lemma isinIdxs_nil_of_not_mem (gb : List ℚ) : ∀ (l : List ℚ) (i : ℕ),
    (∀ x ∈ l, x ∉ gb) → isinIdxs gb l i = [] := by
  intro l
  induction l with
  | nil => intro i _; rfl
  | cons x t ih =>
    intro i h
    simp only [isinIdxs, if_neg (h x (by simp))]
    exact ih (i + 1) (fun y hy => h y (by simp [hy]))

lemma isinIdxs_singleton (gb : List ℚ) (v : ℚ) (i : ℕ) :
    isinIdxs gb [v] i = if v ∈ gb then [i] else [] := by
  by_cases hmem : v ∈ gb
  · simp [isinIdxs, if_pos hmem]
  · simp [isinIdxs, if_neg hmem]

lemma mem_uniformBounds (s : ℚ) : ∀ (m : ℕ) (x0 g : ℚ),
    g ∈ uniformBounds x0 s m → ∃ j, j < m ∧ g = x0 + (j : ℚ) * s := by
  intro m
  induction m with
  | zero => intro x0 g h; simp [uniformBounds] at h
  | succ m ih =>
    intro x0 g h
    rcases List.mem_cons.mp h with rfl | h2
    · exact ⟨0, by omega, by simp⟩
    · obtain ⟨j, hj, rfl⟩ := ih (x0 + s) g h2
      exact ⟨j + 1, by omega, by push_cast; ring⟩

lemma getD_mem {α : Type} (l : List α) (j : ℕ) (d : α) (hj : j < l.length) :
    l.getD j d ∈ l := by
  rw [List.getD_eq_getElem?_getD, List.getElem?_eq_getElem hj]
  simp only [Option.getD_some]
  exact List.getElem_mem hj

lemma grid_inj (x0 δ : ℚ) (hδ : 0 < δ) {a b : ℕ}
    (h : x0 + (a : ℚ) * δ = x0 + (b : ℚ) * δ) : a = b := by
  have h2 : (a : ℚ) * δ = (b : ℚ) * δ := by linarith
  have h3 : (a : ℚ) = (b : ℚ) := mul_right_cancel₀ (ne_of_gt hδ) h2
  exact_mod_cast h3

lemma grid_lt (x0 δ : ℚ) (hδ : 0 < δ) {a b : ℕ}
    (h : x0 + (a : ℚ) * δ < x0 + (b : ℚ) * δ) : a < b := by
  have h2 : (a : ℚ) * δ < (b : ℚ) * δ := by linarith
  have h3 : (a : ℚ) < (b : ℚ) := (mul_lt_mul_right hδ).mp h2
  exact_mod_cast h3

/-- No value strictly between two consecutive half-grid points is an
even-indexed grid point, hence not a group boundary. -/
lemma interior_not_mem (gb : List ℚ) (x0 δ : ℚ) (hδ : 0 < δ)
    (hgbvals : ∀ g ∈ gb, ∃ j : ℕ, g = x0 + ((2 * j : ℕ) : ℚ) * δ)
    (lo : ℕ) (t : ℚ) (hlo : x0 + (lo : ℚ) * δ < t)
    (hhi : t < x0 + ((lo + 1 : ℕ) : ℚ) * δ) : t ∉ gb := by
  intro hmem
  obtain ⟨j, rfl⟩ := hgbvals t hmem
  have h1 : lo < 2 * j := grid_lt x0 δ hδ hlo
  have h2 : 2 * j < lo + 1 := grid_lt x0 δ hδ hhi
  omega

lemma odd_not_mem (gb : List ℚ) (x0 δ : ℚ) (hδ : 0 < δ)
    (hgbvals : ∀ g ∈ gb, ∃ j : ℕ, g = x0 + ((2 * j : ℕ) : ℚ) * δ)
    (t : ℕ) : x0 + ((2 * t + 1 : ℕ) : ℚ) * δ ∉ gb := by
  intro hmem
  obtain ⟨j, hj⟩ := hgbvals _ hmem
  have := grid_inj x0 δ hδ hj
  omega

lemma chain_interior_bounds (a r : ℚ) (ts : List ℚ)
    (h : List.Chain' (· < ·) (a :: ts ++ [r])) :
    ∀ x ∈ ts, a < x ∧ x < r := by
  have hpw : ((a :: ts) ++ [r]).Pairwise (· < ·) :=
    List.chain'_iff_pairwise.mp h
  rw [List.pairwise_append] at hpw
  obtain ⟨hpw1, _, hcross⟩ := hpw
  intro x hx
  exact ⟨(List.pairwise_cons.mp hpw1).1 x hx, hcross x (by simp [hx]) r (by simp)⟩

/-- Positions of the group boundaries inside the structured output grid:
right after the end of every second cell. -/
lemma isin_cells (gb : List ℚ) (x0 δ : ℚ) (hδ : 0 < δ) (n : ℕ)
    (hgbvals : ∀ g ∈ gb, ∃ j : ℕ, g = x0 + ((2 * j : ℕ) : ℚ) * δ)
    (hmem2 : ∀ j : ℕ, j ≤ n → x0 + ((2 * j : ℕ) : ℚ) * δ ∈ gb) :
    ∀ (p t i : ℕ) (segs : List (List ℚ)),
    segs.length = 2 * p → t + p ≤ n →
    segsValid x0 δ (2 * t + 1) (x0 + ((2 * t : ℕ) : ℚ) * δ) segs →
    isinIdxs gb (cellsOut x0 δ (2 * t + 1) segs) i =
      (List.range p).map (fun j => i + segLen (segs.take (2 * j + 2)) - 1) := by
  intro p
  induction p with
  | zero =>
    intro t i segs hlen _ _
    have h0 : segs = [] := List.eq_nil_of_length_eq_zero (by omega)
    subst h0
    rfl
  | succ p ih =>
    intro t i segs hlen hn hvalid
    cases segs with
    | nil => simp only [List.length_nil] at hlen; omega
    | cons ts1 segs2 =>
      cases segs2 with
      | nil => simp only [List.length_cons, List.length_nil] at hlen; omega
      | cons ts2 rest =>
        have hrl : rest.length = 2 * p := by
          simp only [List.length_cons] at hlen
          omega
        obtain ⟨hchain1, hvalid2⟩ := hvalid
        obtain ⟨hchain2, hvalid3⟩ := hvalid2
        have hb1 := chain_interior_bounds _ _ _ hchain1
        have hb2 := chain_interior_bounds _ _ _ hchain2
        have hts1 : ∀ x ∈ ts1, x ∉ gb := by
          intro x hx
          exact interior_not_mem gb x0 δ hδ hgbvals (2 * t) x
            (hb1 x hx).1 (hb1 x hx).2
        have hts2 : ∀ x ∈ ts2, x ∉ gb := by
          intro x hx
          exact interior_not_mem gb x0 δ hδ hgbvals (2 * t + 1) x
            (hb2 x hx).1 (hb2 x hx).2
        have hr1 : x0 + ((2 * t + 1 : ℕ) : ℚ) * δ ∉ gb :=
          odd_not_mem gb x0 δ hδ hgbvals t
        have hr2 : x0 + ((2 * t + 1 + 1 : ℕ) : ℚ) * δ ∈ gb := by
          have := hmem2 (t + 1) (by omega)
          rw [show 2 * (t + 1) = 2 * t + 1 + 1 from by omega] at this
          exact this
        have hvalid3a : segsValid x0 δ (2 * (t + 1) + 1)
            (x0 + ((2 * (t + 1) : ℕ) : ℚ) * δ) rest := by
          rw [show 2 * (t + 1) + 1 = 2 * t + 1 + 1 + 1 from by omega,
            show 2 * (t + 1) = 2 * t + 1 + 1 from by omega]
          exact hvalid3
        show isinIdxs gb ((ts1 ++ [x0 + ((2 * t + 1 : ℕ) : ℚ) * δ]) ++
          ((ts2 ++ [x0 + ((2 * t + 1 + 1 : ℕ) : ℚ) * δ]) ++
            cellsOut x0 δ (2 * t + 1 + 1 + 1) rest)) i = _
        rw [isinIdxs_append gb (ts1 ++ [x0 + ((2 * t + 1 : ℕ) : ℚ) * δ]) _ i]
        rw [isinIdxs_append gb ts1 [x0 + ((2 * t + 1 : ℕ) : ℚ) * δ] i]
        rw [isinIdxs_append gb (ts2 ++ [x0 + ((2 * t + 1 + 1 : ℕ) : ℚ) * δ]) _ _]
        rw [isinIdxs_append gb ts2 [x0 + ((2 * t + 1 + 1 : ℕ) : ℚ) * δ] _]
        rw [isinIdxs_nil_of_not_mem gb ts1 i hts1]
        rw [isinIdxs_nil_of_not_mem gb ts2 _ hts2]
        rw [isinIdxs_singleton, if_neg hr1]
        rw [isinIdxs_singleton, if_pos hr2]
        rw [show 2 * t + 1 + 1 + 1 = 2 * (t + 1) + 1 from by omega]
        rw [ih (t + 1) (i + (ts1 ++ [x0 + ((2 * t + 1 : ℕ) : ℚ) * δ]).length +
          (ts2 ++ [x0 + ((2 * t + 1 + 1 : ℕ) : ℚ) * δ]).length) rest hrl
          (by omega) hvalid3a]
        simp only [List.nil_append, List.singleton_append, List.length_append,
          List.length_cons, List.length_nil]
        rw [List.range_succ_eq_map, List.map_cons, List.map_map]
        congr 1
        · simp only [List.take_succ_cons, List.take_zero, segLen_cons,
            segLen_nil]
          omega
        · refine List.map_congr_left ?_
          intro j _
          show i + (ts1.length + (0 + 1)) + (ts2.length + (0 + 1)) +
              segLen (rest.take (2 * j + 2)) - 1 =
            i + segLen ((ts1 :: ts2 :: rest).take (2 * (j + 1) + 2)) - 1
          rw [show 2 * (j + 1) + 2 = 2 * j + 2 + 1 + 1 from by omega]
          simp only [List.take_succ_cons, segLen_cons]
          omega

lemma getD_zipWith (f : ℚ → ℚ → ℚ) : ∀ (l1 l2 : List ℚ) (j : ℕ),
    j < l1.length → j < l2.length →
    (List.zipWith f l1 l2).getD j 0 = f (l1.getD j 0) (l2.getD j 0) := by
  intro l1
  induction l1 with
  | nil => intro l2 j h1 _; simp at h1
  | cons a t ih =>
    intro l2 j h1 h2
    cases l2 with
    | nil => simp at h2
    | cons b u =>
      cases j with
      | zero => rfl
      | succ j =>
        show (List.zipWith f t u).getD j 0 = _
        exact ih u j (by simpa using h1) (by simpa using h2)

lemma getD_map_range (f : ℕ → ℚ) (n j : ℕ) (hj : j < n) :
    ((List.range n).map f).getD j 0 = f j := by
  have hlen : j < ((List.range n).map f).length := by simpa using hj
  rw [List.getD_eq_getElem?_getD, List.getElem?_eq_getElem hlen,
    Option.getD_some]
  simp

lemma getD_map_range_nat (f : ℕ → ℕ) (n j : ℕ) (hj : j < n) :
    ((List.range n).map f).getD j 0 = f j := by
  have hlen : j < ((List.range n).map f).length := by simpa using hj
  rw [List.getD_eq_getElem?_getD, List.getElem?_eq_getElem hlen,
    Option.getD_some]
  simp

lemma getD_cumsum (l : List ℚ) (j : ℕ) (hj : j < l.length) :
    (cumsum l).getD j 0 = (l.take (j + 1)).sum := by
  have h := cumsum_get? l j hj
  have h2 := get?_getD (cumsum l) j 0 (by rw [cumsum_length]; omega)
  rw [h2] at h
  exact (Option.some.injEq _ _).mp h

lemma getElem_eq_getD {α : Type} (l : List α) (j : ℕ) (d : α)
    (h : j < l.length) : l[j] = l.getD j d := by
  rw [List.getD_eq_getElem?_getD, List.getElem?_eq_getElem h]
  rfl

lemma getD_replicate (n j : ℕ) (v : ℚ) (hj : j < n) :
    (List.replicate n v).getD j 0 = v := by
  have hlen : j < (List.replicate n v).length := by simpa using hj
  rw [List.getD_eq_getElem?_getD, List.getElem?_eq_getElem hlen,
    Option.getD_some, List.getElem_replicate]

lemma cellsOut_mem_end (x0 δ : ℚ) : ∀ (segs : List (List ℚ)) (k q : ℕ),
    q < segs.length →
    x0 + ((k + q : ℕ) : ℚ) * δ ∈ cellsOut x0 δ k segs := by
  intro segs
  induction segs with
  | nil => intro k q h; simp at h
  | cons ts rest ih =>
    intro k q hq
    cases q with
    | zero =>
      show _ ∈ (ts ++ [x0 + (k : ℚ) * δ]) ++ cellsOut x0 δ (k + 1) rest
      apply List.mem_append_left
      apply List.mem_append_right
      rw [show (k + 0 : ℕ) = k from by omega]
      simp
    | succ q =>
      show _ ∈ (ts ++ [x0 + (k : ℚ) * δ]) ++ cellsOut x0 δ (k + 1) rest
      apply List.mem_append_right
      rw [show k + (q + 1) = k + 1 + q from by omega]
      exact ih (k + 1) q (by simpa using hq)

lemma segLen_take_take (segs : List (List ℚ)) (a b : ℕ) (hab : a ≤ b) :
    segLen ((segs.take b).take a) = segLen (segs.take a) := by
  rw [List.take_take, min_eq_left hab]

/-- The per-group width-weighted integrals of the structured output grid
against the uniform input grid: there are `n` of them, the `j`-th being the
difference of cumulative full-cell integrals across input interval `j`. -/
lemma groupIntegrals_structured (cpY grads : List ℚ) (x0 s : ℚ) (hs : 0 < s)
    (n : ℕ) (hn : 1 ≤ n)
    (segs : List (List ℚ)) (hslen : segs.length = 2 * n)
    (hvalid : segsValid x0 (s / 2) 1 x0 segs) :
    ∃ R, get_group_integrals (x0 :: cellsOut x0 (s / 2) 1 segs)
        (expectedVals cpY grads x0 (s / 2) 1 x0 segs)
        (uniformBounds x0 s (n + 1)) = .ok R ∧
      R.length = n ∧
      ∀ j, j < n → R.getD j 0 =
        cellIntSum cpY grads x0 (s / 2) 1 (2 * j + 2) -
          cellIntSum cpY grads x0 (s / 2) 1 (2 * j) := by
  have hδ : 0 < s / 2 := by linarith
  have hgbvals : ∀ g ∈ uniformBounds x0 s (n + 1),
      ∃ j : ℕ, g = x0 + ((2 * j : ℕ) : ℚ) * (s / 2) := by
    intro g hg
    obtain ⟨j, hj, rfl⟩ := mem_uniformBounds s (n + 1) x0 g hg
    exact ⟨j, by push_cast; ring⟩
  have hmem2 : ∀ j : ℕ, j ≤ n →
      x0 + ((2 * j : ℕ) : ℚ) * (s / 2) ∈ uniformBounds x0 s (n + 1) := by
    intro j hj
    have hval := uniformBounds_getD s (n + 1) x0 j (by omega)
    have hm := getD_mem (uniformBounds x0 s (n + 1)) j 0
      (by rw [uniformBounds_length]; omega)
    rw [hval] at hm
    rw [show x0 + ((2 * j : ℕ) : ℚ) * (s / 2) = x0 + (j : ℚ) * s from by
      push_cast; ring]
    exact hm
  have hsub : ∀ g ∈ uniformBounds x0 s (n + 1),
      g ∈ x0 :: cellsOut x0 (s / 2) 1 segs := by
    intro g hg
    obtain ⟨j, hj, rfl⟩ := mem_uniformBounds s (n + 1) x0 g hg
    cases j with
    | zero => simp
    | succ j =>
      apply List.mem_cons_of_mem
      have hend := cellsOut_mem_end x0 (s / 2) segs 1 (2 * j + 1) (by omega)
      rw [show (1 + (2 * j + 1) : ℕ) = 2 * (j + 1) from by omega] at hend
      rw [show x0 + ((j + 1 : ℕ) : ℚ) * s =
        x0 + ((2 * (j + 1) : ℕ) : ℚ) * (s / 2) from by push_cast; ring]
      exact hend
  have hvalid0 : segsValid x0 (s / 2) (2 * 0 + 1)
      (x0 + ((2 * 0 : ℕ) : ℚ) * (s / 2)) segs := by
    rw [show (2 * 0 + 1 : ℕ) = 1 from rfl]
    rw [show x0 + ((2 * 0 : ℕ) : ℚ) * (s / 2) = x0 from by push_cast; ring]
    exact hvalid
  have hx0mem : x0 ∈ uniformBounds x0 s (n + 1) := by
    show x0 ∈ x0 :: uniformBounds (x0 + s) s n
    exact List.mem_cons_self _ _
  have hisin : isinIdxs (uniformBounds x0 s (n + 1))
      (x0 :: cellsOut x0 (s / 2) 1 segs) 0 =
      0 :: (List.range n).map (fun j => segLen (segs.take (2 * j + 2))) := by
    have h1 := isin_cells (uniformBounds x0 s (n + 1)) x0 (s / 2) hδ n hgbvals
      hmem2 n 0 1 segs (by omega) (by omega) hvalid0
    rw [show (2 * 0 + 1 : ℕ) = 1 from rfl] at h1
    simp only [isinIdxs, if_pos hx0mem, Nat.zero_add]
    rw [h1]
    congr 1
    refine List.map_congr_left ?_
    intro j hj
    have hge : 1 ≤ segLen (segs.take (2 * j + 2)) := by
      have := segLen_take_ge segs (2 * j + 2)
        (by rw [hslen]; have := List.mem_range.mp hj; omega)
      omega
    omega
  -- abbreviations
  have hseglen2n : 2 * n ≤ segLen segs := by
    have h1 := segLen_take_ge segs segs.length le_rfl
    rw [List.take_length] at h1
    omega
  have hvallen : (expectedVals cpY grads x0 (s / 2) 1 x0 segs).length =
      segLen segs := expectedVals_length cpY grads x0 (s / 2) segs 1 x0
  have hwl : (List.zipWith (fun w y => w * y)
      (npDiff (x0 :: cellsOut x0 (s / 2) 1 segs))
      (expectedVals cpY grads x0 (s / 2) 1 x0 segs)).length = segLen segs := by
    rw [List.length_zipWith, npDiff_length, hvallen]
    simp only [List.length_cons, cellsOut_length]
    omega
  have hW : List.zipWith (fun w y => w * y)
      (npDiff (x0 :: cellsOut x0 (s / 2) 1 segs))
      (expectedVals cpY grads x0 (s / 2) 1 x0 segs) =
      weightedVals cpY grads x0 (s / 2) 1 x0 segs :=
    weighted_expected cpY grads x0 (s / 2) segs 1 x0 hvalid
  have hvalid1 : segsValid x0 (s / 2) 1
      (x0 + (((1 : ℕ) : ℚ) - 1) * (s / 2)) segs := by
    rw [show x0 + (((1 : ℕ) : ℚ) - 1) * (s / 2) = x0 from by push_cast; ring]
    exact hvalid
  have htake : ∀ q, q ≤ segs.length →
      ((weightedVals cpY grads x0 (s / 2) 1 x0 segs).take
        (segLen (segs.take q))).sum = cellIntSum cpY grads x0 (s / 2) 1 q := by
    intro q hq
    have h := weightedVals_take_sum cpY grads x0 (s / 2) segs q 1 hq hvalid1
    rw [show x0 + (((1 : ℕ) : ℚ) - 1) * (s / 2) = x0 from by
      push_cast; ring] at h
    exact h
  -- the boundary call succeeds
  have hempty : ((uniformBounds x0 s (n + 1)).filter
      (fun g => decide (g ∉ x0 :: cellsOut x0 (s / 2) 1 segs))).isEmpty = true := by
    rw [List.isEmpty_iff, List.filter_eq_nil_iff]
    intro g hg
    have h2 := hsub g hg
    simp only [List.mem_cons] at h2
    simpa using fun h => h2.resolve_left h
  have hboundary : get_group_boundary_indexes (x0 :: cellsOut x0 (s / 2) 1 segs)
      (uniformBounds x0 s (n + 1)) =
      .ok (isinIdxs (uniformBounds x0 s (n + 1))
        (x0 :: cellsOut x0 (s / 2) 1 segs) 0) := by
    simp only [get_group_boundary_indexes]
    rw [if_pos hempty]
  have hidxlen : (isinIdxs (uniformBounds x0 s (n + 1))
      (x0 :: cellsOut x0 (s / 2) 1 segs) 0).length = n + 1 := by
    rw [hisin]
    simp
  have hchainIdx := @chain_isinIdxs (uniformBounds x0 s (n + 1))
    (x0 :: cellsOut x0 (s / 2) 1 segs) 0
  have hkbound : ∀ k ∈ isinIdxs (uniformBounds x0 s (n + 1))
      (x0 :: cellsOut x0 (s / 2) 1 segs) 0,
      k ≤ (List.zipWith (fun w y => w * y)
        (npDiff (x0 :: cellsOut x0 (s / 2) 1 segs))
        (expectedVals cpY grads x0 (s / 2) 1 x0 segs)).length := by
    intro k hk
    rw [hwl]
    rw [hisin] at hk
    rcases List.mem_cons.mp hk with rfl | hk2
    · omega
    · obtain ⟨j, _, rfl⟩ := List.mem_map.mp hk2
      exact segLen_take_mono segs (2 * j + 2)
  obtain ⟨r, hrpick, hA, _⟩ := cumulativePick_of_chain
    (List.zipWith (fun w y => w * y)
      (npDiff (x0 :: cellsOut x0 (s / 2) 1 segs))
      (expectedVals cpY grads x0 (s / 2) 1 x0 segs))
    (isinIdxs (uniformBounds x0 s (n + 1))
      (x0 :: cellsOut x0 (s / 2) 1 segs) 0)
    hchainIdx hkbound (by omega)
  have hcond : ¬ ((npDiff (x0 :: cellsOut x0 (s / 2) 1 segs)).length ≠
      (expectedVals cpY grads x0 (s / 2) 1 x0 segs).length) := by
    rw [npDiff_length, hvallen]
    simp only [List.length_cons, cellsOut_length]
    omega
  have hints : get_group_integrals (x0 :: cellsOut x0 (s / 2) 1 segs)
      (expectedVals cpY grads x0 (s / 2) 1 x0 segs)
      (uniformBounds x0 s (n + 1)) =
      cumulativePick (cumsum (List.zipWith (fun w y => w * y)
        (npDiff (x0 :: cellsOut x0 (s / 2) 1 segs))
        (expectedVals cpY grads x0 (s / 2) 1 x0 segs)))
      (isinIdxs (uniformBounds x0 s (n + 1))
        (x0 :: cellsOut x0 (s / 2) 1 segs) 0) := by
    have h1 : get_group_integrals (x0 :: cellsOut x0 (s / 2) 1 segs)
        (expectedVals cpY grads x0 (s / 2) 1 x0 segs)
        (uniformBounds x0 s (n + 1)) =
        (if (npDiff (x0 :: cellsOut x0 (s / 2) 1 segs)).length ≠
            (expectedVals cpY grads x0 (s / 2) 1 x0 segs).length then
          Except.error Err.broadcastMismatch
        else
          cumulativePick (cumsum (List.zipWith (fun w y => w * y)
            (npDiff (x0 :: cellsOut x0 (s / 2) 1 segs))
            (expectedVals cpY grads x0 (s / 2) 1 x0 segs)))
          (isinIdxs (uniformBounds x0 s (n + 1))
            (x0 :: cellsOut x0 (s / 2) 1 segs) 0)) := by
      simp only [get_group_integrals, hboundary]
      rfl
    rw [h1, if_neg hcond]
  have hk0 : (isinIdxs (uniformBounds x0 s (n + 1))
      (x0 :: cellsOut x0 (s / 2) 1 segs) 0).getD 0 0 = 0 := by
    rw [hisin]
    rfl
  obtain ⟨hrlen, hrvals⟩ := hA hk0
  have hidx : ∀ j, j ≤ n → (isinIdxs (uniformBounds x0 s (n + 1))
      (x0 :: cellsOut x0 (s / 2) 1 segs) 0).getD j 0 =
      segLen (segs.take (2 * j)) := by
    intro j hj
    rw [hisin]
    cases j with
    | zero => rfl
    | succ i =>
      rw [List.getD_cons_succ]
      rw [getD_map_range_nat _ n i (by omega)]
      rw [show 2 * i + 2 = 2 * (i + 1) from by omega]
  refine ⟨r, by rw [hints, hrpick], by omega, ?_⟩
  intro j hj
  have hval := hrvals j (by omega)
  rw [hidx j (by omega), hidx (j + 1) (by omega)] at hval
  rw [show 2 * (j + 1) = 2 * j + 2 from by omega] at hval
  have hmono : segLen (segs.take (2 * j)) ≤ segLen (segs.take (2 * j + 2)) := by
    have h1 := segLen_take_take segs (2 * j) (2 * j + 2) (by omega)
    have h2 := segLen_take_mono (segs.take (2 * j + 2)) (2 * j)
    omega
  have hsplit := take_sum_split (List.zipWith (fun w y => w * y)
      (npDiff (x0 :: cellsOut x0 (s / 2) 1 segs))
      (expectedVals cpY grads x0 (s / 2) 1 x0 segs))
    (segLen (segs.take (2 * j))) (segLen (segs.take (2 * j + 2))) hmono
  have ht1 : ((List.zipWith (fun w y => w * y)
      (npDiff (x0 :: cellsOut x0 (s / 2) 1 segs))
      (expectedVals cpY grads x0 (s / 2) 1 x0 segs)).take
        (segLen (segs.take (2 * j)))).sum =
      cellIntSum cpY grads x0 (s / 2) 1 (2 * j) := by
    rw [hW]
    exact htake (2 * j) (by omega)
  have ht2 : ((List.zipWith (fun w y => w * y)
      (npDiff (x0 :: cellsOut x0 (s / 2) 1 segs))
      (expectedVals cpY grads x0 (s / 2) 1 x0 segs)).take
        (segLen (segs.take (2 * j + 2)))).sum =
      cellIntSum cpY grads x0 (s / 2) 1 (2 * j + 2) := by
    rw [hW]
    exact htake (2 * j + 2) (by omega)
  rw [hval]
  rw [ht1, ht2] at hsplit
  linarith

/-- Re-aggregating the structured output to the input intervals gives back
exactly `y_in`, provided each input interval's pair of full-cell integrals
sums to `x_step * y_j` (the tridiagonal row identity, proved separately). -/
lemma groupAverages_structured (cpY grads : List ℚ) (x0 s : ℚ) (hs : 0 < s)
    (n : ℕ) (hn : 1 ≤ n) (y_in : List ℚ) (hy : y_in.length = n)
    (segs : List (List ℚ)) (hslen : segs.length = 2 * n)
    (hvalid : segsValid x0 (s / 2) 1 x0 segs)
    (hrow : ∀ j, j < n →
      patchAnti (patchAtIdx cpY grads x0 (s / 2) (2 * j + 1))
          (x0 + ((2 * j + 1 : ℕ) : ℚ) * (s / 2)) +
        patchAnti (patchAtIdx cpY grads x0 (s / 2) (2 * j + 2))
          (x0 + ((2 * j + 2 : ℕ) : ℚ) * (s / 2)) = s * y_in.getD j 0) :
    get_group_averages (x0 :: cellsOut x0 (s / 2) 1 segs)
      (expectedVals cpY grads x0 (s / 2) 1 x0 segs)
      (uniformBounds x0 s (n + 1)) = .ok y_in := by
  obtain ⟨R, hR, hRlen, hRval⟩ := groupIntegrals_structured cpY grads x0 s hs
    n hn segs hslen hvalid
  have hRval2 : ∀ j, j < n → R.getD j 0 = s * y_in.getD j 0 := by
    intro j hj
    rw [hRval j hj]
    have hs2 := cellIntSum_split2 cpY grads x0 (s / 2) 1 (2 * j)
    rw [show 1 + 2 * j = 2 * j + 1 from by omega] at hs2
    rw [show 2 * j + 1 + 1 = 2 * j + 2 from by omega] at hs2
    rw [hs2]
    have hrj := hrow j hj
    linarith
  have hnpd : npDiff (uniformBounds x0 s (n + 1)) = List.replicate n s :=
    npDiff_uniformBounds s n x0
  have h1 : get_group_averages (x0 :: cellsOut x0 (s / 2) 1 segs)
      (expectedVals cpY grads x0 (s / 2) 1 x0 segs)
      (uniformBounds x0 s (n + 1)) =
      (if R.length ≠ (npDiff (uniformBounds x0 s (n + 1))).length then
        Except.error Err.broadcastMismatch
      else .ok (List.zipWith (fun a w => a / w) R
        (npDiff (uniformBounds x0 s (n + 1))))) := by
    simp only [get_group_averages, hR]
    rfl
  rw [h1, if_neg (by rw [hnpd, hRlen, List.length_replicate]; simp)]
  rw [hnpd]
  congr 1
  apply List.ext_getElem
  · rw [List.length_zipWith, hRlen, List.length_replicate, hy]
    simp
  · intro j h1j h2j
    have hjn : j < n := by
      rw [List.length_zipWith, hRlen, List.length_replicate] at h1j
      omega
    rw [getElem_eq_getD _ j 0 h1j, getElem_eq_getD _ j 0 h2j]
    rw [getD_zipWith _ _ _ j (by omega) (by rw [List.length_replicate]; omega)]
    rw [getD_replicate n j s hjn, hRval2 j hjn]
    rw [mul_comm, mul_div_assoc, div_self (ne_of_gt hs), mul_one]

/-! ### Entry-wise values of the right-hand side, control points, gradients -/

lemma getD_append_left {α : Type} (l1 l2 : List α) (j : ℕ) (d : α)
    (h : j < l1.length) : (l1 ++ l2).getD j d = l1.getD j d := by
  rw [List.getD_eq_getElem?_getD, List.getElem?_append_left h,
    ← List.getD_eq_getElem?_getD]

lemma getD_append_right2 {α : Type} (l1 l2 : List α) (j : ℕ) (d : α)
    (h : l1.length ≤ j) : (l1 ++ l2).getD j d = l2.getD (j - l1.length) d := by
  rw [List.getD_eq_getElem?_getD, List.getElem?_append_right h,
    ← List.getD_eq_getElem?_getD]

lemma getD_tail {α : Type} (l : List α) (j : ℕ) (d : α) :
    l.tail.getD j d = l.getD (j + 1) d := by
  cases l with
  | nil => rfl
  | cons a t => rfl

lemma getD_drop2 (l : List ℚ) (j : ℕ) :
    (l.drop 2).getD j 0 = l.getD (j + 2) 0 := by
  cases l with
  | nil => rfl
  | cons a t =>
    cases t with
    | nil => rfl
    | cons b u => rfl

lemma getD_zipWith3 (f : ℚ → ℚ → ℚ → ℚ) : ∀ (l1 l2 l3 : List ℚ) (j : ℕ),
    j < l1.length → j < l2.length → j < l3.length →
    (List.zipWith3 f l1 l2 l3).getD j 0 =
      f (l1.getD j 0) (l2.getD j 0) (l3.getD j 0) := by
  intro l1
  induction l1 with
  | nil => intro l2 l3 j h1 _ _; simp at h1
  | cons a t ih =>
    intro l2 l3 j h1 h2 h3
    cases l2 with
    | nil => simp at h2
    | cons b u =>
      cases l3 with
      | nil => simp at h3
      | cons c v =>
        cases j with
        | zero => rfl
        | succ j =>
          show (List.zipWith3 f t u v).getD j 0 = _
          exact ih u v j (by simpa using h1) (by simpa using h2)
            (by simpa using h3)

lemma setLastSub_getD_lt (v : ℚ) : ∀ (l : List ℚ) (j : ℕ), j + 1 < l.length →
    (setLastSub l v).getD j 0 = l.getD j 0 := by
  intro l
  induction l with
  | nil => intro j h; simp at h
  | cons x t ih =>
    intro j h
    cases t with
    | nil => simp at h
    | cons y u =>
      cases j with
      | zero => rfl
      | succ j =>
        show (setLastSub (y :: u) v).getD j 0 = (y :: u).getD j 0
        exact ih j (by simpa using h)

lemma setLastSub_getD_last (v : ℚ) : ∀ (l : List ℚ) (j : ℕ),
    j + 1 = l.length →
    (setLastSub l v).getD j 0 = l.getD j 0 - v := by
  intro l
  induction l with
  | nil => intro j h; simp at h
  | cons x t ih =>
    intro j h
    cases t with
    | nil =>
      have h0 : j = 0 := by simpa using h
      subst h0
      rfl
    | cons y u =>
      cases j with
      | zero => simp at h
      | succ j =>
        show (setLastSub (y :: u) v).getD j 0 = (y :: u).getD j 0 - v
        exact ih j (by simpa using h)

/-- Entry `j` of the tridiagonal right-hand side, for `2 ≤ n`. -/
lemma mkB_getD (x_step e0 eN : ℚ) (y_in walls : List ℚ)
    (hw : walls.length = y_in.length + 1) (hn2 : 2 ≤ y_in.length)
    (j : ℕ) (hj : j < y_in.length) :
    (mkB x_step y_in walls e0 eN).getD j 0 =
      (x_step * y_in.getD j 0) / (x_step / 2) - beta1Const * walls.getD j 0 -
        beta2Const * walls.getD (j + 1) 0 -
        (if j = 0 then a1Const * e0 else 0) -
        (if j = y_in.length - 1 then a3Const * eN else 0) := by
  have hcorelen : (List.zipWith3 (fun y wi wi1 =>
      (x_step * y) / (x_step / 2) - beta1Const * wi - beta2Const * wi1)
      y_in walls walls.tail).length = y_in.length := by
    rw [zipWith3_length, hw, List.length_tail, hw]
    omega
  have hcore : ∀ i, i < y_in.length → (List.zipWith3 (fun y wi wi1 =>
      (x_step * y) / (x_step / 2) - beta1Const * wi - beta2Const * wi1)
      y_in walls walls.tail).getD i 0 =
      (x_step * y_in.getD i 0) / (x_step / 2) - beta1Const * walls.getD i 0 -
        beta2Const * walls.getD (i + 1) 0 := by
    intro i hi
    rw [getD_zipWith3 _ _ _ _ i hi (by omega)
      (by rw [List.length_tail]; omega), getD_tail]
  simp only [mkB]
  cases hc : List.zipWith3 (fun y wi wi1 =>
      (x_step * y) / (x_step / 2) - beta1Const * wi - beta2Const * wi1)
      y_in walls walls.tail with
  | nil =>
    rw [hc] at hcorelen
    simp only [List.length_nil] at hcorelen
    omega
  | cons c0 rest =>
    cases rest with
    | nil =>
      rw [hc] at hcorelen
      simp only [List.length_cons, List.length_nil] at hcorelen
      omega
    | cons c1 rest2 =>
      have hlen2 : (c1 :: rest2).length = y_in.length - 1 := by
        rw [hc] at hcorelen
        simp only [List.length_cons] at hcorelen ⊢
        omega
      have hcget : ∀ i, i < y_in.length → (c0 :: c1 :: rest2).getD i 0 =
          (x_step * y_in.getD i 0) / (x_step / 2) -
            beta1Const * walls.getD i 0 -
            beta2Const * walls.getD (i + 1) 0 := by
        intro i hi
        rw [← hc]
        exact hcore i hi
      cases j with
      | zero =>
        rw [if_pos rfl, if_neg (by omega)]
        show c0 - a1Const * e0 = _
        have h0 := hcget 0 (by omega)
        rw [List.getD_cons_zero] at h0
        rw [h0]
        ring
      | succ j =>
        rw [if_neg (by omega)]
        show (setLastSub (c1 :: rest2) (a3Const * eN)).getD j 0 = _
        by_cases hlast : j + 1 = y_in.length - 1
        · rw [if_pos (by omega)]
          rw [setLastSub_getD_last _ _ j (by simp only [List.length_cons] at hlen2 ⊢; omega)]
          have hj1 := hcget (j + 1) (by omega)
          rw [List.getD_cons_succ] at hj1
          rw [hj1]
          ring
        · rw [if_neg (by omega)]
          rw [setLastSub_getD_lt _ _ j (by simp only [List.length_cons] at hlen2 ⊢; omega)]
          have hj1 := hcget (j + 1) (by omega)
          rw [List.getD_cons_succ] at hj1
          rw [hj1]
          ring

/-- The full-cell integral of patch `k` in terms of the control-point and
gradient entries. -/
lemma patchAnti_atIdx_full (cpY grads : List ℚ) (x0 δ : ℚ) (hδ : δ ≠ 0)
    (k : ℕ) :
    patchAnti (patchAtIdx cpY grads x0 δ k) (x0 + (k : ℚ) * δ) =
      δ * (cpY.getD k 0 / 2 + δ * grads.getD (k - 1) 0 / 12 +
        cpY.getD (k + 1) 0 / 2 - δ * grads.getD k 0 / 12) := by
  have h1 := patchAnti_full (patchAtIdx cpY grads x0 δ k) hδ
  have h2 := patchAnti_left (patchAtIdx cpY grads x0 δ k)
  rw [h2, sub_zero] at h1
  rw [show x0 + (k : ℚ) * δ = (patchAtIdx cpY grads x0 δ k).x_i +
    (patchAtIdx cpY grads x0 δ k).delta from by
      show x0 + (k : ℚ) * δ = x0 + ((k : ℚ) - 1) * δ + δ
      ring]
  rw [h1]
  rfl

/-- Entry `g` of the gradient array. -/
lemma grads_getD (cpY : List ℚ) (d : ℚ) (g : ℕ) (hg : g + 2 < cpY.length) :
    (List.zipWith (fun a b => (b - a) / d) cpY (cpY.drop 2)).getD g 0 =
      (cpY.getD (g + 2) 0 - cpY.getD g 0) / d := by
  rw [getD_zipWith _ _ _ g (by omega) (by rw [List.length_drop]; omega)]
  rw [getD_drop2]

lemma cpY_getD_mid (e0 eN : ℚ) (l : List ℚ) (t : ℕ) (ht : t < l.length) :
    ((e0 :: l) ++ [eN]).getD (t + 1) 0 = l.getD t 0 := by
  rw [getD_append_left _ _ _ _ (by simp only [List.length_cons]; omega)]
  rfl

lemma cpY_getD_last (e0 eN : ℚ) (l : List ℚ) :
    ((e0 :: l) ++ [eN]).getD (l.length + 1) 0 = eN := by
  rw [getD_append_right2 _ _ _ _ (by simp only [List.length_cons]; omega)]
  simp only [List.length_cons]
  rw [show l.length + 1 - (l.length + 1) = 0 from by omega]
  rfl

/-- The tridiagonal row identity: the two full-cell integrals over input
interval `j` sum to exactly `x_step * y_j`, because the solved control
points satisfy row `j` of the system. Requires `2 ≤ n` (for `n = 1` the
assembly of the right-hand side loses the `a1*e0` term). -/
lemma rowIdentity (interp : LaiKaplanInterpolator) (x0 s : ℚ) (hs : 0 < s)
    (n : ℕ) (hn : 2 ≤ n) (y_in : List ℚ) (hy : y_in.length = n)
    (hwlen : (lkWalls interp x0 s n y_in).length = n + 1) :
    ∀ j, j < n →
      patchAnti (patchAtIdx (lkCpY interp x0 s n y_in)
          (lkGrads interp x0 s n y_in) x0 (s / 2) (2 * j + 1))
        (x0 + ((2 * j + 1 : ℕ) : ℚ) * (s / 2)) +
      patchAnti (patchAtIdx (lkCpY interp x0 s n y_in)
          (lkGrads interp x0 s n y_in) x0 (s / 2) (2 * j + 2))
        (x0 + ((2 * j + 2 : ℕ) : ℚ) * (s / 2)) = s * y_in.getD j 0 := by
  obtain ⟨hsolve, htri, hclen0⟩ := lkC_spec interp x0 s n y_in
  have hsne : s ≠ 0 := ne_of_gt hs
  have hδne : (s / 2) ≠ 0 := by
    intro h
    apply hsne
    linarith
  have hblen : (mkB s y_in (lkWalls interp x0 s n y_in)
      (lkEE interp x0 s n y_in).1 (lkEE interp x0 s n y_in).2).length = n := by
    rw [mkB_length _ _ _ _ _ (by omega), hy]
  have hclen : (lkC interp x0 s n y_in).length = n := by
    rw [hclen0, hblen]
  have hwv : (weaveWallsIntervals (lkWalls interp x0 s n y_in)
      (lkC interp x0 s n y_in)).length = 2 * n + 1 := by
    rw [weaveWI_length _ _ (by omega), hclen]
  have hcpylen : (lkCpY interp x0 s n y_in).length = 2 * n + 3 := by
    show ((((lkEE interp x0 s n y_in).1 ::
      weaveWallsIntervals (lkWalls interp x0 s n y_in)
        (lkC interp x0 s n y_in)) ++
      [(lkEE interp x0 s n y_in).2])).length = _
    simp only [List.length_append, List.length_cons, List.length_nil, hwv]
  have hcpy_odd : ∀ i, i ≤ n → (lkCpY interp x0 s n y_in).getD (2 * i + 1) 0 =
      (lkWalls interp x0 s n y_in).getD i 0 := by
    intro i hi
    show ((((lkEE interp x0 s n y_in).1 ::
      weaveWallsIntervals (lkWalls interp x0 s n y_in)
        (lkC interp x0 s n y_in)) ++
      [(lkEE interp x0 s n y_in).2])).getD (2 * i + 1) 0 = _
    rw [cpY_getD_mid _ _ _ (2 * i) (by rw [hwv]; omega)]
    rw [weaveWI_getD_even (lkC interp x0 s n y_in) _ (by omega) i]
  have hcpy_mid : ∀ i, i < n → (lkCpY interp x0 s n y_in).getD (2 * i + 2) 0 =
      (lkC interp x0 s n y_in).getD i 0 := by
    intro i hi
    show ((((lkEE interp x0 s n y_in).1 ::
      weaveWallsIntervals (lkWalls interp x0 s n y_in)
        (lkC interp x0 s n y_in)) ++
      [(lkEE interp x0 s n y_in).2])).getD (2 * i + 1 + 1) 0 = _
    rw [cpY_getD_mid _ _ _ (2 * i + 1) (by rw [hwv]; omega)]
    rw [weaveWI_getD_odd (lkC interp x0 s n y_in) _ (by omega) i]
  have hcpy_zero : (lkCpY interp x0 s n y_in).getD 0 0 =
      (lkEE interp x0 s n y_in).1 := rfl
  have hcpy_last : (lkCpY interp x0 s n y_in).getD (2 * n + 2) 0 =
      (lkEE interp x0 s n y_in).2 := by
    have h := cpY_getD_last (lkEE interp x0 s n y_in).1
      (lkEE interp x0 s n y_in).2
      (weaveWallsIntervals (lkWalls interp x0 s n y_in)
        (lkC interp x0 s n y_in))
    rw [hwv] at h
    rw [show (2 * n + 2 : ℕ) = 2 * n + 1 + 1 from by omega]
    exact h
  have hgr : ∀ g, g + 2 < 2 * n + 3 →
      (lkGrads interp x0 s n y_in).getD g 0 =
      ((lkCpY interp x0 s n y_in).getD (g + 2) 0 -
        (lkCpY interp x0 s n y_in).getD g 0) / (2 * (s / 2)) := by
    intro g hg
    show (List.zipWith (fun a b => (b - a) / (2 * (s / 2)))
      (lkCpY interp x0 s n y_in)
      ((lkCpY interp x0 s n y_in).drop 2)).getD g 0 = _
    exact grads_getD _ _ g (by rw [hcpylen]; omega)
  have hcancel : ∀ a b : ℚ,
      s / 2 * ((a - b) / (2 * (s / 2))) / 12 = (a - b) / 24 := by
    intro a b
    field_simp
    ring
  have hdiv : ∀ j : ℕ, (s * y_in.getD j 0) / (s / 2) = 2 * y_in.getD j 0 := by
    intro j
    field_simp
    ring
  have ha1 : a1Const = -(1 / 24) := by decide
  have ha2 : a2Const = 13 / 12 := by decide
  have ha3 : a3Const = -(1 / 24) := by decide
  have hb1 : beta1Const = 1 / 2 := by decide
  have hb2 : beta2Const = 1 / 2 := by decide
  intro j hj
  have hrowj := triRows_getD a1Const a2Const a3Const
    (lkC interp x0 s n y_in)
    (mkB s y_in (lkWalls interp x0 s n y_in)
      (lkEE interp x0 s n y_in).1 (lkEE interp x0 s n y_in).2) 0 htri j
    (by rw [hblen]; omega)
  rw [mkB_getD s (lkEE interp x0 s n y_in).1 (lkEE interp x0 s n y_in).2
    y_in (lkWalls interp x0 s n y_in) (by omega) (by omega) j
    (by omega)] at hrowj
  rw [ha1, ha2, ha3, hb1, hb2] at hrowj
  rw [hdiv j] at hrowj
  rw [patchAnti_atIdx_full _ _ _ _ hδne (2 * j + 1),
    patchAnti_atIdx_full _ _ _ _ hδne (2 * j + 2)]
  rw [show (2 * j + 1 - 1 : ℕ) = 2 * j from by omega]
  rw [show (2 * j + 1 + 1 : ℕ) = 2 * j + 2 from by omega]
  rw [show (2 * j + 2 - 1 : ℕ) = 2 * j + 1 from by omega]
  rw [show (2 * j + 2 + 1 : ℕ) = 2 * j + 3 from by omega]
  rw [hgr (2 * j) (by omega), hgr (2 * j + 1) (by omega),
    hgr (2 * j + 2) (by omega)]
  rw [show (2 * j + 1 + 2 : ℕ) = 2 * j + 3 from by omega]
  rw [show (2 * j + 2 + 2 : ℕ) = 2 * j + 4 from by omega]
  rw [hcpy_odd j (by omega)]
  rw [show (2 * j + 3 : ℕ) = 2 * (j + 1) + 1 from by omega]
  rw [hcpy_odd (j + 1) (by omega)]
  rw [hcpy_mid j hj]
  rw [hcancel, hcancel, hcancel]
  by_cases hj0 : j = 0
  · subst hj0
    rw [if_pos rfl] at hrowj
    rw [if_pos rfl] at hrowj
    rw [if_neg (show ¬ (0 = y_in.length - 1) from by omega)] at hrowj
    rw [show (2 * 0 + 4 : ℕ) = 2 * 1 + 2 from by omega]
    rw [hcpy_mid 1 (by omega)]
    rw [show (2 * 0 : ℕ) = 0 from rfl]
    rw [hcpy_zero]
    linear_combination (s / 2) * hrowj
  · by_cases hjl : j = n - 1
    · rw [if_neg hj0] at hrowj
      rw [if_neg hj0] at hrowj
      rw [if_pos (show j = y_in.length - 1 from by omega)] at hrowj
      have hcn : (lkC interp x0 s n y_in).getD (j + 1) 0 = 0 :=
        List.getD_eq_default _ _ (by rw [hclen]; omega)
      rw [hcn] at hrowj
      rw [show (2 * j + 4 : ℕ) = 2 * n + 2 from by omega]
      rw [hcpy_last]
      rw [show (2 * j : ℕ) = 2 * (j - 1) + 2 from by omega]
      rw [hcpy_mid (j - 1) (by omega)]
      rw [show (j - 1 : ℕ) = j - 1 from rfl] at hrowj
      linear_combination (s / 2) * hrowj
    · rw [if_neg hj0] at hrowj
      rw [if_neg hj0] at hrowj
      rw [if_neg (show ¬ (j = y_in.length - 1) from by omega)] at hrowj
      rw [show (2 * j + 4 : ℕ) = 2 * (j + 1) + 2 from by omega]
      rw [hcpy_mid (j + 1) (by omega)]
      rw [show (2 * j : ℕ) = 2 * (j - 1) + 2 from by omega]
      rw [hcpy_mid (j - 1) (by omega)]
      linear_combination (s / 2) * hrowj

lemma linear_walls_length (ix iy xb : List ℚ) :
    (get_wall_control_points_y_linear ix iy xb).length = xb.length := by
  simp [get_wall_control_points_y_linear]

/-- C1 (amended): mean preservation holds — exactly, not merely within
tolerance — for refinements of the half-interval grid: for every uniformly
spaced, strictly increasing `x_bounds_in`, every `y_in` of at least two
values, and every strictly increasing `x_bounds_out` that refines the
half-interval grid (it contains every half-interval boundary, and starts at
the domain's left edge), `__call__` succeeds and re-aggregating the result
via `get_group_averages` reproduces `y_in` exactly (minimum-value
adjustment disabled, wall policy returning one wall per input boundary). -/
theorem c1_mean_preservation_amended
    (interp : LaiKaplanInterpolator) (x0 s : ℚ) (hs : 0 < s)
    (n : ℕ) (hn : 2 ≤ n) (y_in : List ℚ) (hy : y_in.length = n)
    (segs : List (List ℚ)) (hslen : segs.length = 2 * n)
    (hvalid : segsValid x0 (s / 2) 1 x0 segs)
    (hrtol : 0 ≤ interp.rtol_uniform_steps)
    (hmin : interp.min_val = none)
    (hw : ∀ ix iy xb,
      (interp.get_wall_control_points_y_from_interval_ys ix iy xb).length =
        xb.length) :
    ∃ y_out,
      laiKaplanCall interp (uniformBounds x0 s (n + 1)) y_in
        (x0 :: cellsOut x0 (s / 2) 1 segs) = .ok y_out ∧
      get_group_averages (x0 :: cellsOut x0 (s / 2) 1 segs) y_out
        (uniformBounds x0 s (n + 1)) = .ok y_in := by
  refine ⟨expectedVals (lkCpY interp x0 s n y_in) (lkGrads interp x0 s n y_in)
    x0 (s / 2) 1 x0 segs, ?_, ?_⟩
  · show (laiKaplanCallS interp (uniformBounds x0 s (n + 1)) y_in
      (x0 :: cellsOut x0 (s / 2) 1 segs)).2 = _
    rw [callS_structured interp x0 s hs n (by omega) y_in hy segs hslen hvalid
      hrtol hmin hw]
  · exact groupAverages_structured (lkCpY interp x0 s n y_in)
      (lkGrads interp x0 s n y_in) x0 s hs n (by omega) y_in hy segs hslen
      hvalid
      (rowIdentity interp x0 s hs n hn y_in hy
        (by simp only [lkWalls]; rw [hw, uniformBounds_length]))

/-- C1 amended, witness: `x_bounds_in = [0, 1, 2]`, `y_in = [1, 2]`, output
grid the half-interval grid `[0, 1/2, 1, 3/2, 2]`. -/
theorem c1_mean_preservation_amended_witness :
    ((0 : ℚ) < 1 ∧ 2 ≤ 2 ∧ [(1 : ℚ), 2].length = 2 ∧
      ([[], [], [], []] : List (List ℚ)).length = 2 * 2 ∧
      segsValid 0 (1 / 2 : ℚ) 1 0 [[], [], [], []] ∧
      0 ≤ linearConstInterp.rtol_uniform_steps ∧
      linearConstInterp.min_val = none) ∧
    ∃ y_out,
      laiKaplanCall linearConstInterp (uniformBounds 0 1 (2 + 1)) [(1 : ℚ), 2]
        ((0 : ℚ) :: cellsOut 0 (1 / 2) 1 [[], [], [], []]) = .ok y_out ∧
      get_group_averages ((0 : ℚ) :: cellsOut 0 (1 / 2) 1 [[], [], [], []])
        y_out (uniformBounds 0 1 (2 + 1)) = .ok [(1 : ℚ), 2] := by
  have hsv : segsValid 0 (1 / 2 : ℚ) 1 0 [[], [], [], []] := by
    refine ⟨?_, ?_, ?_, ?_, trivial⟩ <;> norm_num [List.chain'_cons]
  refine ⟨⟨by norm_num, le_rfl, by decide, by decide, hsv, by decide,
    by decide⟩, ?_⟩
  exact c1_mean_preservation_amended linearConstInterp 0 1 (by norm_num) 2
    le_rfl [1, 2] (by decide) [[], [], [], []] (by decide) hsv (by decide)
    (by decide)
    (fun ix iy xb => by
      show (get_wall_control_points_y_linear ix iy xb).length = xb.length
      exact linear_walls_length ix iy xb)

/-- C4 (amended): (a) an `x_bounds_out` that is not non-decreasing raises
before doing any work — the recorded stages are only the sorted check.
(b) Conversely, a strictly increasing output grid aligned with the
half-interval grid (repeated values are rejected by the definite integral,
not accepted) is accepted and yields exactly `len(x_bounds_out) - 1`
values. -/
theorem c4_output_bounds_amended
    (interp : LaiKaplanInterpolator)
    (xin y_in xout : List ℚ) (x0 s : ℚ) (hs : 0 < s) (n : ℕ) (hn : 1 ≤ n)
    (hy : y_in.length = n) (segs : List (List ℚ)) (hslen : segs.length = 2 * n)
    (hvalid : segsValid x0 (s / 2) 1 x0 segs)
    (hrtol : 0 ≤ interp.rtol_uniform_steps) (hmin : interp.min_val = none)
    (hw : ∀ ix iy xb,
      (interp.get_wall_control_points_y_from_interval_ys ix iy xb).length =
        xb.length) :
    (nondecr xout = false →
      laiKaplanCallS interp xin y_in xout =
        ([.sortedCheck], .error .outBoundsUnsorted)) ∧
    ∃ y_out,
      laiKaplanCall interp (uniformBounds x0 s (n + 1)) y_in
        (x0 :: cellsOut x0 (s / 2) 1 segs) = .ok y_out ∧
      y_out.length = (x0 :: cellsOut x0 (s / 2) 1 segs).length - 1 := by
  constructor
  · intro hns
    exact callS_unsorted interp xin y_in xout hns
  · refine ⟨expectedVals (lkCpY interp x0 s n y_in)
      (lkGrads interp x0 s n y_in) x0 (s / 2) 1 x0 segs, ?_, ?_⟩
    · show (laiKaplanCallS interp (uniformBounds x0 s (n + 1)) y_in
        (x0 :: cellsOut x0 (s / 2) 1 segs)).2 = _
      rw [callS_structured interp x0 s hs n hn y_in hy segs hslen hvalid
        hrtol hmin hw]
    · rw [expectedVals_length]
      simp only [List.length_cons, cellsOut_length]
      omega

/-- C4 amended, witness: the unsorted grid `[1, 0]` raises with only the
sorted check entered; the aligned grid `[0, 1/2, 1, 3/2, 2]` on
`y_in = [1, 2]` yields `4 = 5 - 1` values. -/
theorem c4_output_bounds_amended_witness :
    (nondecr [(1 : ℚ), 0] = false ∧ (0 : ℚ) < 1 ∧ 1 ≤ 2 ∧
      [(1 : ℚ), 2].length = 2 ∧
      ([[], [], [], []] : List (List ℚ)).length = 2 * 2 ∧
      segsValid 0 (1 / 2 : ℚ) 1 0 [[], [], [], []] ∧
      0 ≤ linearConstInterp.rtol_uniform_steps ∧
      linearConstInterp.min_val = none) ∧
    (laiKaplanCallS linearConstInterp [(0 : ℚ), 1, 2] [(1 : ℚ), 2]
        [(1 : ℚ), 0] = ([.sortedCheck], .error .outBoundsUnsorted)) ∧
    ∃ y_out,
      laiKaplanCall linearConstInterp (uniformBounds 0 1 (2 + 1)) [(1 : ℚ), 2]
        ((0 : ℚ) :: cellsOut 0 (1 / 2) 1 [[], [], [], []]) = .ok y_out ∧
      y_out.length =
        ((0 : ℚ) :: cellsOut 0 (1 / 2) 1 [[], [], [], []]).length - 1 := by
  have hsv : segsValid 0 (1 / 2 : ℚ) 1 0 [[], [], [], []] := by
    refine ⟨?_, ?_, ?_, ?_, trivial⟩ <;> norm_num [List.chain'_cons]
  have h := c4_output_bounds_amended linearConstInterp [(0 : ℚ), 1, 2]
    [(1 : ℚ), 2] [(1 : ℚ), 0] 0 1 (by norm_num) 2 (by omega) (by decide)
    [[], [], [], []] (by decide) hsv (by decide) (by decide)
    (fun ix iy xb => by
      show (get_wall_control_points_y_linear ix iy xb).length = xb.length
      exact linear_walls_length ix iy xb)
  exact ⟨⟨by decide, by norm_num, by omega, by decide, by decide, hsv,
    by decide, by decide⟩, h.1 (by decide), h.2⟩

/-- C2 (amended): whenever `__call__` raises the infeasible-minimum
`AssertionError`, the recorded stage list already contains both the solve
stage and the evaluation stage — the check happens after the tridiagonal
solve and after the full output array has been computed, not before any
solve is attempted. -/
theorem c2_infeasible_min_amended
    (interp : LaiKaplanInterpolator) (x_bounds_in y_in x_bounds_out : List ℚ)
    (stages : List Stage)
    (h : laiKaplanCallS interp x_bounds_in y_in x_bounds_out =
      (stages, .error .infeasibleMin)) :
    Stage.solveStage ∈ stages ∧ Stage.evaluateStage ∈ stages := by
  simp only [laiKaplanCallS] at h
  split at h
  · injection h with h1 h2
    exact Except.noConfusion h2 (fun he => Err.noConfusion he)
  · split at h
    · injection h with h1 h2
      exact Except.noConfusion h2 (fun he => Err.noConfusion he)
    · split at h
      · injection h with h1 h2
        exact Except.noConfusion h2 (fun he => Err.noConfusion he)
      · split at h
        · injection h with h1 h2
          exact Except.noConfusion h2 (fun he => Err.noConfusion he)
        · split at h
          · injection h with h1 h2
            subst h1
            exact ⟨by decide, by decide⟩
          · split at h
            · injection h with h1 h2
              exact Except.noConfusion h2
            · split at h
              · split at h
                · injection h with h1 h2
                  subst h1
                  exact ⟨by decide, by decide⟩
                · injection h with h1 h2
                  subst h1
                  exact ⟨by decide, by decide⟩
              · injection h with h1 h2
                exact Except.noConfusion h2

/-- C2 amended, witness: on the concrete infeasible-minimum run
(`min_val = 0`, `y_in = [1, -1]`), the recorded stages are the full
five-stage list, which indeed contains the solve and evaluation stages. -/
theorem c2_infeasible_min_amended_witness :
    (laiKaplanCallS minZeroInterp [(0 : ℚ), 2, 4] [(1 : ℚ), -1]
        [(0 : ℚ), 1, 2, 3, 4] =
      ([.sortedCheck, .uniformCheck, .solveStage, .evaluateStage,
        .minCheckStage], .error .infeasibleMin)) ∧
    (Stage.solveStage ∈ [Stage.sortedCheck, Stage.uniformCheck,
        Stage.solveStage, Stage.evaluateStage, Stage.minCheckStage] ∧
      Stage.evaluateStage ∈ [Stage.sortedCheck, Stage.uniformCheck,
        Stage.solveStage, Stage.evaluateStage, Stage.minCheckStage]) :=
  ⟨by decide,
    c2_infeasible_min_amended minZeroInterp [(0 : ℚ), 2, 4] [(1 : ℚ), -1]
      [(0 : ℚ), 1, 2, 3, 4]
      [Stage.sortedCheck, Stage.uniformCheck, Stage.solveStage,
        Stage.evaluateStage, Stage.minCheckStage] (by decide)⟩

/-! ### Uniqueness of the tridiagonal solution and constant inputs -/

lemma thomasSweep_unique (a1 a2 a3 : ℚ) : ∀ (b : List ℚ) (pc pd : ℚ)
    (pairs : List (ℚ × ℚ)), thomasSweep a1 a2 a3 pc pd b = some pairs →
    ∀ (xs : List ℚ), xs.length = b.length →
    triRows a1 a2 a3 (pd - pc * xs.headD 0) xs b →
    xs = thomasBack pairs := by
  intro b
  induction b with
  | nil =>
    intro pc pd pairs hsw xs hlen htr
    have hp : pairs = [] := by
      simp only [thomasSweep] at hsw
      exact ((Option.some.injEq _ _).mp hsw).symm
    have hx : xs = [] := List.length_eq_zero.mp (by simpa using hlen)
    rw [hp, hx]
    rfl
  | cons bi rest ih =>
    intro pc pd pairs hsw xs hlen htr
    simp only [thomasSweep] at hsw
    by_cases hp : a2 - a1 * pc = 0
    · rw [if_pos hp] at hsw
      exact absurd hsw (by simp)
    · rw [if_neg hp] at hsw
      cases hs2 : thomasSweep a1 a2 a3 (a3 / (a2 - a1 * pc))
          ((bi - a1 * pd) / (a2 - a1 * pc)) rest with
      | none =>
        rw [hs2] at hsw
        exact absurd hsw (by simp)
      | some pairs2 =>
        rw [hs2] at hsw
        have hpairs : pairs = (a3 / (a2 - a1 * pc),
            (bi - a1 * pd) / (a2 - a1 * pc)) :: pairs2 :=
          ((Option.some.injEq _ _).mp hsw).symm
        subst hpairs
        cases xs with
        | nil => simp at hlen
        | cons x xs2 =>
          obtain ⟨hrow, htr2⟩ := htr
          simp only [List.headD_cons] at hrow
          have hlen2 : xs2.length = rest.length := by
            simp only [List.length_cons] at hlen
            omega
          have hxg : ∀ hh : ℚ, a1 * (pd - pc * x) + a2 * x + a3 * hh = bi →
              x = (bi - a1 * pd) / (a2 - a1 * pc) -
                a3 / (a2 - a1 * pc) * hh := by
            intro hh hrow2
            field_simp
            linear_combination hrow2
          have hx := hxg (xs2.headD 0) hrow
          rw [hx] at htr2
          have hxs2 := ih (a3 / (a2 - a1 * pc))
            ((bi - a1 * pd) / (a2 - a1 * pc)) pairs2 hs2 xs2 hlen2 htr2
          show x :: xs2 = ((bi - a1 * pd) / (a2 - a1 * pc) -
            a3 / (a2 - a1 * pc) * (thomasBack pairs2).headD 0) ::
            thomasBack pairs2
          rw [← hxs2, hx]

/-- `np.linalg.solve` semantics: when the sweep succeeds, any vector
satisfying the row equations is the returned solution — the returned
solution is unique. -/
lemma thomasSolve_unique (a1 a2 a3 : ℚ) (b c xs : List ℚ)
    (hsolve : thomasSolve a1 a2 a3 b = some c)
    (hlen : xs.length = b.length)
    (htr : triRows a1 a2 a3 0 xs b) : xs = c := by
  simp only [thomasSolve] at hsolve
  cases hsw : thomasSweep a1 a2 a3 0 0 b with
  | none =>
    rw [hsw] at hsolve
    exact absurd hsolve (by simp)
  | some pairs =>
    rw [hsw] at hsolve
    have hc : thomasBack pairs = c := by simpa using hsolve
    have htr2 : triRows a1 a2 a3 (0 - 0 * xs.headD 0) xs b := by
      rw [show (0 : ℚ) - 0 * xs.headD 0 = 0 from by ring]
      exact htr
    rw [← hc]
    exact thomasSweep_unique a1 a2 a3 b 0 0 pairs hsw xs hlen htr2

/-- Converse of `triRows_getD`: the index-form row equations imply the
structural row predicate. -/
lemma triRows_of_rows (a1 a2 a3 : ℚ) : ∀ (xs b : List ℚ) (xprev : ℚ),
    xs.length = b.length →
    (∀ i, i < b.length →
      a1 * (if i = 0 then xprev else xs.getD (i - 1) 0) +
        a2 * xs.getD i 0 + a3 * xs.getD (i + 1) 0 = b.getD i 0) →
    triRows a1 a2 a3 xprev xs b := by
  intro xs
  induction xs with
  | nil =>
    intro b xprev hlen hrows
    have hb : b = [] := List.length_eq_zero.mp (by simpa using hlen.symm)
    subst hb
    exact trivial
  | cons x xs2 ih =>
    intro b xprev hlen hrows
    cases b with
    | nil => simp at hlen
    | cons bi rest =>
      refine ⟨?_, ?_⟩
      · have h0 := hrows 0 (by simp)
        rw [if_pos rfl] at h0
        simp only [List.getD_cons_zero, List.getD_cons_succ] at h0
        rw [getD_zero_eq_headD] at h0
        exact h0
      · apply ih rest x (by simp only [List.length_cons] at hlen; omega)
        intro i hi
        have h1 := hrows (i + 1) (by simp only [List.length_cons]; omega)
        rw [if_neg (by omega)] at h1
        rw [show i + 1 - 1 = i from by omega] at h1
        simp only [List.getD_cons_succ] at h1
        have hhead : (x :: xs2).getD i 0 =
            (if i = 0 then x else xs2.getD (i - 1) 0) := by
          cases i with
          | zero => rfl
          | succ j =>
            rw [if_neg (by omega)]
            simp [List.getD_cons_succ]
        rw [hhead] at h1
        exact h1

/-- The constant vector satisfies the row equations of the constant-input
right-hand side (for `2 ≤ n`; for `n = 1` the lost `a1*e0` term breaks
this). -/
lemma mkB_replicate_rows (s v : ℚ) (hs : s ≠ 0) (n : ℕ) (hn : 2 ≤ n) :
    triRows a1Const a2Const a3Const 0 (List.replicate n v)
      (mkB s (List.replicate n v) (List.replicate (n + 1) v) v v) := by
  have hblen : (mkB s (List.replicate n v)
      (List.replicate (n + 1) v) v v).length = n := by
    rw [mkB_length _ _ _ _ _ (by simp)]
    simp
  have hdiv : (s * v) / (s / 2) = 2 * v := by
    field_simp
    ring
  have ha1 : a1Const = -(1 / 24) := by decide
  have ha2 : a2Const = 13 / 12 := by decide
  have ha3 : a3Const = -(1 / 24) := by decide
  have hb1 : beta1Const = 1 / 2 := by decide
  have hb2 : beta2Const = 1 / 2 := by decide
  apply triRows_of_rows
  · rw [hblen]
    simp
  · intro i hi
    rw [hblen] at hi
    rw [mkB_getD s v v (List.replicate n v) (List.replicate (n + 1) v)
      (by simp) (by simpa using hn) i (by simpa using hi)]
    rw [getD_replicate n i v hi,
      getD_replicate (n + 1) i v (by omega),
      getD_replicate (n + 1) (i + 1) v (by omega)]
    simp only [List.length_replicate]
    rw [hdiv]
    by_cases hi0 : i = 0
    · subst hi0
      rw [if_pos rfl, if_pos rfl, if_neg (show ¬ (0 = n - 1) from by omega)]
      rw [getD_replicate n (0 + 1) v (by omega)]
      rw [ha1, ha2, ha3, hb1, hb2]
      ring
    · by_cases hil : i = n - 1
      · rw [if_neg hi0, if_neg hi0, if_pos hil]
        rw [getD_replicate n (i - 1) v (by omega)]
        rw [List.getD_eq_default _ _ (by simp only [List.length_replicate]; omega)]
        rw [ha1, ha2, ha3, hb1, hb2]
        ring
      · rw [if_neg hi0, if_neg hi0, if_neg hil]
        rw [getD_replicate n (i - 1) v (by omega),
          getD_replicate n (i + 1) v (by omega)]
        rw [ha1, ha2, ha3, hb1, hb2]
        ring

lemma lkC_length (interp : LaiKaplanInterpolator) (x0 s : ℚ) (n : ℕ)
    (y_in : List ℚ) (hy : y_in.length = n)
    (hwlen : (lkWalls interp x0 s n y_in).length = n + 1) :
    (lkC interp x0 s n y_in).length = n := by
  obtain ⟨_, _, hclen0⟩ := lkC_spec interp x0 s n y_in
  rw [hclen0, mkB_length _ _ _ _ _ (by rw [hwlen, hy])]
  exact hy

lemma lkCpY_len (interp : LaiKaplanInterpolator) (x0 s : ℚ) (n : ℕ)
    (y_in : List ℚ) (hy : y_in.length = n)
    (hwlen : (lkWalls interp x0 s n y_in).length = n + 1) :
    (lkCpY interp x0 s n y_in).length = 2 * n + 3 := by
  have hwv : (weaveWallsIntervals (lkWalls interp x0 s n y_in)
      (lkC interp x0 s n y_in)).length = 2 * n + 1 := by
    rw [weaveWI_length _ _
      (by rw [hwlen, lkC_length interp x0 s n y_in hy hwlen])]
    rw [lkC_length interp x0 s n y_in hy hwlen]
  show ((((lkEE interp x0 s n y_in).1 ::
    weaveWallsIntervals (lkWalls interp x0 s n y_in)
      (lkC interp x0 s n y_in)) ++
    [(lkEE interp x0 s n y_in).2])).length = _
  simp only [List.length_append, List.length_cons, List.length_nil, hwv]

lemma lkCpY_getD_odd (interp : LaiKaplanInterpolator) (x0 s : ℚ) (n : ℕ)
    (y_in : List ℚ) (hy : y_in.length = n)
    (hwlen : (lkWalls interp x0 s n y_in).length = n + 1)
    (i : ℕ) (hi : i ≤ n) :
    (lkCpY interp x0 s n y_in).getD (2 * i + 1) 0 =
      (lkWalls interp x0 s n y_in).getD i 0 := by
  have hwv : (weaveWallsIntervals (lkWalls interp x0 s n y_in)
      (lkC interp x0 s n y_in)).length = 2 * n + 1 := by
    rw [weaveWI_length _ _
      (by rw [hwlen, lkC_length interp x0 s n y_in hy hwlen])]
    rw [lkC_length interp x0 s n y_in hy hwlen]
  show ((((lkEE interp x0 s n y_in).1 ::
    weaveWallsIntervals (lkWalls interp x0 s n y_in)
      (lkC interp x0 s n y_in)) ++
    [(lkEE interp x0 s n y_in).2])).getD (2 * i + 1) 0 = _
  rw [cpY_getD_mid _ _ _ (2 * i) (by rw [hwv]; omega)]
  rw [weaveWI_getD_even (lkC interp x0 s n y_in) _
    (by rw [hwlen, lkC_length interp x0 s n y_in hy hwlen]) i]

lemma lkCpY_getD_even (interp : LaiKaplanInterpolator) (x0 s : ℚ) (n : ℕ)
    (y_in : List ℚ) (hy : y_in.length = n)
    (hwlen : (lkWalls interp x0 s n y_in).length = n + 1)
    (i : ℕ) (hi : i < n) :
    (lkCpY interp x0 s n y_in).getD (2 * i + 2) 0 =
      (lkC interp x0 s n y_in).getD i 0 := by
  have hwv : (weaveWallsIntervals (lkWalls interp x0 s n y_in)
      (lkC interp x0 s n y_in)).length = 2 * n + 1 := by
    rw [weaveWI_length _ _
      (by rw [hwlen, lkC_length interp x0 s n y_in hy hwlen])]
    rw [lkC_length interp x0 s n y_in hy hwlen]
  show ((((lkEE interp x0 s n y_in).1 ::
    weaveWallsIntervals (lkWalls interp x0 s n y_in)
      (lkC interp x0 s n y_in)) ++
    [(lkEE interp x0 s n y_in).2])).getD (2 * i + 1 + 1) 0 = _
  rw [cpY_getD_mid _ _ _ (2 * i + 1) (by rw [hwv]; omega)]
  rw [weaveWI_getD_odd (lkC interp x0 s n y_in) _
    (by rw [hwlen, lkC_length interp x0 s n y_in hy hwlen]) i]

lemma lkCpY_getD_top (interp : LaiKaplanInterpolator) (x0 s : ℚ) (n : ℕ)
    (y_in : List ℚ) (hy : y_in.length = n)
    (hwlen : (lkWalls interp x0 s n y_in).length = n + 1) :
    (lkCpY interp x0 s n y_in).getD (2 * n + 2) 0 =
      (lkEE interp x0 s n y_in).2 := by
  have hwv : (weaveWallsIntervals (lkWalls interp x0 s n y_in)
      (lkC interp x0 s n y_in)).length = 2 * n + 1 := by
    rw [weaveWI_length _ _
      (by rw [hwlen, lkC_length interp x0 s n y_in hy hwlen])]
    rw [lkC_length interp x0 s n y_in hy hwlen]
  have h := cpY_getD_last (lkEE interp x0 s n y_in).1
    (lkEE interp x0 s n y_in).2
    (weaveWallsIntervals (lkWalls interp x0 s n y_in)
      (lkC interp x0 s n y_in))
  rw [hwv] at h
  rw [show (2 * n + 2 : ℕ) = 2 * n + 1 + 1 from by omega]
  exact h

/-- On a constant input with constant extrapolation and constant walls, the
solved control points are the constant itself (by uniqueness of the
tridiagonal solution), hence every control point equals `v`. -/
lemma lkCpY_const (interp : LaiKaplanInterpolator) (x0 s : ℚ) (hs : 0 < s)
    (n : ℕ) (hn : 2 ≤ n) (v : ℚ)
    (hee : lkEE interp x0 s n (List.replicate n v) = (v, v))
    (hwalls : lkWalls interp x0 s n (List.replicate n v) =
      List.replicate (n + 1) v) :
    ∀ k, k < 2 * n + 3 →
      (lkCpY interp x0 s n (List.replicate n v)).getD k 0 = v := by
  have hsne : s ≠ 0 := ne_of_gt hs
  have hy : (List.replicate n v).length = n := by simp
  have hwlen : (lkWalls interp x0 s n (List.replicate n v)).length = n + 1 := by
    rw [hwalls]
    simp
  obtain ⟨hsolve, htri, hclen0⟩ := lkC_spec interp x0 s n (List.replicate n v)
  have hb : mkB s (List.replicate n v)
      (lkWalls interp x0 s n (List.replicate n v))
      (lkEE interp x0 s n (List.replicate n v)).1
      (lkEE interp x0 s n (List.replicate n v)).2 =
      mkB s (List.replicate n v) (List.replicate (n + 1) v) v v := by
    rw [hwalls, hee]
  have hlkc : lkC interp x0 s n (List.replicate n v) =
      List.replicate n v := by
    have huniq := thomasSolve_unique a1Const a2Const a3Const
      (mkB s (List.replicate n v) (List.replicate (n + 1) v) v v)
      (lkC interp x0 s n (List.replicate n v)) (List.replicate n v)
      (by rw [← hb]; exact hsolve)
      (by rw [mkB_length _ _ _ _ _ (by simp)])
      (mkB_replicate_rows s v hsne n hn)
    exact huniq.symm
  intro k hk
  rcases Nat.even_or_odd k with he | ho
  · obtain ⟨i, hi⟩ := he
    by_cases hi0 : i = 0
    · rw [show k = 0 from by omega]
      show (lkEE interp x0 s n (List.replicate n v)).1 = v
      rw [hee]
    · by_cases hin : i = n + 1
      · rw [show k = 2 * n + 2 from by omega]
        rw [lkCpY_getD_top interp x0 s n (List.replicate n v) hy hwlen]
        rw [hee]
      · rw [show k = 2 * (i - 1) + 2 from by omega]
        rw [lkCpY_getD_even interp x0 s n (List.replicate n v) hy hwlen
          (i - 1) (by omega)]
        rw [hlkc]
        exact getD_replicate n (i - 1) v (by omega)
  · obtain ⟨i, hi⟩ := ho
    rw [show k = 2 * i + 1 from hi]
    rw [lkCpY_getD_odd interp x0 s n (List.replicate n v) hy hwlen i
      (by omega)]
    rw [hwalls]
    exact getD_replicate (n + 1) i v (by omega)

/-- With all control points equal, every centred-difference gradient entry
is zero (out-of-range entries are the `getD` default `0` as well). -/
lemma lkGrads_const (interp : LaiKaplanInterpolator) (x0 s : ℚ) (hs : 0 < s)
    (n : ℕ) (hn : 2 ≤ n) (v : ℚ)
    (hee : lkEE interp x0 s n (List.replicate n v) = (v, v))
    (hwalls : lkWalls interp x0 s n (List.replicate n v) =
      List.replicate (n + 1) v) :
    ∀ g, (lkGrads interp x0 s n (List.replicate n v)).getD g 0 = 0 := by
  have hy : (List.replicate n v).length = n := by simp
  have hwlen : (lkWalls interp x0 s n (List.replicate n v)).length = n + 1 := by
    rw [hwalls]
    simp
  have hcpylen := lkCpY_len interp x0 s n (List.replicate n v) hy hwlen
  intro g
  by_cases hg : g + 2 < 2 * n + 3
  · show (List.zipWith (fun a b => (b - a) / (2 * (s / 2)))
      (lkCpY interp x0 s n (List.replicate n v))
      ((lkCpY interp x0 s n (List.replicate n v)).drop 2)).getD g 0 = 0
    rw [grads_getD _ _ g (by rw [hcpylen]; omega)]
    rw [lkCpY_const interp x0 s hs n hn v hee hwalls (g + 2) hg,
      lkCpY_const interp x0 s hs n hn v hee hwalls g (by omega)]
    simp
  · apply List.getD_eq_default
    show (List.zipWith (fun a b => (b - a) / (2 * (s / 2)))
      (lkCpY interp x0 s n (List.replicate n v))
      ((lkCpY interp x0 s n (List.replicate n v)).drop 2)).length ≤ g
    rw [List.length_zipWith, List.length_drop, hcpylen]
    omega

/-- A patch with equal endpoint values and zero gradients has a linear
antiderivative: differences are `v` times the width. -/
lemma patchAnti_const (f : LaiKaplanF) (v : ℚ) (hδ : f.delta ≠ 0)
    (hs : f.s_i = v) (hs2 : f.s_i_plus_half = v) (hm : f.m_i = 0)
    (hm2 : f.m_i_plus_half = 0) (x y : ℚ) :
    patchAnti f x - patchAnti f y = v * (x - y) := by
  simp only [patchAnti, hs, hs2, hm, hm2, hq00, hq01, hq10, hq11]
  field_simp
  ring

/-- If every control point in range is `v` and every gradient entry is `0`,
the evaluation walk emits `v` for every output sub-interval. -/
lemma expectedVals_const (cpY grads : List ℚ) (v x0 δ : ℚ) (hδ : δ ≠ 0)
    (N : ℕ) (hcpY : ∀ k, k < N → cpY.getD k 0 = v)
    (hgrads : ∀ g, grads.getD g 0 = 0) :
    ∀ (segs : List (List ℚ)) (k : ℕ) (a : ℚ), k + segs.length < N →
    segsValid x0 δ k a segs →
    ∀ z ∈ expectedVals cpY grads x0 δ k a segs, z = v := by
  intro segs
  induction segs with
  | nil =>
    intro k a hk hval z hz
    simp [expectedVals] at hz
  | cons ts rest ih =>
    intro k a hk hval z hz
    obtain ⟨hchain, hval2⟩ := hval
    simp only [expectedVals, List.mem_append] at hz
    rcases hz with hz | hz
    · refine pairAverages_linear _ v ?_ _ hchain z hz
      intro x y
      refine patchAnti_const _ v hδ ?_ ?_ ?_ ?_ x y
      · exact hcpY k (by simp only [List.length_cons] at hk; omega)
      · exact hcpY (k + 1) (by simp only [List.length_cons] at hk; omega)
      · exact hgrads (k - 1)
      · exact hgrads k
    · exact ih (k + 1) (x0 + (k : ℚ) * δ)
        (by simp only [List.length_cons] at hk; omega) hval2 z hz

/-- C3 (amended): constant reproduction holds exactly — but only on
strictly increasing output grids aligned with the half-interval grid and
starting at the domain's left edge (general in-domain grids are rejected by
the evaluation loop), with at least two input values (for `n = 1` the
right-hand-side assembly loses the `a1*e0` term and the solve is not
constant), and for extrapolation and wall policies that return the constant
on constant input: then `__call__` succeeds and every output value is
exactly `v`. -/
theorem c3_constant_amended
    (interp : LaiKaplanInterpolator) (x0 s v : ℚ) (hs : 0 < s)
    (n : ℕ) (hn : 2 ≤ n)
    (segs : List (List ℚ)) (hslen : segs.length = 2 * n)
    (hvalid : segsValid x0 (s / 2) 1 x0 segs)
    (hrtol : 0 ≤ interp.rtol_uniform_steps)
    (hmin : interp.min_val = none)
    (hw : ∀ ix iy xb,
      (interp.get_wall_control_points_y_from_interval_ys ix iy xb).length =
        xb.length)
    (hee : lkEE interp x0 s n (List.replicate n v) = (v, v))
    (hwalls : lkWalls interp x0 s n (List.replicate n v) =
      List.replicate (n + 1) v) :
    ∃ y_out,
      laiKaplanCall interp (uniformBounds x0 s (n + 1))
        (List.replicate n v) (x0 :: cellsOut x0 (s / 2) 1 segs) =
        .ok y_out ∧
      ∀ z ∈ y_out, z = v := by
  refine ⟨expectedVals (lkCpY interp x0 s n (List.replicate n v))
    (lkGrads interp x0 s n (List.replicate n v)) x0 (s / 2) 1 x0 segs,
    ?_, ?_⟩
  · show (laiKaplanCallS interp (uniformBounds x0 s (n + 1))
      (List.replicate n v) (x0 :: cellsOut x0 (s / 2) 1 segs)).2 = _
    rw [callS_structured interp x0 s hs n (by omega) (List.replicate n v)
      (by simp) segs hslen hvalid hrtol hmin hw]
  · exact expectedVals_const _ _ v x0 (s / 2)
      (by intro h; exact (ne_of_gt hs) (by linarith)) (2 * n + 3)
      (lkCpY_const interp x0 s hs n hn v hee hwalls)
      (lkGrads_const interp x0 s hs n hn v hee hwalls)
      segs 1 x0 (by omega) hvalid

/-- C3 amended, witness: `y_in = [3, 3]` on bounds `[0, 1, 2]`, output grid
`[0, 1/2, 1, 3/2, 2]` — the linear wall policy and constant extrapolation
return `3` everywhere, and the interpolated output is exactly `[3, 3, 3, 3]`
(every value `3`). -/
theorem c3_constant_amended_witness :
    ((0 : ℚ) < 1 ∧ 2 ≤ 2 ∧
      ([[], [], [], []] : List (List ℚ)).length = 2 * 2 ∧
      segsValid 0 (1 / 2 : ℚ) 1 0 [[], [], [], []] ∧
      0 ≤ linearConstInterp.rtol_uniform_steps ∧
      linearConstInterp.min_val = none ∧
      lkEE linearConstInterp 0 1 2 (List.replicate 2 (3 : ℚ)) = (3, 3) ∧
      lkWalls linearConstInterp 0 1 2 (List.replicate 2 (3 : ℚ)) =
        List.replicate (2 + 1) 3) ∧
    ∃ y_out,
      laiKaplanCall linearConstInterp (uniformBounds 0 1 (2 + 1))
        (List.replicate 2 (3 : ℚ))
        ((0 : ℚ) :: cellsOut 0 (1 / 2) 1 [[], [], [], []]) = .ok y_out ∧
      ∀ z ∈ y_out, z = (3 : ℚ) := by
  have hsv : segsValid 0 (1 / 2 : ℚ) 1 0 [[], [], [], []] := by
    refine ⟨?_, ?_, ?_, ?_, trivial⟩ <;> norm_num [List.chain'_cons]
  exact ⟨⟨by norm_num, by omega, by decide, hsv, by decide, by decide,
      by decide, by decide⟩,
    c3_constant_amended linearConstInterp 0 1 3 (by norm_num) 2 (by omega)
      [[], [], [], []] (by decide) hsv (by decide) (by decide)
      (fun ix iy xb => by
        show (get_wall_control_points_y_linear ix iy xb).length = xb.length
        exact linear_walls_length ix iy xb)
      (by decide) (by decide)⟩

/-! ### The annual-to-monthly façade (`annual_to_monthly.py`) -/

/-- Floor of a rational as integer floor-division of numerator by
denominator (kept free of the `FloorRing` type class so that it evaluates
by reduction). -/
def ratFloor (q : ℚ) : ℤ := Int.fdiv q.num (q.den : ℤ)

/-- Ceiling of a rational. -/
def ratCeil (q : ℚ) : ℤ := -ratFloor (-q)

/-- `np.round` to an integer, half to even, in exact arithmetic. -/
def roundHalfEven (t : ℚ) : ℤ :=
  let n := ratFloor t
  let f := t - (n : ℚ)
  if f < 1 / 2 then n
  else if 1 / 2 < f then n + 1
  else if n % 2 = 0 then n else n + 1

/-- `np.round(q, d)`: round to `d` decimal places, half to even. -/
def npRound (d : ℕ) (q : ℚ) : ℚ :=
  (roundHalfEven (q * 10 ^ d) : ℚ) / 10 ^ d

/-- `np.arange(start, stop, step)` (positive step): `start + k*step` for
`k = 0, 1, ...` while the value is below `stop`; the length is
`ceil((stop - start) / step)`. -/
def npArange (start stop step : ℚ) : List ℚ :=
  (List.range (Int.toNat (ratCeil ((stop - start) / step)))).map
    (fun k => start + (k : ℚ) * step)

/-- Modelled from the spec: `core.mean_preserving_interpolation` (the
module `core.py` is not part of the provided sources). Per spec section 4.7,
it invokes the configured algorithm on the boundary-form inputs and, when
verification is enabled, re-aggregates the output back to the input
intervals with the grouping utilities and compares against `y_in` within
the configured absolute/relative tolerances, raising a mean-preservation
verification failure otherwise. -/
def mean_preserving_interpolation (alg : LaiKaplanInterpolator)
    (x_bounds_in y_in x_bounds_out : List ℚ) (verify : Bool) :
    Except Err (List ℚ) :=
  match laiKaplanCall alg x_bounds_in y_in x_bounds_out with
  | .error e => .error e
  | .ok y_out =>
    if verify then
      match get_group_averages x_bounds_out y_out x_bounds_in with
      | .error e => .error e
      | .ok avgs =>
        if (List.zip avgs y_in).all
            (fun p => decide (|p.1 - p.2| ≤ alg.atol + alg.rtol * |p.2|)) then
          .ok y_out
        else .error .meanNotPreserved
    else .ok y_out

/-- `annual_to_monthly.DEFAULT_ALGORITHM`: the Lai-Kaplan interpolator with
the linear-with-flat-override wall policy, the default constant-left /
cubic-right extrapolation, and a configured minimum value of `0`. The
minimum-value applier (Rymes-Meyers, whose module is not part of the
provided sources and is not exercised by the runs proved about below) is
modelled as the identity on the already-computed values. -/
def defaultMonthlyInterp : LaiKaplanInterpolator := {
  extrapolate_fn := fun xs ys xl xr =>
    extrapolate_y_interval_values .constant .cubic_extrapolation xs ys xl xr
  get_wall_control_points_y_from_interval_ys :=
    get_wall_control_points_y_linear_with_flat_override_on_left
  min_val_applier := fun sv _ _ _ _ _ _ => sv
  min_val := some 0 }

/-- `annual_to_monthly.interpolate_annual_mean_to_monthly`, up to the final
calendar stamping (the returned `xr.DataArray` carries exactly the
`monthly_vals` list as data): appends one synthetic end-of-series year to
form `x_bounds_in`, builds the monthly output boundaries
`np.round(np.arange(y0, ylast + 1/24, 1/12), month_rounding)`, and calls
`mean_preserving_interpolation`. -/
def interpolate_annual_mean_to_monthly (values years : List ℚ)
    (alg : LaiKaplanInterpolator) (month_rounding : ℕ)
    (verify : Bool) : Except Err (List ℚ) :=
  let x_bounds_in := years ++ [years.getLastD 0 + 1]
  let x_bounds_out := (npArange (x_bounds_in.headD 0)
    (x_bounds_in.getLastD 0 + 1 / 12 / 2) (1 / 12)).map (npRound month_rounding)
  mean_preserving_interpolation alg x_bounds_in values x_bounds_out verify

/-- C5 counterexample: for `y_in = [5,5,5,5,8,8]` over years `[2000..2005]`
with the default monthly configuration (flat-override walls), the run
succeeds with 72 monthly values but already the first month of 2000 is not
exactly `5` (it is `5.0000005…`), and December 2003 — the last month of the
run of 5s — deviates by about `0.134`; the global tridiagonal solve couples
every cell to the step, so pointwise exactness fails throughout. -/
theorem c5_flat_start_counterexample :
    ∃ y_mon,
      interpolate_annual_mean_to_monthly [5, 5, 5, 5, 8, 8]
        [2000, 2001, 2002, 2003, 2004, 2005] defaultMonthlyInterp 4 true =
        .ok y_mon ∧
      y_mon.length = 72 ∧
      y_mon.headD 0 ≠ 5 ∧
      y_mon.getD 47 0 ≠ 5 := by
  refine ⟨(interpolate_annual_mean_to_monthly [5, 5, 5, 5, 8, 8]
    [2000, 2001, 2002, 2003, 2004, 2005] defaultMonthlyInterp 4
    true).toOption.getD [], ?_⟩
  set_option maxRecDepth 400000 in decide

/-- C5 (amended): the flat start is preserved in the mean and in the wall
control points, not pointwise: the run succeeds with 72 monthly values,
the wall control points at the boundaries 2000—2004 are exactly `5` (the
flat-override forces the wall at the step back to `5`), re-aggregating the
monthly values to annual means reproduces `[5,5,5,5,8,8]` exactly, every
month of 2000 lies within `10^-4` of `5`, and every month of the flat run
2000-01 — 2003-12 lies within `0.3` of `5` — but none equals `5`
exactly. -/
theorem c5_flat_start_amended :
    ∃ y_mon,
      interpolate_annual_mean_to_monthly [5, 5, 5, 5, 8, 8]
        [2000, 2001, 2002, 2003, 2004, 2005] defaultMonthlyInterp 4 true =
        .ok y_mon ∧
      y_mon.length = 72 ∧
      get_group_averages
        ((npArange 2000 (2006 + 1 / 12 / 2) (1 / 12)).map (npRound 4))
        y_mon [2000, 2001, 2002, 2003, 2004, 2005, 2006] =
        .ok [5, 5, 5, 5, 8, 8] ∧
      (lkWalls defaultMonthlyInterp 2000 1 6 [5, 5, 5, 5, 8, 8]).take 5 =
        [5, 5, 5, 5, 5] ∧
      ((y_mon.take 12).all (fun z => decide (|z - 5| < 1 / 10 ^ 4)) = true) ∧
      ((y_mon.take 48).all (fun z => decide (|z - 5| < 3 / 10)) = true) := by
  refine ⟨(interpolate_annual_mean_to_monthly [5, 5, 5, 5, 8, 8]
    [2000, 2001, 2002, 2003, 2004, 2005] defaultMonthlyInterp 4
    true).toOption.getD [], ?_⟩
  set_option maxRecDepth 400000 in decide

end Cmip7
